import Mathlib

/-!
# go_micros: the asynchronous audit pipeline and the user store

A shallow embedding of `services/audit_service.go`, `services/integration_service.go`,
`services/user_service.go` and `models/user.go`.

* A Go `string` is a sequence of bytes (`GoString`), a buffered channel is a FIFO list
  with a capacity (`Chan`), the goroutines are the labels of a step function
  (`Action`, `step`), and what the program does to the outside world (log records,
  calls to the object store) is an explicit list of `Effect`s.
* The standard-library functions the services call (`utf8`, `time.Time.Format`,
  `encoding/json`) are embedded from their documented behaviour.
-/

namespace GoMicros

/-! ## Go strings and UTF-8 -/

/-- A Go `string`: a sequence of bytes, each element a number below 256. -/
abbrev GoString := List Nat

/-- The constant `utf8.RuneError` (U+FFFD). -/
def RuneError : Nat := 0xFFFD

/-- The function `utf8.EncodeRune`: the UTF-8 bytes of a rune; surrogates and values above
U+10FFFF are encoded as U+FFFD. -/
def encodeRune (r : Nat) : List Nat :=
  if r < 0x80 then [r]
  else if r < 0x800 then [0xC0 + r / 64, 0x80 + r % 64]
  else if (0xD800 ≤ r ∧ r ≤ 0xDFFF) ∨ 0x10FFFF < r then [0xEF, 0xBF, 0xBD]
  else if r < 0x10000 then [0xE0 + r / 4096, 0x80 + r / 64 % 64, 0x80 + r % 64]
  else [0xF0 + r / 262144, 0x80 + r / 4096 % 64, 0x80 + r / 64 % 64, 0x80 + r % 64]

/-- A string literal of the source as a Go string. -/
def lit (s : String) : GoString := (s.toList.map (fun c => encodeRune c.toNat)).flatten

/-- A continuation byte `10xxxxxx`. -/
def isCont (b : Nat) : Bool := decide (0x80 ≤ b ∧ b ≤ 0xBF)

/-- The function `utf8.DecodeRuneInString`: the first rune of `s` and its width in bytes;
`(RuneError, 0)` on the empty string and `(RuneError, 1)` on an invalid or short encoding. -/
def decodeRune (s : List Nat) : Nat × Nat :=
  match s with
  | [] => (RuneError, 0)
  | b0 :: rest =>
    if b0 < 0x80 then (b0, 1)
    else if 0xC2 ≤ b0 ∧ b0 ≤ 0xDF then
      match rest with
      | b1 :: _ => if isCont b1 then ((b0 % 32) * 64 + b1 % 64, 2) else (RuneError, 1)
      | _ => (RuneError, 1)
    else if 0xE0 ≤ b0 ∧ b0 ≤ 0xEF then
      match rest with
      | b1 :: b2 :: _ =>
        let lo := if b0 = 0xE0 then 0xA0 else 0x80
        let hi := if b0 = 0xED then 0x9F else 0xBF
        if lo ≤ b1 ∧ b1 ≤ hi ∧ isCont b2 then
          ((b0 % 16) * 4096 + (b1 % 64) * 64 + b2 % 64, 3)
        else (RuneError, 1)
      | _ => (RuneError, 1)
    else if 0xF0 ≤ b0 ∧ b0 ≤ 0xF4 then
      match rest with
      | b1 :: b2 :: b3 :: _ =>
        let lo := if b0 = 0xF0 then 0x90 else 0x80
        let hi := if b0 = 0xF4 then 0x8F else 0xBF
        if lo ≤ b1 ∧ b1 ≤ hi ∧ isCont b2 ∧ isCont b3 then
          ((b0 % 8) * 262144 + (b1 % 64) * 4096 + (b2 % 64) * 64 + b3 % 64, 4)
        else (RuneError, 1)
      | _ => (RuneError, 1)
    else (RuneError, 1)

/-- A Unicode scalar value: a code point that is not a surrogate. -/
def isScalar (r : Nat) : Prop := r < 0xD800 ∨ (0xDFFF < r ∧ r ≤ 0x10FFFF)

instance (r : Nat) : Decidable (isScalar r) := by unfold isScalar; infer_instance

/-- The UTF-8 encoding of a sequence of runes. -/
def utf8 (rs : List Nat) : GoString := (rs.map encodeRune).flatten

/-- Validity of a Go string as UTF-8: it is the encoding of a sequence of scalar values. -/
def ValidUTF8 (s : GoString) : Prop := ∃ rs : List Nat, (∀ r ∈ rs, isScalar r) ∧ s = utf8 rs

/-! ## Decimal numbers -/

/-- The ASCII digit of `d`. -/
def digitChar (d : Nat) : Nat := 48 + d

/-- The decimal digits of `n`, most significant first, in front of `acc`. -/
def digitsLoop : Nat → Nat → List Nat → List Nat
  | 0, _, acc => acc
  | fuel + 1, n, acc =>
    if n < 10 then digitChar n :: acc
    else digitsLoop fuel (n / 10) (digitChar (n % 10) :: acc)

/-- Decimal text of a natural number (`strconv.FormatUint(n, 10)`). -/
def formatNat (n : Nat) : List Nat := digitsLoop (n + 1) n []

/-- Decimal text of an integer (`strconv.Itoa`, the verb `%d`): a minus sign for a negative
number, then the digits. -/
def formatInt (x : Int) : List Nat :=
  if x < 0 then 45 :: formatNat x.natAbs else formatNat x.natAbs

/-- The function `appendInt` of package `time`: sign, then the digits padded with zeros to
`width`. -/
def appendInt (x : Int) (width : Nat) : List Nat :=
  let ds := formatNat x.natAbs
  let padded := List.replicate (width - ds.length) 48 ++ ds
  if x < 0 then 45 :: padded else padded

/-- The last `w` decimal digits of `n`, most significant first. -/
def fixedDigits : Nat → Nat → List Nat
  | 0, _ => []
  | w + 1, n => fixedDigits w (n / 10) ++ [digitChar (n % 10)]

/-! ## time.Time -/

/-- A `time.Time` in UTC, as returned by `time.Now().UTC()`: no monotonic reading, location
UTC, given by its civil fields. -/
structure Time where
  year : Int
  month : Nat
  day : Nat
  hour : Nat
  minute : Nat
  second : Nat
  nsec : Nat
deriving DecidableEq, Repr

/-- Drop the trailing ASCII zeros of a digit string. -/
def trimZeros (ds : List Nat) : List Nat := (ds.reverse.dropWhile (fun d => d == 48)).reverse

/-- The function `appendNano` for the layout `.999999999`: nothing when the nanoseconds are
zero, otherwise a dot and nine digits without the trailing zeros. -/
def appendNano (nsec : Nat) : List Nat :=
  if nsec = 0 then [] else 46 :: trimZeros (appendInt nsec 9)

/-- The call `t.Format(time.RFC3339Nano)` on a UTC time: `2006-01-02T15:04:05.999999999Z`. -/
def formatRFC3339Nano (t : Time) : GoString :=
  appendInt t.year 4 ++ [45] ++ appendInt t.month 2 ++ [45] ++ appendInt t.day 2 ++ [84]
    ++ appendInt t.hour 2 ++ [58] ++ appendInt t.minute 2 ++ [58] ++ appendInt t.second 2
    ++ appendNano t.nsec ++ [90]

/-- A Go `error`, by its message. -/
abbrev GoError := GoString

/-- The method `Time.MarshalJSON`: the quoted RFC 3339 text, an error when the year is
outside `[0,9999]`. -/
def Time.MarshalJSON (t : Time) : Except GoError (List Nat) :=
  if t.year < 0 ∨ 10000 ≤ t.year then
    .error (lit "Time.MarshalJSON: year outside of range [0,9999]")
  else .ok ([34] ++ formatRFC3339Nano t ++ [34])

/-! ## encoding/json -/

/-- The table `htmlSafeSet` of `encoding/json`: the ASCII bytes written as they are. -/
def htmlSafe (b : Nat) : Bool :=
  decide (0x20 ≤ b ∧ b < 0x80 ∧ b ≠ 0x22 ∧ b ≠ 0x26 ∧ b ≠ 0x3C ∧ b ≠ 0x3E ∧ b ≠ 0x5C)

/-- The table `hex` of `encoding/json`, `"0123456789abcdef"`. -/
def hexDigit (d : Nat) : Nat := if d < 10 then 48 + d else 87 + d

/-- What `appendString` writes for an ASCII byte outside `htmlSafeSet`: two-character
escapes for the backslash, the quote and the usual control characters (as of Go 1.22; older
releases write backspace and form feed as `\u0008` and `\u000c`, which `unquote` reads
alike), `\u00XX` for the rest. -/
def escapeASCII (b : Nat) : List Nat :=
  if b = 0x5C ∨ b = 0x22 then [0x5C, b]
  else if b = 8 then [0x5C, 98]
  else if b = 12 then [0x5C, 102]
  else if b = 10 then [0x5C, 110]
  else if b = 13 then [0x5C, 114]
  else if b = 9 then [0x5C, 116]
  else [0x5C, 117, 48, 48, hexDigit (b / 16), hexDigit (b % 16)]

/-- The loop of `appendString` (with `escapeHTML`): one iteration per unit of fuel, on the
bytes that are left. -/
def appendStringLoop : Nat → List Nat → List Nat
  | 0, _ => []
  | _ + 1, [] => []
  | fuel + 1, b :: rest =>
    if b < 0x80 then
      (if htmlSafe b then [b] else escapeASCII b) ++ appendStringLoop fuel rest
    else
      let cs := decodeRune ((b :: rest).take 4)
      if cs.1 = RuneError ∧ cs.2 = 1 then
        lit "\\ufffd" ++ appendStringLoop fuel rest
      else if cs.1 = 0x2028 ∨ cs.1 = 0x2029 then
        lit "\\u202" ++ [hexDigit (cs.1 % 16)] ++ appendStringLoop fuel ((b :: rest).drop cs.2)
      else
        (b :: rest).take cs.2 ++ appendStringLoop fuel ((b :: rest).drop cs.2)

/-- The function `appendString` of `encoding/json` as `json.Marshal` calls it: the quoted
JSON text of a Go string. The loop runs at most once per byte. -/
def appendString (src : GoString) : List Nat :=
  [0x22] ++ appendStringLoop src.length src ++ [0x22]

/-- What `appendString` writes for one rune of a valid string: an ASCII byte as it is or
escaped, U+2028 and U+2029 escaped, any other rune as its UTF-8 bytes. -/
def quoteRune (r : Nat) : List Nat :=
  if r < 0x80 then (if htmlSafe r then [r] else escapeASCII r)
  else if r = 0x2028 ∨ r = 0x2029 then lit "\\u202" ++ [hexDigit (r % 16)]
  else encodeRune r

/-! ## The audit pipeline: data -/

/-- The struct `auditEvent`. -/
structure auditEvent where
  Action : GoString
  UserID : Int
  RemoteIP : GoString
  CreatedAt : Time
deriving DecidableEq, Repr

/-- The struct `notifyEvent`. -/
structure notifyEvent where
  Topic : GoString
  Recipient : GoString
  CreatedAt : Time
deriving DecidableEq, Repr

/-- The call `json.Marshal(ev)` on an `auditEvent`: the fields in declaration order under
their tags; it fails exactly when `Time.MarshalJSON` does. -/
def jsonMarshal (ev : auditEvent) : Except GoError (List Nat) :=
  match ev.CreatedAt.MarshalJSON with
  | .error e => .error (lit "json: error calling MarshalJSON for type time.Time: " ++ e)
  | .ok t =>
    .ok (lit "\x7b\"action\":" ++ appendString ev.Action
      ++ lit ",\"user_id\":" ++ formatInt ev.UserID
      ++ lit ",\"remote_ip\":" ++ appendString ev.RemoteIP
      ++ lit ",\"created_at\":" ++ t ++ lit "\x7d")

/-- The struct `IntegrationService`; the storage client is the outside world. -/
structure IntegrationService where
  bucket : GoString
  enabled : Bool
deriving DecidableEq, Repr

/-- The method `Enabled` on a possibly nil `*IntegrationService`. -/
def IntegrationService.Enabled (s : Option IntegrationService) : Bool :=
  match s with
  | none => false
  | some i => i.enabled

/-- Levels of the `slog` logger. -/
inductive Level where
  | Info
  | Error
deriving DecidableEq, Repr

/-- A value of a log attribute. -/
inductive LogValue where
  | str (s : GoString)
  | int (n : Int)
  | err (e : GoError)
deriving DecidableEq, Repr

/-- One record handed to the logger. -/
structure LogRecord where
  level : Level
  msg : GoString
  attrs : List (GoString × LogValue)
deriving DecidableEq, Repr

/-- What the pipeline does to the outside world. -/
inductive Effect where
  | log (r : LogRecord)
  | uploadAuditLog (objectName : GoString) (payload : List Nat)
  | putObject (bucket objectName : GoString) (payload : List Nat) (contentType : GoString)
deriving DecidableEq, Repr

/-- A buffered channel: the buffered values, oldest first, and the capacity. -/
structure Chan (α : Type) where
  buf : List α
  cap : Nat
deriving DecidableEq, Repr

/-- The channel `make(chan α, cap)`. -/
def Chan.make {α : Type} (cap : Nat) : Chan α := { buf := [], cap := cap }

/-- A send inside `select` with a `default` branch: the value goes to the tail of the
buffer when there is room, otherwise the send is not taken. -/
def Chan.trySend {α : Type} (c : Chan α) (x : α) : Option (Chan α) :=
  if c.buf.length < c.cap then some { c with buf := c.buf ++ [x] } else none

/-- A receive: the value at the head of the buffer, when there is one. -/
def Chan.recv {α : Type} (c : Chan α) : Option (α × Chan α) :=
  match c.buf with
  | [] => none
  | x :: xs => some (x, { c with buf := xs })

/-- The state of a worker goroutine. -/
inductive WorkerState where
  | Running
  | Stopped
deriving DecidableEq, Repr

/-- The struct `AuditService`: the three channels, whether the context is cancelled, and
the three goroutines of `start`. -/
structure AuditService where
  integration : Option IntegrationService
  auditCh : Chan auditEvent
  notifyCh : Chan notifyEvent
  errCh : Chan GoError
  cancelled : Bool
  auditWorker : WorkerState
  notifyWorker : WorkerState
  errWorker : WorkerState
deriving DecidableEq, Repr

/-! ## Decoding: `json.Unmarshal` on the object `json.Marshal` writes -/

/-- The value of a hexadecimal digit, as `getu4` reads it. -/
def hexVal (c : Nat) : Option Nat :=
  if 48 ≤ c ∧ c ≤ 57 then some (c - 48)
  else if 97 ≤ c ∧ c ≤ 102 then some (c - 87)
  else if 65 ≤ c ∧ c ≤ 70 then some (c - 55)
  else none

/-- The function `getu4` of `encoding/json` on the bytes after `\u`: the value of four
hexadecimal digits. -/
def getu4 (s : List Nat) : Option Nat :=
  match s with
  | a :: b :: c :: d :: _ =>
    match hexVal a, hexVal b, hexVal c, hexVal d with
    | some x, some y, some z, some w => some (x * 4096 + y * 256 + z * 16 + w)
    | _, _, _, _ => none
  | _ => none

/-- The function `utf16.DecodeRune`: the code point of a surrogate pair, U+FFFD otherwise. -/
def utf16DecodeRune (r1 r2 : Nat) : Nat :=
  if 0xD800 ≤ r1 ∧ r1 < 0xDC00 ∧ 0xDC00 ≤ r2 ∧ r2 < 0xE000 then
    (r1 - 0xD800) * 1024 + (r2 - 0xDC00) + 0x10000
  else RuneError

/-- Put decoded bytes in front of the result of the rest of the string. -/
def prepend (bs : List Nat) (r : Option (List Nat × List Nat)) : Option (List Nat × List Nat) :=
  match r with
  | some (d, rest) => some (bs ++ d, rest)
  | none => none

/-- The loop of `unquote` of `encoding/json`, on the bytes after the opening quote: the
decoded string and the input after the closing quote. One unit of fuel per iteration. -/
def unquoteLoop : Nat → List Nat → Option (List Nat × List Nat)
  | 0, _ => none
  | _ + 1, [] => none
  | fuel + 1, c :: rest =>
    if c = 0x22 then some ([], rest)
    else if c = 0x5C then
      match rest with
      | [] => none
      | e :: rest2 =>
        if e = 0x22 ∨ e = 0x5C ∨ e = 0x2F then prepend [e] (unquoteLoop fuel rest2)
        else if e = 98 then prepend [8] (unquoteLoop fuel rest2)
        else if e = 102 then prepend [12] (unquoteLoop fuel rest2)
        else if e = 110 then prepend [10] (unquoteLoop fuel rest2)
        else if e = 114 then prepend [13] (unquoteLoop fuel rest2)
        else if e = 116 then prepend [9] (unquoteLoop fuel rest2)
        else if e = 117 then
          match getu4 rest2 with
          | none => none
          | some rr =>
            let rest3 := rest2.drop 4
            if 0xD800 ≤ rr ∧ rr < 0xE000 then
              match rest3 with
              | 0x5C :: 117 :: rest4 =>
                match getu4 rest4 with
                | some rr1 =>
                  if utf16DecodeRune rr rr1 ≠ RuneError then
                    prepend (encodeRune (utf16DecodeRune rr rr1))
                      (unquoteLoop fuel (rest4.drop 4))
                  else prepend (encodeRune RuneError) (unquoteLoop fuel rest3)
                | none => prepend (encodeRune RuneError) (unquoteLoop fuel rest3)
              | _ => prepend (encodeRune RuneError) (unquoteLoop fuel rest3)
            else prepend (encodeRune rr) (unquoteLoop fuel rest3)
        else none
    else if c < 0x20 then none
    else if c < 0x80 then prepend [c] (unquoteLoop fuel rest)
    else
      let cs := decodeRune (c :: rest)
      prepend (encodeRune cs.1) (unquoteLoop fuel ((c :: rest).drop cs.2))

/-- A JSON string at the head of the input: the decoded Go string and the rest. -/
def parseString (s : List Nat) : Option (GoString × List Nat) :=
  match s with
  | 0x22 :: rest => unquoteLoop rest.length rest
  | _ => none

/-- An ASCII digit. -/
def isDigit (c : Nat) : Bool := decide (48 ≤ c ∧ c ≤ 57)

/-- The value of a string of decimal digits. -/
def parseUint (ds : List Nat) : Nat := ds.foldl (fun x c => x * 10 + (c - 48)) 0

/-- A JSON integer at the head of the input, read into a Go `int`: an optional minus sign
and digits without a superfluous leading zero; the value has to fit 64 bits. -/
def parseInt (s : List Nat) : Option (Int × List Nat) :=
  let neg := s.head? = some 45
  let s1 := if neg then s.drop 1 else s
  let ds := s1.takeWhile isDigit
  let rest := s1.dropWhile isDigit
  if ds = [] then none
  else if 1 < ds.length ∧ ds.head? = some 48 then none
  else
    let v : Int := if neg then -(parseUint ds : Int) else (parseUint ds : Int)
    if v < -(2 ^ 63) ∨ 2 ^ 63 ≤ v then none else some (v, rest)

/-- The function `daysIn` of package `time`. -/
def daysIn (month : Nat) (year : Nat) : Nat :=
  if month = 2 then
    if year % 4 = 0 ∧ (year % 100 ≠ 0 ∨ year % 400 = 0) then 29 else 28
  else if month = 4 ∨ month = 6 ∨ month = 9 ∨ month = 11 then 30
  else 31

/-- The function `parseNanoseconds` on the digits after the dot: at most nine digits count,
scaled to nanoseconds. -/
def parseNanoseconds (ds : List Nat) : Nat :=
  parseUint (ds.take 9) * 10 ^ (9 - (ds.take 9).length)

/-- The fractional second of `parseRFC3339`: a dot followed by at least one digit is read
by `parseNanoseconds`; the nanoseconds and the input that is left. -/
def parseFraction (rest : List Nat) : Nat × List Nat :=
  match rest with
  | 46 :: f =>
    if (f.takeWhile isDigit) = [] then (0, rest)
    else (parseNanoseconds (f.takeWhile isDigit), f.dropWhile isDigit)
  | _ => (0, rest)

/-- The function `parseRFC3339` of package `time` on a text that ends in `Z`: the fields at
their fixed positions, each within its range, then an optional fraction, then the zone. -/
def parseRFC3339 (s : List Nat) : Option Time :=
  match s with
  | y1 :: y2 :: y3 :: y4 :: c1 :: m1 :: m2 :: c2 :: d1 :: d2 :: c3 :: h1 :: h2 :: c4
      :: n1 :: n2 :: c5 :: s1 :: s2 :: rest =>
    if ([y1, y2, y3, y4, m1, m2, d1, d2, h1, h2, n1, n2, s1, s2].all isDigit) = false then none
    else if ¬ (c1 = 45 ∧ c2 = 45 ∧ c3 = 84 ∧ c4 = 58 ∧ c5 = 58) then none
    else
      let year := parseUint [y1, y2, y3, y4]
      let month := parseUint [m1, m2]
      let day := parseUint [d1, d2]
      let hour := parseUint [h1, h2]
      let minute := parseUint [n1, n2]
      let second := parseUint [s1, s2]
      if ¬ (1 ≤ month ∧ month ≤ 12 ∧ 1 ≤ day ∧ day ≤ daysIn month year ∧ hour ≤ 23
          ∧ minute ≤ 59 ∧ second ≤ 59) then none
      else
        let frac := parseFraction rest
        if frac.2 = [90] then
          some { year := year, month := month, day := day, hour := hour, minute := minute,
                 second := second, nsec := frac.1 }
        else none
  | _ => none

/-- Drop a literal text from the head of the input. -/
def expect (p s : List Nat) : Option (List Nat) :=
  if p.isPrefixOf s then some (s.drop p.length) else none

/-- The call `json.Unmarshal(payload, &ev)` for an `auditEvent`, on an object laid out as
`json.Marshal` writes it: the four members in declaration order, without white space. The
time is read by `Time.UnmarshalJSON` from the bytes between the quotes. -/
def jsonUnmarshal (payload : List Nat) : Option auditEvent :=
  match expect (lit "\x7b\"action\":") payload with
  | none => none
  | some r1 =>
    match parseString r1 with
    | none => none
    | some (action, r2) =>
      match expect (lit ",\"user_id\":") r2 with
      | none => none
      | some r3 =>
        match parseInt r3 with
        | none => none
        | some (userID, r4) =>
          match expect (lit ",\"remote_ip\":") r4 with
          | none => none
          | some r5 =>
            match parseString r5 with
            | none => none
            | some (remoteIP, r6) =>
              match expect (lit ",\"created_at\":\"") r6 with
              | none => none
              | some r7 =>
                match parseRFC3339 (r7.takeWhile (fun c => c != 0x22)) with
                | none => none
                | some t =>
                  if r7.dropWhile (fun c => c != 0x22) = lit "\"\x7d" then
                    some { Action := action, UserID := userID, RemoteIP := remoteIP,
                           CreatedAt := t }
                  else none

/-- A well-formed UTC time whose year `Time.MarshalJSON` accepts: every field within its
range. -/
def Time.wf (t : Time) : Prop :=
  0 ≤ t.year ∧ t.year ≤ 9999 ∧ 1 ≤ t.month ∧ t.month ≤ 12 ∧ 1 ≤ t.day
    ∧ t.day ≤ daysIn t.month t.year.toNat ∧ t.hour ≤ 23 ∧ t.minute ≤ 59 ∧ t.second ≤ 59
    ∧ t.nsec ≤ 999999999

instance (t : Time) : Decidable t.wf := by unfold Time.wf; infer_instance

/-! ## The audit pipeline: operations -/

/-- The function `NewAuditService`: three empty channels of capacity 2048, a live context
and, by `start`, three running workers. -/
def NewAuditService (integration : Option IntegrationService) : AuditService :=
  { integration := integration
    auditCh := Chan.make 2048
    notifyCh := Chan.make 2048
    errCh := Chan.make 2048
    cancelled := false
    auditWorker := .Running
    notifyWorker := .Running
    errWorker := .Running }

/-- The record of `s.logger.Error("error queue full", "error", err)`. -/
def errorQueueFullRecord (err : GoError) : LogRecord :=
  { level := .Error, msg := lit "error queue full", attrs := [(lit "error", .err err)] }

/-- The method `pushErr`: the error goes to the error channel when it has room, otherwise
it is logged at once. -/
def pushErr (s : AuditService) (err : GoError) : AuditService × List Effect :=
  match s.errCh.trySend err with
  | some c => ({ s with errCh := c }, [])
  | none => (s, [.log (errorQueueFullRecord err)])

/-- The method `LogUserAction`; `now` is the reading of `time.Now().UTC()`. -/
def LogUserAction (s : AuditService) (action : GoString) (userID : Int) (remoteIP : GoString)
    (now : Time) : AuditService × List Effect :=
  match s.auditCh.trySend
      { Action := action, UserID := userID, RemoteIP := remoteIP, CreatedAt := now } with
  | some c => ({ s with auditCh := c }, [])
  | none => pushErr s (lit "audit queue full")

/-- The method `SendNotification`; `now` is the reading of `time.Now().UTC()`. -/
def SendNotification (s : AuditService) (topic recipient : GoString) (now : Time) :
    AuditService × List Effect :=
  match s.notifyCh.trySend { Topic := topic, Recipient := recipient, CreatedAt := now } with
  | some c => ({ s with notifyCh := c }, [])
  | none => pushErr s (lit "notify queue full")

/-- The method `UploadAuditLog`; `put` is the error `client.PutObject` returns, if any. It
yields the calls made to the storage client and the error returned. -/
def UploadAuditLog (s : Option IntegrationService) (objectName : GoString)
    (payload : List Nat) (put : Option GoError) : List Effect × Option GoError :=
  if !IntegrationService.Enabled s then ([], none)
  else
    match s with
    | none => ([], none)
    | some i =>
      ([.putObject i.bucket objectName payload (lit "application/json")],
        match put with
        | some err => some (lit "upload audit log: " ++ err)
        | none => none)

/-- The record of `s.logger.Info("audit", "action", .., "user_id", .., "remote_ip", ..)`. -/
def auditRecord (ev : auditEvent) : LogRecord :=
  { level := .Info, msg := lit "audit",
    attrs := [(lit "action", .str ev.Action), (lit "user_id", .int ev.UserID),
      (lit "remote_ip", .str ev.RemoteIP)] }

/-- The object name `fmt.Sprintf("audit/%s-user-%d.json", ..)` of `handleAudit`. -/
def objectName (ev : auditEvent) : GoString :=
  lit "audit/" ++ formatRFC3339Nano ev.CreatedAt ++ lit "-user-" ++ formatInt ev.UserID
    ++ lit ".json"

/-- The method `handleAudit`; `put` is the error `client.PutObject` returns if it is called. -/
def handleAudit (s : AuditService) (ev : auditEvent) (put : Option GoError) :
    AuditService × List Effect :=
  let logged : List Effect := [.log (auditRecord ev)]
  if !IntegrationService.Enabled s.integration then (s, logged)
  else
    match jsonMarshal ev with
    | .error err =>
      let r := pushErr s (lit "marshal audit event: " ++ err)
      (r.1, logged ++ r.2)
    | .ok payload =>
      let name := objectName ev
      let up := UploadAuditLog s.integration name payload put
      match up.2 with
      | some err =>
        let r := pushErr s err
        (r.1, logged ++ [.uploadAuditLog name payload] ++ up.1 ++ r.2)
      | none => (s, logged ++ [.uploadAuditLog name payload] ++ up.1)

/-- The record of `s.logger.Info("notification", "topic", .., "recipient", ..)`. -/
def notificationRecord (ev : notifyEvent) : LogRecord :=
  { level := .Info, msg := lit "notification",
    attrs := [(lit "topic", .str ev.Topic), (lit "recipient", .str ev.Recipient)] }

/-- The record of `s.logger.Error("async worker error", "error", err)`. -/
def workerErrorRecord (err : GoError) : LogRecord :=
  { level := .Error, msg := lit "async worker error", attrs := [(lit "error", .err err)] }

/-- What can happen next to an `AuditService`: a producer call, the `cancel()` of `Close`,
and for each worker the two branches of its `select`. -/
inductive Action where
  | logUserAction (action : GoString) (userID : Int) (remoteIP : GoString) (now : Time)
  | sendNotification (topic recipient : GoString) (now : Time)
  | cancel
  | auditRecv (put : Option GoError)
  | auditDone
  | notifyRecv
  | notifyDone
  | errRecv
  | errDone
deriving DecidableEq, Repr

/-- One step of the service; `none` when the action cannot be taken in this state. A worker
takes the receive branch of its `select` when its channel holds a value and the `Done`
branch when the context is cancelled; when both are ready either may be taken. -/
def step (s : AuditService) : Action → Option (AuditService × List Effect)
  | .logUserAction action userID remoteIP now =>
    some (LogUserAction s action userID remoteIP now)
  | .sendNotification topic recipient now => some (SendNotification s topic recipient now)
  | .cancel => some ({ s with cancelled := true }, [])
  | .auditRecv put =>
    if s.auditWorker = .Running then
      match s.auditCh.recv with
      | some (ev, c) => some (handleAudit { s with auditCh := c } ev put)
      | none => none
    else none
  | .auditDone =>
    if s.auditWorker = .Running ∧ s.cancelled = true then
      some ({ s with auditWorker := .Stopped }, [])
    else none
  | .notifyRecv =>
    if s.notifyWorker = .Running then
      match s.notifyCh.recv with
      | some (ev, c) => some ({ s with notifyCh := c }, [.log (notificationRecord ev)])
      | none => none
    else none
  | .notifyDone =>
    if s.notifyWorker = .Running ∧ s.cancelled = true then
      some ({ s with notifyWorker := .Stopped }, [])
    else none
  | .errRecv =>
    if s.errWorker = .Running then
      match s.errCh.recv with
      | some (err, c) => some ({ s with errCh := c }, [.log (workerErrorRecord err)])
      | none => none
    else none
  | .errDone =>
    if s.errWorker = .Running ∧ s.cancelled = true then
      some ({ s with errWorker := .Stopped }, [])
    else none

/-- A schedule: the actions taken one after the other, with the effects in order; `none`
when one of them cannot be taken. -/
def run (s : AuditService) : List Action → Option (AuditService × List Effect)
  | [] => some (s, [])
  | a :: as =>
    match step s a with
    | none => none
    | some (s1, e1) =>
      match run s1 as with
      | none => none
      | some (s2, e2) => some (s2, e1 ++ e2)

/-- The method `Close` has returned: the context is cancelled and `wg.Wait()` has seen the
three workers leave their loops. -/
def Closed (s : AuditService) : Prop :=
  s.cancelled = true ∧ s.auditWorker = .Stopped ∧ s.notifyWorker = .Stopped
    ∧ s.errWorker = .Stopped

instance (s : AuditService) : Decidable (Closed s) := by unfold Closed; infer_instance

/-- The actions of the three workers. -/
def Action.isWorker : Action → Bool
  | .auditRecv _ | .auditDone | .notifyRecv | .notifyDone | .errRecv | .errDone => true
  | _ => false

/-- The audit events of the `LogUserAction` calls of a schedule, in call order. -/
def callEvents : List Action → List auditEvent
  | [] => []
  | .logUserAction action userID remoteIP now :: as =>
    { Action := action, UserID := userID, RemoteIP := remoteIP, CreatedAt := now }
      :: callEvents as
  | _ :: as => callEvents as

/-- The `"audit"` log records among the effects, in order. -/
def auditRecords (tr : List Effect) : List LogRecord :=
  tr.filterMap (fun e =>
    match e with
    | .log r => if r.msg = lit "audit" then some r else none
    | _ => none)

/-- The error a log record reports under its single attribute, if it is such a record. -/
def recordError (r : LogRecord) : Option GoError :=
  match r.attrs with
  | [(_, .err e)] => some e
  | _ => none

/-- The errors reported by the log records among the effects, in order. -/
def loggedErrors (tr : List Effect) : List GoError :=
  tr.filterMap (fun e =>
    match e with
    | .log r => recordError r
    | _ => none)

/-- The calls to `UploadAuditLog` among the effects, in order. -/
def uploadCalls (tr : List Effect) : List (GoString × List Nat) :=
  tr.filterMap (fun e =>
    match e with
    | .uploadAuditLog name payload => some (name, payload)
    | _ => none)

/-- The action is a call to `LogUserAction`. -/
def Action.isLogUserAction : Action → Bool
  | .logUserAction _ _ _ _ => true
  | _ => false

/-- The lanes of a service keep their capacity and never hold more than it. -/
def LanesOK (s : AuditService) : Prop :=
  s.auditCh.cap = 2048 ∧ s.notifyCh.cap = 2048 ∧ s.errCh.cap = 2048
    ∧ s.auditCh.buf.length ≤ 2048 ∧ s.notifyCh.buf.length ≤ 2048 ∧ s.errCh.buf.length ≤ 2048

/-- The effects `handleAudit` produces before it reports a failure: the audit record, then
only calls to the sink. -/
def IsAuditPrefix (ev : auditEvent) (pre : List Effect) : Prop :=
  ∃ ups, pre = .log (auditRecord ev) :: ups ∧ auditRecords ups = [] ∧ loggedErrors ups = []

/-! ## The user store -/

/-- A Go `int` on a 64-bit platform: the value of an integer expression after wrap-around. -/
def wrapInt (x : Int) : Int := (x + 2 ^ 63) % 2 ^ 64 - 2 ^ 63

/-- The struct `models.User`. -/
structure User where
  ID : Int
  Name : GoString
  Email : GoString
deriving DecidableEq, Repr

/-- The library functions `User.Validate` calls: `strings.TrimSpace`, and the error of
`mail.ParseAddress`, if any. -/
structure Lib where
  TrimSpace : GoString → GoString
  ParseAddress : GoString → Option GoError

/-- The method `User.Validate`: the error, `none` for a valid user. -/
def User.Validate (lib : Lib) (u : User) : Option GoError :=
  if lib.TrimSpace u.Name = [] then some (lit "name is required")
  else if lib.TrimSpace u.Email = [] then some (lit "email is required")
  else if (lib.ParseAddress u.Email).isSome then some (lit "invalid email format")
  else none

/-- The error value `ErrNotFound`. -/
def ErrNotFound : GoError := lit "user not found"

/-- The struct `UserService`: the map `users`, as its key-value pairs with at most one pair
per key, and `nextID`. -/
structure UserService where
  users : List (Int × User)
  nextID : Int
deriving DecidableEq, Repr

/-- The map read `users[id]`. -/
def UserService.lookup (s : UserService) (id : Int) : Option User :=
  match s.users.find? (fun p => p.1 == id) with
  | some p => some p.2
  | none => none

/-- The map write `users[id] = u`. -/
def mapSet (m : List (Int × User)) (id : Int) (u : User) : List (Int × User) :=
  (id, u) :: m.filter (fun p => !(p.1 == id))

/-- The map removal `delete(users, id)`. -/
def mapDelete (m : List (Int × User)) (id : Int) : List (Int × User) :=
  m.filter (fun p => !(p.1 == id))

/-- The function `NewUserService`. -/
def NewUserService : UserService := { users := [], nextID := 1 }

/-- The method `List` (the name `List` is taken by the list type): the stored users in
increasing order of `ID`. -/
def UserService.ListUsers (s : UserService) : List User :=
  (s.users.map (fun p => p.2)).insertionSort (fun a b => a.ID ≤ b.ID)

/-- The method `Get`. -/
def UserService.Get (s : UserService) (id : Int) : Except GoError User :=
  match s.lookup id with
  | none => .error ErrNotFound
  | some u => .ok u

/-- The method `Create`: the state after the call and what it returns. -/
def UserService.Create (lib : Lib) (s : UserService) (u : User) :
    UserService × Except GoError User :=
  match u.Validate lib with
  | some err => (s, .error err)
  | none =>
    let u1 := { u with ID := s.nextID }
    ({ users := mapSet s.users u1.ID u1, nextID := wrapInt (s.nextID + 1) }, .ok u1)

/-- The method `Update`: the state after the call and what it returns. -/
def UserService.Update (lib : Lib) (s : UserService) (id : Int) (u : User) :
    UserService × Except GoError User :=
  match u.Validate lib with
  | some err => (s, .error err)
  | none =>
    match s.lookup id with
    | none => (s, .error ErrNotFound)
    | some _ =>
      let u1 := { u with ID := id }
      ({ s with users := mapSet s.users id u1 }, .ok u1)

/-- The method `Delete`: the state after the call and the error it returns, if any. -/
def UserService.Delete (s : UserService) (id : Int) : UserService × Option GoError :=
  match s.lookup id with
  | none => (s, some ErrNotFound)
  | some _ => ({ s with users := mapDelete s.users id }, none)

/-- A call to the user store. -/
inductive UserOp where
  | create (u : User)
  | update (id : Int) (u : User)
  | delete (id : Int)
  | get (id : Int)
  | list
deriving DecidableEq, Repr

/-- The state after one call. -/
def UserService.apply (lib : Lib) (s : UserService) : UserOp → UserService
  | .create u => (s.Create lib u).1
  | .update id u => (s.Update lib id u).1
  | .delete id => (s.Delete id).1
  | .get _ => s
  | .list => s

/-- The state after a sequence of calls. -/
def UserService.runOps (lib : Lib) (s : UserService) (ops : List UserOp) : UserService :=
  ops.foldl (UserService.apply lib) s

/-- The identifiers returned by the successful `Create` calls of a sequence, in order. -/
def UserService.createdIDs (lib : Lib) (s : UserService) : List UserOp → List Int
  | [] => []
  | op :: ops =>
    match op with
    | .create u =>
      match (s.Create lib u).2 with
      | .ok u1 => u1.ID :: UserService.createdIDs lib (s.apply lib op) ops
      | .error _ => UserService.createdIDs lib (s.apply lib op) ops
    | _ => UserService.createdIDs lib (s.apply lib op) ops

/-- The number of `Create` calls of a sequence. -/
def countCreates (ops : List UserOp) : Nat :=
  (ops.filter (fun op => match op with | .create _ => true | _ => false)).length

/-- The invariant of the user store: `nextID` is positive, and every stored pair has the
user's `ID` as its key, between 1 and `nextID`. -/
def UserInv (s : UserService) : Prop :=
  1 ≤ s.nextID ∧ ∀ p ∈ s.users, p.2.ID = p.1 ∧ 1 ≤ p.1 ∧ p.1 < s.nextID

/-- A library for examples: nothing is trimmed and every address parses. -/
def exampleLib : Lib := { TrimSpace := fun s => s, ParseAddress := fun _ => none }


/-! # Theorems -/

set_option maxRecDepth 100000

/-! ## Lemmas on the channels and the producers -/

theorem Chan.trySend_room {α : Type} (c : Chan α) (x : α) (h : c.buf.length < c.cap) :
    c.trySend x = some { c with buf := c.buf ++ [x] } := by
  simp [Chan.trySend, h]

theorem Chan.trySend_full {α : Type} (c : Chan α) (x : α) (h : ¬ c.buf.length < c.cap) :
    c.trySend x = none := by
  simp [Chan.trySend, h]

theorem lanesOK_new (integ : Option IntegrationService) : LanesOK (NewAuditService integ) := by
  simp [LanesOK, NewAuditService, Chan.make]

theorem lanesOK_pushErr (s : AuditService) (err : GoError) (h : LanesOK s) :
    LanesOK (pushErr s err).1 := by
  obtain ⟨h1, h2, h3, h4, h5, h6⟩ := h
  unfold pushErr
  by_cases hr : s.errCh.buf.length < s.errCh.cap
  · rw [Chan.trySend_room _ _ hr]
    refine ⟨h1, h2, h3, h4, h5, ?_⟩
    simp only [List.length_append, List.length_singleton]
    omega
  · rw [Chan.trySend_full _ _ hr]
    exact ⟨h1, h2, h3, h4, h5, h6⟩

theorem lanesOK_handleAudit (s : AuditService) (ev : auditEvent) (put : Option GoError)
    (h : LanesOK s) : LanesOK (handleAudit s ev put).1 := by
  unfold handleAudit
  simp only
  split
  · exact h
  · split
    · exact lanesOK_pushErr _ _ h
    · split
      · exact lanesOK_pushErr _ _ h
      · exact h

theorem lanesOK_step (s s1 : AuditService) (a : Action) (e : List Effect) (h : LanesOK s)
    (hs : step s a = some (s1, e)) : LanesOK s1 := by
  have h' := h
  obtain ⟨h1, h2, h3, h4, h5, h6⟩ := h
  cases a with
  | logUserAction action userID remoteIP now =>
    simp only [step, Option.some.injEq] at hs
    have : s1 = (LogUserAction s action userID remoteIP now).1 := by rw [hs]
    subst this
    unfold LogUserAction
    by_cases hr : s.auditCh.buf.length < s.auditCh.cap
    · rw [Chan.trySend_room _ _ hr]
      refine ⟨h1, h2, h3, ?_, h5, h6⟩
      simp only [List.length_append, List.length_singleton]
      omega
    · rw [Chan.trySend_full _ _ hr]
      exact lanesOK_pushErr _ _ h'
  | sendNotification topic recipient now =>
    simp only [step, Option.some.injEq] at hs
    have : s1 = (SendNotification s topic recipient now).1 := by rw [hs]
    subst this
    unfold SendNotification
    by_cases hr : s.notifyCh.buf.length < s.notifyCh.cap
    · rw [Chan.trySend_room _ _ hr]
      refine ⟨h1, h2, h3, h4, ?_, h6⟩
      simp only [List.length_append, List.length_singleton]
      omega
    · rw [Chan.trySend_full _ _ hr]
      exact lanesOK_pushErr _ _ h'
  | cancel =>
    simp only [step, Option.some.injEq, Prod.mk.injEq] at hs
    rw [← hs.1]; exact h'
  | auditRecv put =>
    simp only [step] at hs
    split at hs
    · cases hb : s.auditCh.buf with
      | nil => simp [Chan.recv, hb] at hs
      | cons x xs =>
        simp only [Chan.recv, hb, Option.some.injEq] at hs
        have : s1 = (handleAudit { s with auditCh := { s.auditCh with buf := xs } } x put).1 := by
          rw [hs]
        subst this
        apply lanesOK_handleAudit
        refine ⟨h1, h2, h3, ?_, h5, h6⟩
        simp only [hb, List.length_cons] at h4
        simp only
        omega
    · exact absurd hs (by simp)
  | auditDone =>
    simp only [step] at hs
    split at hs
    · simp only [Option.some.injEq, Prod.mk.injEq] at hs
      rw [← hs.1]; exact h'
    · exact absurd hs (by simp)
  | notifyRecv =>
    simp only [step] at hs
    split at hs
    · cases hb : s.notifyCh.buf with
      | nil => simp [Chan.recv, hb] at hs
      | cons x xs =>
        simp only [Chan.recv, hb, Option.some.injEq, Prod.mk.injEq] at hs
        rw [← hs.1]
        refine ⟨h1, h2, h3, h4, ?_, h6⟩
        simp only [hb, List.length_cons] at h5
        simp only
        omega
    · exact absurd hs (by simp)
  | notifyDone =>
    simp only [step] at hs
    split at hs
    · simp only [Option.some.injEq, Prod.mk.injEq] at hs
      rw [← hs.1]; exact h'
    · exact absurd hs (by simp)
  | errRecv =>
    simp only [step] at hs
    split at hs
    · cases hb : s.errCh.buf with
      | nil => simp [Chan.recv, hb] at hs
      | cons x xs =>
        simp only [Chan.recv, hb, Option.some.injEq, Prod.mk.injEq] at hs
        rw [← hs.1]
        refine ⟨h1, h2, h3, h4, h5, ?_⟩
        simp only [hb, List.length_cons] at h6
        simp only
        omega
    · exact absurd hs (by simp)
  | errDone =>
    simp only [step] at hs
    split at hs
    · simp only [Option.some.injEq, Prod.mk.injEq] at hs
      rw [← hs.1]; exact h'
    · exact absurd hs (by simp)

theorem run_cons_some (s s2 : AuditService) (a : Action) (as : List Action) (e : List Effect)
    (h : run s (a :: as) = some (s2, e)) :
    ∃ s1 e1 e2, step s a = some (s1, e1) ∧ run s1 as = some (s2, e2) ∧ e = e1 ++ e2 := by
  simp only [run] at h
  cases hs : step s a with
  | none => simp [hs] at h
  | some r =>
    obtain ⟨s1, e1⟩ := r
    simp only [hs] at h
    cases hr : run s1 as with
    | none => simp [hr] at h
    | some r2 =>
      obtain ⟨s2', e2⟩ := r2
      simp only [hr, Option.some.injEq, Prod.mk.injEq] at h
      exact ⟨s1, e1, e2, rfl, by rw [← h.1]; exact hr, h.2.symm⟩

theorem lanesOK_run (as : List Action) : ∀ (s s2 : AuditService) (e : List Effect),
    LanesOK s → run s as = some (s2, e) → LanesOK s2 := by
  induction as with
  | nil =>
    intro s s2 e h hr
    simp only [run, Option.some.injEq, Prod.mk.injEq] at hr
    rw [← hr.1]; exact h
  | cons a as ih =>
    intro s s2 e h hr
    obtain ⟨s1, e1, e2, hs, hr2, _⟩ := run_cons_some s s2 a as e hr
    exact ih s1 s2 e2 (lanesOK_step s s1 a e1 h hs) hr2

/-- C1: in every state reachable from `NewAuditService`, a call to `LogUserAction` (and
likewise `SendNotification`) returns and does exactly one of three things: with fewer than
2048 envelopes buffered it appends the envelope to the tail of its own lane and records no
error; with 2048 buffered it leaves the lane alone and either appends the one error
`audit queue full` (`notify queue full`) to the error lane, when that lane has room, or
else logs that error once at level `Error`. -/
theorem C1_enqueue_or_exactly_one_trace (integ : Option IntegrationService)
    (acts : List Action) (s : AuditService) (tr : List Effect)
    (hrun : run (NewAuditService integ) acts = some (s, tr))
    (action remoteIP topic recipient : GoString) (userID : Int) (now : Time) :
    ((s.auditCh.buf.length < 2048 ∧
        LogUserAction s action userID remoteIP now =
          ({ s with auditCh := { s.auditCh with buf := s.auditCh.buf ++
              [{ Action := action, UserID := userID, RemoteIP := remoteIP,
                 CreatedAt := now }] } }, []))
      ∨ (s.auditCh.buf.length = 2048 ∧ s.errCh.buf.length < 2048 ∧
        LogUserAction s action userID remoteIP now =
          ({ s with errCh := { s.errCh with buf := s.errCh.buf ++ [lit "audit queue full"] } },
            []))
      ∨ (s.auditCh.buf.length = 2048 ∧ s.errCh.buf.length = 2048 ∧
        LogUserAction s action userID remoteIP now =
          (s, [.log { level := .Error, msg := lit "error queue full",
                      attrs := [(lit "error", .err (lit "audit queue full"))] }])))
    ∧ ((s.notifyCh.buf.length < 2048 ∧
        SendNotification s topic recipient now =
          ({ s with notifyCh := { s.notifyCh with buf := s.notifyCh.buf ++
              [{ Topic := topic, Recipient := recipient, CreatedAt := now }] } }, []))
      ∨ (s.notifyCh.buf.length = 2048 ∧ s.errCh.buf.length < 2048 ∧
        SendNotification s topic recipient now =
          ({ s with errCh := { s.errCh with buf := s.errCh.buf ++ [lit "notify queue full"] } },
            []))
      ∨ (s.notifyCh.buf.length = 2048 ∧ s.errCh.buf.length = 2048 ∧
        SendNotification s topic recipient now =
          (s, [.log { level := .Error, msg := lit "error queue full",
                      attrs := [(lit "error", .err (lit "notify queue full"))] }]))) := by
  obtain ⟨h1, h2, h3, h4, h5, h6⟩ :=
    lanesOK_run acts _ s tr (lanesOK_new integ) hrun
  constructor
  · by_cases hr : s.auditCh.buf.length < 2048
    · left
      refine ⟨hr, ?_⟩
      unfold LogUserAction
      rw [Chan.trySend_room _ _ (by omega)]
    · right
      have hfull : ¬ s.auditCh.buf.length < s.auditCh.cap := by omega
      by_cases he : s.errCh.buf.length < 2048
      · left
        refine ⟨by omega, he, ?_⟩
        unfold LogUserAction pushErr
        rw [Chan.trySend_full _ _ hfull, Chan.trySend_room _ _ (by omega)]
      · right
        refine ⟨by omega, by omega, ?_⟩
        unfold LogUserAction pushErr
        rw [Chan.trySend_full _ _ hfull, Chan.trySend_full _ _ (by omega)]
        rfl
  · by_cases hr : s.notifyCh.buf.length < 2048
    · left
      refine ⟨hr, ?_⟩
      unfold SendNotification
      rw [Chan.trySend_room _ _ (by omega)]
    · right
      have hfull : ¬ s.notifyCh.buf.length < s.notifyCh.cap := by omega
      by_cases he : s.errCh.buf.length < 2048
      · left
        refine ⟨by omega, he, ?_⟩
        unfold SendNotification pushErr
        rw [Chan.trySend_full _ _ hfull, Chan.trySend_room _ _ (by omega)]
      · right
        refine ⟨by omega, by omega, ?_⟩
        unfold SendNotification pushErr
        rw [Chan.trySend_full _ _ hfull, Chan.trySend_full _ _ (by omega)]
        rfl

/-- C1 at the fresh service: the first call is enqueued. -/
theorem C1_enqueue_or_exactly_one_trace_witness :
    run (NewAuditService none) [] = some (NewAuditService none, []) ∧
    (LogUserAction (NewAuditService none) (lit "CREATE") 42 (lit "10.0.0.1")
        ⟨2024, 1, 2, 3, 4, 5, 0⟩).1.auditCh.buf.length = 1 := by
  have h := C1_enqueue_or_exactly_one_trace none [] (NewAuditService none) [] rfl
    (lit "CREATE") (lit "10.0.0.1") (lit "t") (lit "r") 42 ⟨2024, 1, 2, 3, 4, 5, 0⟩
  refine ⟨rfl, ?_⟩
  rcases h.1 with h1 | h1 | h1
  · rw [h1.2]; rfl
  · exact absurd h1.1 (by decide)
  · exact absurd h1.1 (by decide)

/-! ## Shapes of `pushErr` and `handleAudit` -/

theorem auditRecords_append (a b : List Effect) :
    auditRecords (a ++ b) = auditRecords a ++ auditRecords b := by
  simp [auditRecords, List.filterMap_append]

theorem loggedErrors_append (a b : List Effect) :
    loggedErrors (a ++ b) = loggedErrors a ++ loggedErrors b := by
  simp [loggedErrors, List.filterMap_append]

theorem uploadCalls_append (a b : List Effect) :
    uploadCalls (a ++ b) = uploadCalls a ++ uploadCalls b := by
  simp [uploadCalls, List.filterMap_append]

/-- The two outcomes of `pushErr`. -/
theorem pushErr_cases (s : AuditService) (q : GoError) :
    (s.errCh.buf.length < s.errCh.cap ∧
      pushErr s q = ({ s with errCh := { s.errCh with buf := s.errCh.buf ++ [q] } }, []))
    ∨ (¬ s.errCh.buf.length < s.errCh.cap ∧
      pushErr s q = (s, [.log (errorQueueFullRecord q)])) := by
  by_cases hr : s.errCh.buf.length < s.errCh.cap
  · left; exact ⟨hr, by unfold pushErr; rw [Chan.trySend_room _ _ hr]⟩
  · right; exact ⟨hr, by unfold pushErr; rw [Chan.trySend_full _ _ hr]⟩

/-- What `pushErr` leaves alone, and where the error goes. -/
theorem pushErr_frame (s : AuditService) (q : GoError) :
    (pushErr s q).1.integration = s.integration ∧ (pushErr s q).1.auditCh = s.auditCh
    ∧ (pushErr s q).1.notifyCh = s.notifyCh ∧ (pushErr s q).1.cancelled = s.cancelled
    ∧ (pushErr s q).1.auditWorker = s.auditWorker
    ∧ (pushErr s q).1.notifyWorker = s.notifyWorker
    ∧ (pushErr s q).1.errWorker = s.errWorker
    ∧ (pushErr s q).1.errCh.cap = s.errCh.cap
    ∧ auditRecords (pushErr s q).2 = [] ∧ uploadCalls (pushErr s q).2 = []
    ∧ (pushErr s q).1.errCh.buf ++ loggedErrors (pushErr s q).2 = s.errCh.buf ++ [q] := by
  rcases pushErr_cases s q with ⟨_, h⟩ | ⟨_, h⟩
  · rw [h]; simp [auditRecords, uploadCalls, loggedErrors]
  · rw [h]
    refine ⟨rfl, rfl, rfl, rfl, rfl, rfl, rfl, rfl, ?_, rfl, rfl⟩
    simp only [auditRecords, List.filterMap_cons, List.filterMap_nil]
    have hne : ¬ (lit "error queue full" = lit "audit") := by decide
    rw [if_neg (by exact hne)]

theorem IsAuditPrefix.auditRecords {ev : auditEvent} {pre : List Effect}
    (h : IsAuditPrefix ev pre) : GoMicros.auditRecords pre = [auditRecord ev] := by
  obtain ⟨ups, rfl, h1, _⟩ := h
  have : GoMicros.auditRecords (Effect.log (auditRecord ev) :: ups)
      = GoMicros.auditRecords [Effect.log (auditRecord ev)] ++ GoMicros.auditRecords ups :=
    auditRecords_append [Effect.log (auditRecord ev)] ups
  rw [this, h1]
  simp only [GoMicros.auditRecords, List.filterMap_cons, List.filterMap_nil, List.append_nil]
  rw [if_pos (by rfl)]

theorem IsAuditPrefix.loggedErrors {ev : auditEvent} {pre : List Effect}
    (h : IsAuditPrefix ev pre) : GoMicros.loggedErrors pre = [] := by
  obtain ⟨ups, rfl, _, h2⟩ := h
  have : GoMicros.loggedErrors (Effect.log (auditRecord ev) :: ups)
      = GoMicros.loggedErrors [Effect.log (auditRecord ev)] ++ GoMicros.loggedErrors ups :=
    loggedErrors_append [Effect.log (auditRecord ev)] ups
  rw [this, h2]
  rfl

theorem append_ne_of_head (a b x : List Nat) (c d : Nat) (ha : a.head? = some c)
    (hb : b.head? = some d) (hcd : c ≠ d) : a ++ x ≠ b := by
  intro h
  cases a with
  | nil => simp at ha
  | cons a0 as =>
    cases b with
    | nil => simp at hb
    | cons b0 bs =>
      simp only [List.head?_cons, Option.some.injEq] at ha hb
      simp only [List.cons_append, List.cons.injEq] at h
      omega

/-- The shape of `handleAudit`: the audit record first; then either nothing more is
reported, or one error, which is not a queue-full error, goes through `pushErr`. -/
theorem handleAudit_shape (s : AuditService) (ev : auditEvent) (put : Option GoError) :
    ∃ pre, IsAuditPrefix ev pre ∧
      (handleAudit s ev put = (s, pre)
        ∨ ∃ q, q ≠ lit "audit queue full" ∧ q ≠ lit "notify queue full" ∧
            handleAudit s ev put = ((pushErr s q).1, pre ++ (pushErr s q).2)) := by
  unfold handleAudit
  simp only
  split
  · exact ⟨_, ⟨[], rfl, rfl, rfl⟩, Or.inl rfl⟩
  · split
    · rename_i err _
      refine ⟨_, ⟨[], rfl, rfl, rfl⟩, Or.inr ⟨lit "marshal audit event: " ++ err, ?_, ?_, rfl⟩⟩
      · exact append_ne_of_head _ _ _ 109 97 (by decide) (by decide) (by decide)
      · exact append_ne_of_head _ _ _ 109 110 (by decide) (by decide) (by decide)
    · rename_i payload _
      have hup : ∀ e ∈ (UploadAuditLog s.integration (objectName ev) payload put).1,
          ∃ b n p c, e = Effect.putObject b n p c := by
        intro e he
        unfold UploadAuditLog at he
        split at he
        · simp at he
        · split at he
          · simp at he
          · simp only [List.mem_singleton] at he
            exact ⟨_, _, _, _, he⟩
      have hups : IsAuditPrefix ev ([Effect.log (auditRecord ev)]
          ++ [Effect.uploadAuditLog (objectName ev) payload]
          ++ (UploadAuditLog s.integration (objectName ev) payload put).1) := by
        refine ⟨Effect.uploadAuditLog (objectName ev) payload
          :: (UploadAuditLog s.integration (objectName ev) payload put).1, rfl, ?_, ?_⟩
        · simp only [auditRecords, List.filterMap_cons]
          rw [List.filterMap_eq_nil_iff]
          intro e he
          obtain ⟨b, n, p, c, rfl⟩ := hup e he
          rfl
        · simp only [loggedErrors, List.filterMap_cons]
          rw [List.filterMap_eq_nil_iff]
          intro e he
          obtain ⟨b, n, p, c, rfl⟩ := hup e he
          rfl
      split
      · rename_i err hq
        refine ⟨_, hups, Or.inr ⟨err, ?_, ?_, rfl⟩⟩
        · unfold UploadAuditLog at hq
          split at hq
          · simp at hq
          · split at hq
            · simp at hq
            · split at hq
              · simp only [Option.some.injEq] at hq
                rw [← hq]
                exact append_ne_of_head _ _ _ 117 97 (by decide) (by decide) (by decide)
              · simp at hq
        · unfold UploadAuditLog at hq
          split at hq
          · simp at hq
          · split at hq
            · simp at hq
            · split at hq
              · simp only [Option.some.injEq] at hq
                rw [← hq]
                exact append_ne_of_head _ _ _ 117 110 (by decide) (by decide) (by decide)
              · simp at hq
      · exact ⟨_, hups, Or.inl rfl⟩

/-! ## The steps of the workers -/

theorem step_auditRecv {s s1 : AuditService} {put : Option GoError} {e1 : List Effect}
    (h : step s (.auditRecv put) = some (s1, e1)) :
    ∃ ev xs, s.auditCh.buf = ev :: xs ∧ s.auditWorker = .Running ∧
      handleAudit { s with auditCh := { s.auditCh with buf := xs } } ev put = (s1, e1) := by
  simp only [step] at h
  split at h
  · rename_i hw
    cases hb : s.auditCh.buf with
    | nil => simp [Chan.recv, hb] at h
    | cons x xs =>
      simp only [Chan.recv, hb, Option.some.injEq] at h
      exact ⟨x, xs, rfl, hw, h⟩
  · exact absurd h (by simp)

theorem step_notifyRecv {s s1 : AuditService} {e1 : List Effect}
    (h : step s .notifyRecv = some (s1, e1)) :
    ∃ ev xs, s.notifyCh.buf = ev :: xs ∧ s.notifyWorker = .Running ∧
      s1 = { s with notifyCh := { s.notifyCh with buf := xs } } ∧
      e1 = [.log (notificationRecord ev)] := by
  simp only [step] at h
  split at h
  · rename_i hw
    cases hb : s.notifyCh.buf with
    | nil => simp [Chan.recv, hb] at h
    | cons x xs =>
      simp only [Chan.recv, hb, Option.some.injEq, Prod.mk.injEq] at h
      exact ⟨x, xs, rfl, hw, h.1.symm, h.2.symm⟩
  · exact absurd h (by simp)

theorem step_errRecv {s s1 : AuditService} {e1 : List Effect}
    (h : step s .errRecv = some (s1, e1)) :
    ∃ err xs, s.errCh.buf = err :: xs ∧ s.errWorker = .Running ∧
      s1 = { s with errCh := { s.errCh with buf := xs } } ∧
      e1 = [.log (workerErrorRecord err)] := by
  simp only [step] at h
  split at h
  · rename_i hw
    cases hb : s.errCh.buf with
    | nil => simp [Chan.recv, hb] at h
    | cons x xs =>
      simp only [Chan.recv, hb, Option.some.injEq, Prod.mk.injEq] at h
      exact ⟨x, xs, rfl, hw, h.1.symm, h.2.symm⟩
  · exact absurd h (by simp)

theorem step_auditDone {s s1 : AuditService} {e1 : List Effect}
    (h : step s .auditDone = some (s1, e1)) :
    s.auditWorker = .Running ∧ s.cancelled = true ∧
      s1 = { s with auditWorker := .Stopped } ∧ e1 = [] := by
  simp only [step] at h
  split at h
  · rename_i hw
    simp only [Option.some.injEq, Prod.mk.injEq] at h
    exact ⟨hw.1, hw.2, h.1.symm, h.2.symm⟩
  · exact absurd h (by simp)

theorem step_notifyDone {s s1 : AuditService} {e1 : List Effect}
    (h : step s .notifyDone = some (s1, e1)) :
    s.notifyWorker = .Running ∧ s.cancelled = true ∧
      s1 = { s with notifyWorker := .Stopped } ∧ e1 = [] := by
  simp only [step] at h
  split at h
  · rename_i hw
    simp only [Option.some.injEq, Prod.mk.injEq] at h
    exact ⟨hw.1, hw.2, h.1.symm, h.2.symm⟩
  · exact absurd h (by simp)

theorem step_errDone {s s1 : AuditService} {e1 : List Effect}
    (h : step s .errDone = some (s1, e1)) :
    s.errWorker = .Running ∧ s.cancelled = true ∧
      s1 = { s with errWorker := .Stopped } ∧ e1 = [] := by
  simp only [step] at h
  split at h
  · rename_i hw
    simp only [Option.some.injEq, Prod.mk.injEq] at h
    exact ⟨hw.1, hw.2, h.1.symm, h.2.symm⟩
  · exact absurd h (by simp)

/-- What `handleAudit` leaves alone, what it logs, and which errors it can add. -/
theorem handleAudit_frame (s : AuditService) (ev : auditEvent) (put : Option GoError) :
    (handleAudit s ev put).1.integration = s.integration
    ∧ (handleAudit s ev put).1.auditCh = s.auditCh
    ∧ (handleAudit s ev put).1.notifyCh = s.notifyCh
    ∧ (handleAudit s ev put).1.cancelled = s.cancelled
    ∧ (handleAudit s ev put).1.auditWorker = s.auditWorker
    ∧ (handleAudit s ev put).1.notifyWorker = s.notifyWorker
    ∧ (handleAudit s ev put).1.errWorker = s.errWorker
    ∧ (handleAudit s ev put).1.errCh.cap = s.errCh.cap
    ∧ auditRecords (handleAudit s ev put).2 = [auditRecord ev]
    ∧ ((handleAudit s ev put).1.errCh.buf ++ loggedErrors (handleAudit s ev put).2
          = s.errCh.buf
        ∨ ∃ q, q ≠ lit "audit queue full" ∧ q ≠ lit "notify queue full" ∧
          (handleAudit s ev put).1.errCh.buf ++ loggedErrors (handleAudit s ev put).2
            = s.errCh.buf ++ [q]) := by
  obtain ⟨pre, hpre, h | ⟨q, hq1, hq2, h⟩⟩ := handleAudit_shape s ev put
  · rw [h]
    refine ⟨rfl, rfl, rfl, rfl, rfl, rfl, rfl, rfl, hpre.auditRecords, Or.inl ?_⟩
    simp [hpre.loggedErrors]
  · rw [h]
    obtain ⟨f1, f2, f3, f4, f5, f6, f7, f8, f9, _, f11⟩ := pushErr_frame s q
    refine ⟨f1, f2, f3, f4, f5, f6, f7, f8, ?_, Or.inr ⟨q, hq1, hq2, ?_⟩⟩
    · simp only [auditRecords_append, hpre.auditRecords, f9, List.append_nil]
    · simp only [loggedErrors_append, hpre.loggedErrors, List.nil_append]
      exact f11

/-! ## FIFO order of the audit lane -/

theorem callEvents_cons (a : Action) (as : List Action) :
    callEvents (a :: as) = callEvents [a] ++ callEvents as := by
  cases a <;> simp [callEvents]

theorem callEvents_of_not_log (a : Action) (h : a.isLogUserAction = false) :
    callEvents [a] = [] := by
  cases a <;> simp_all [callEvents, Action.isLogUserAction]

/-- One step keeps the audit lane in call order and adds no `audit queue full` error,
when a call to `LogUserAction` finds room. -/
theorem step_fifo {s s1 : AuditService} {a : Action} {e1 : List Effect}
    (h : step s a = some (s1, e1))
    (hroom : a.isLogUserAction = true → s.auditCh.buf.length < s.auditCh.cap) :
    auditRecords e1 ++ s1.auditCh.buf.map auditRecord
        = (s.auditCh.buf ++ callEvents [a]).map auditRecord
    ∧ s1.auditCh.cap = s.auditCh.cap
    ∧ (∀ q ∈ s1.errCh.buf ++ loggedErrors e1, q ∈ s.errCh.buf ∨ q ≠ lit "audit queue full")
    ∧ (a ≠ .cancel → s1.cancelled = s.cancelled)
    ∧ (s.cancelled = false → s1.auditWorker = s.auditWorker) := by
  cases a with
  | logUserAction action userID remoteIP now =>
    have hr := hroom rfl
    simp only [step, Option.some.injEq] at h
    unfold LogUserAction at h
    rw [Chan.trySend_room _ _ hr] at h
    simp only [Prod.mk.injEq] at h
    obtain ⟨rfl, rfl⟩ := h
    refine ⟨by simp [auditRecords, callEvents], rfl, ?_, fun _ => rfl, fun _ => rfl⟩
    intro q hq
    simp only [loggedErrors, List.filterMap_nil, List.append_nil] at hq
    exact Or.inl hq
  | sendNotification topic recipient now =>
    simp only [step, Option.some.injEq] at h
    unfold SendNotification at h
    by_cases hr : s.notifyCh.buf.length < s.notifyCh.cap
    · rw [Chan.trySend_room _ _ hr] at h
      simp only [Prod.mk.injEq] at h
      obtain ⟨rfl, rfl⟩ := h
      refine ⟨by simp [auditRecords, callEvents], rfl, ?_, fun _ => rfl, fun _ => rfl⟩
      intro q hq
      simp only [loggedErrors, List.filterMap_nil, List.append_nil] at hq
      exact Or.inl hq
    · rw [Chan.trySend_full _ _ hr] at h
      simp only at h
      obtain ⟨f1, f2, f3, f4, f5, f6, f7, f8, f9, f10, f11⟩ :=
        pushErr_frame s (lit "notify queue full")
      rw [h] at f1 f2 f3 f4 f5 f6 f7 f8 f9 f10 f11
      simp only at f1 f2 f3 f4 f5 f6 f7 f8 f9 f10 f11
      refine ⟨by simp [f9, f2, callEvents], by rw [f2], ?_, fun _ => f4, fun _ => f5⟩
      intro q hq
      rw [f11] at hq
      rcases List.mem_append.mp hq with hq | hq
      · exact Or.inl hq
      · right
        simp only [List.mem_singleton] at hq
        rw [hq]
        decide
  | cancel =>
    simp only [step, Option.some.injEq, Prod.mk.injEq] at h
    obtain ⟨rfl, rfl⟩ := h
    refine ⟨by simp [auditRecords, callEvents], rfl, ?_, fun hc => absurd rfl hc, fun _ => rfl⟩
    intro q hq
    simp only [loggedErrors, List.filterMap_nil, List.append_nil] at hq
    exact Or.inl hq
  | auditRecv put =>
    obtain ⟨ev, xs, hb, hw, hh⟩ := step_auditRecv h
    obtain ⟨f1, f2, f3, f4, f5, f6, f7, f8, f9, f10⟩ :=
      handleAudit_frame { s with auditCh := { s.auditCh with buf := xs } } ev put
    rw [hh] at f1 f2 f3 f4 f5 f6 f7 f8 f9 f10
    simp only at f1 f2 f3 f4 f5 f6 f7 f8 f9 f10
    refine ⟨by simp [f9, f2, hb, callEvents], by rw [f2], ?_, fun _ => f4, fun _ => f5⟩
    intro q hq
    rcases f10 with f10 | ⟨q', hq1, _, f10⟩
    · rw [f10] at hq; exact Or.inl hq
    · rw [f10] at hq
      rcases List.mem_append.mp hq with hq | hq
      · exact Or.inl hq
      · right
        simp only [List.mem_singleton] at hq
        rw [hq]; exact hq1
  | auditDone =>
    obtain ⟨_, hc, rfl, rfl⟩ := step_auditDone h
    refine ⟨by simp [auditRecords, callEvents], rfl, ?_, fun _ => rfl, fun hf => ?_⟩
    · intro q hq
      simp only [loggedErrors, List.filterMap_nil, List.append_nil] at hq
      exact Or.inl hq
    · rw [hc] at hf; exact absurd hf (by simp)
  | notifyRecv =>
    obtain ⟨ev, xs, _, _, rfl, rfl⟩ := step_notifyRecv h
    refine ⟨?_, rfl, ?_, fun _ => rfl, fun _ => rfl⟩
    · have hne : ¬ (lit "notification" = lit "audit") := by decide
      simp only [auditRecords, List.filterMap_cons, List.filterMap_nil, callEvents,
        List.append_nil, notificationRecord]
      rw [if_neg (by exact hne)]
      rfl
    · intro q hq
      simp only [loggedErrors, List.filterMap_cons, List.filterMap_nil, recordError,
        notificationRecord, List.append_nil] at hq
      exact Or.inl hq
  | notifyDone =>
    obtain ⟨_, hc, rfl, rfl⟩ := step_notifyDone h
    refine ⟨by simp [auditRecords, callEvents], rfl, ?_, fun _ => rfl, fun _ => rfl⟩
    intro q hq
    simp only [loggedErrors, List.filterMap_nil, List.append_nil] at hq
    exact Or.inl hq
  | errRecv =>
    obtain ⟨err, xs, hb, _, rfl, rfl⟩ := step_errRecv h
    refine ⟨?_, rfl, ?_, fun _ => rfl, fun _ => rfl⟩
    · have hne : ¬ (lit "async worker error" = lit "audit") := by decide
      simp only [auditRecords, List.filterMap_cons, List.filterMap_nil, callEvents,
        List.append_nil, workerErrorRecord]
      rw [if_neg (by exact hne)]
      rfl
    · intro q hq
      simp only [loggedErrors, List.filterMap_cons, List.filterMap_nil, recordError,
        workerErrorRecord, List.mem_append, List.mem_singleton] at hq
      left
      rw [hb]
      rcases hq with hq | hq
      · exact List.mem_cons_of_mem _ hq
      · rw [hq]; exact List.mem_cons_self _ _
  | errDone =>
    obtain ⟨_, hc, rfl, rfl⟩ := step_errDone h
    refine ⟨by simp [auditRecords, callEvents], rfl, ?_, fun _ => rfl, fun _ => rfl⟩
    intro q hq
    simp only [loggedErrors, List.filterMap_nil, List.append_nil] at hq
    exact Or.inl hq

/-- A schedule keeps the audit lane in call order, as long as the calls fit the lane. -/
theorem run_fifo (acts : List Action) : ∀ (s s2 : AuditService) (tr : List Effect),
    run s acts = some (s2, tr) →
    s.auditCh.buf.length + (callEvents acts).length ≤ s.auditCh.cap →
    auditRecords tr ++ s2.auditCh.buf.map auditRecord
        = (s.auditCh.buf ++ callEvents acts).map auditRecord
    ∧ s2.auditCh.cap = s.auditCh.cap
    ∧ (∀ q ∈ s2.errCh.buf ++ loggedErrors tr, q ∈ s.errCh.buf ∨ q ≠ lit "audit queue full")
    ∧ (Action.cancel ∉ acts → s.cancelled = false →
        s2.cancelled = false ∧ s2.auditWorker = s.auditWorker) := by
  induction acts with
  | nil =>
    intro s s2 tr h _
    simp only [run, Option.some.injEq, Prod.mk.injEq] at h
    obtain ⟨rfl, rfl⟩ := h
    refine ⟨by simp [auditRecords, callEvents], rfl, ?_, fun _ hc => ⟨hc, rfl⟩⟩
    intro q hq
    simp only [loggedErrors, List.filterMap_nil, List.append_nil] at hq
    exact Or.inl hq
  | cons a as ih =>
    intro s s2 tr h hN
    obtain ⟨s1, e1, e2, hs, hr2, rfl⟩ := run_cons_some s s2 a as tr h
    rw [callEvents_cons, List.length_append] at hN
    have hroom : a.isLogUserAction = true → s.auditCh.buf.length < s.auditCh.cap := by
      intro ha
      cases a with
      | logUserAction action userID remoteIP now =>
        simp only [callEvents, List.length_cons, List.length_nil] at hN
        omega
      | _ => simp [Action.isLogUserAction] at ha
    obtain ⟨g1, g2, g3, g4, g5⟩ := step_fifo hs hroom
    have hlen : (auditRecords e1).length + s1.auditCh.buf.length
        = s.auditCh.buf.length + (callEvents [a]).length := by
      have := congrArg List.length g1
      simpa using this
    obtain ⟨k1, k2, k3, k4⟩ := ih s1 s2 e2 hr2 (by rw [g2]; omega)
    refine ⟨?_, by rw [k2, g2], ?_, ?_⟩
    · rw [auditRecords_append, List.append_assoc, k1, callEvents_cons]
      simp only [List.map_append, ← List.append_assoc]
      rw [g1]
      simp only [List.map_append]
    · intro q hq
      rw [loggedErrors_append] at hq
      have hq' : q ∈ loggedErrors e1 ∨ q ∈ s2.errCh.buf ++ loggedErrors e2 := by
        rcases List.mem_append.mp hq with h | h
        · exact Or.inr (List.mem_append_left _ h)
        · rcases List.mem_append.mp h with h | h
          · exact Or.inl h
          · exact Or.inr (List.mem_append_right _ h)
      rcases hq' with hq' | hq'
      · exact g3 q (List.mem_append_right _ hq')
      · rcases k3 q hq' with hq2 | hq2
        · exact g3 q (List.mem_append_left _ hq2)
        · exact Or.inr hq2
    · intro hnc hc
      have hne : a ≠ .cancel := fun hh => hnc (by rw [hh]; exact List.mem_cons_self _ _)
      have hc1 : s1.cancelled = false := by rw [g4 hne]; exact hc
      obtain ⟨m1, m2⟩ := k4 (fun hh => hnc (List.mem_cons_of_mem _ hh)) hc1
      exact ⟨m1, by rw [m2, g5 hc]⟩

/-- A running audit worker takes the buffered envelopes from the head of the lane, one per
step, and logs them in that order. -/
theorem drain (puts : List (Option GoError)) : ∀ (s : AuditService),
    s.auditWorker = .Running → puts.length ≤ s.auditCh.buf.length →
    ∃ s2 tr, run s (puts.map Action.auditRecv) = some (s2, tr)
      ∧ auditRecords tr = (s.auditCh.buf.take puts.length).map auditRecord
      ∧ s2.auditCh.buf = s.auditCh.buf.drop puts.length
      ∧ s2.auditWorker = .Running := by
  induction puts with
  | nil =>
    intro s hw _
    exact ⟨s, [], rfl, by simp [auditRecords], by simp, hw⟩
  | cons put puts ih =>
    intro s hw hlen
    cases hb : s.auditCh.buf with
    | nil => simp [hb] at hlen
    | cons ev xs =>
      obtain ⟨f1, f2, f3, f4, f5, f6, f7, f8, f9, f10⟩ :=
        handleAudit_frame { s with auditCh := { s.auditCh with buf := xs } } ev put
      have hstep : step s (.auditRecv put)
          = some (handleAudit { s with auditCh := { s.auditCh with buf := xs } } ev put) := by
        simp [step, hw, Chan.recv, hb]
      rcases hh : handleAudit { s with auditCh := { s.auditCh with buf := xs } } ev put
        with ⟨s1, e1⟩
      rw [hh] at f1 f2 f3 f4 f5 f6 f7 f8 f9 f10 hstep
      simp only at f1 f2 f3 f4 f5 f6 f7 f8 f9 f10
      have hlen' : puts.length ≤ s1.auditCh.buf.length := by
        rw [f2]
        simp only [hb, List.length_cons] at hlen ⊢
        omega
      obtain ⟨s2, tr, hr, h1, h2, h3⟩ := ih s1 (by rw [f5]; exact hw) hlen'
      refine ⟨s2, e1 ++ tr, ?_, ?_, ?_, h3⟩
      · simp only [List.map_cons, run, hstep, hr]
      · rw [auditRecords_append, f9, h1, f2]
        simp
      · rw [h2, f2]
        simp

/-- From `NewAuditService`, with at most 2048 calls to `LogUserAction`: no call is rejected
and the audit lane is a queue of the calls. -/
theorem run_new_fifo (integ : Option IntegrationService)
    (acts : List Action) (s : AuditService) (tr : List Effect)
    (hrun : run (NewAuditService integ) acts = some (s, tr))
    (hN : (callEvents acts).length ≤ 2048) :
    (lit "audit queue full" ∉ s.errCh.buf ∧ lit "audit queue full" ∉ loggedErrors tr)
    ∧ auditRecords tr ++ s.auditCh.buf.map auditRecord = (callEvents acts).map auditRecord
    ∧ (Action.cancel ∉ acts → s.auditWorker = .Running)
    ∧ (s.auditWorker = .Running → ∀ puts : List (Option GoError),
        puts.length = s.auditCh.buf.length →
        ∃ s2 tr2, run s (puts.map Action.auditRecv) = some (s2, tr2)
          ∧ auditRecords (tr ++ tr2) = (callEvents acts).map auditRecord
          ∧ s2.auditCh.buf = []) := by
  obtain ⟨k1, _, k3, k4⟩ := run_fifo acts (NewAuditService integ) s tr hrun
    (by simpa [NewAuditService, Chan.make] using hN)
  have k1' : auditRecords tr ++ s.auditCh.buf.map auditRecord
      = (callEvents acts).map auditRecord := by
    simpa [NewAuditService, Chan.make] using k1
  refine ⟨⟨?_, ?_⟩, k1', fun hnc => (k4 hnc rfl).2, ?_⟩
  · intro hq
    rcases k3 _ (List.mem_append_left _ hq) with h | h
    · simp [NewAuditService, Chan.make] at h
    · exact h rfl
  · intro hq
    rcases k3 _ (List.mem_append_right _ hq) with h | h
    · simp [NewAuditService, Chan.make] at h
    · exact h rfl
  · intro hw puts hp
    obtain ⟨s2, tr2, hr, h1, h2, _⟩ := drain puts s hw (by omega)
    refine ⟨s2, tr2, hr, ?_, ?_⟩
    · rw [auditRecords_append, h1, hp, List.take_length, k1']
    · rw [h2, hp, List.drop_length]

/-- C2: a schedule that starts at `NewAuditService` and contains at most 2048 calls to
`LogUserAction`, interleaved in any way with the other producer calls and with steps of
the three workers, rejects none of the calls (no `audit queue full` error is queued or
logged); the `audit` records logged so far, followed by the records of the envelopes still
buffered, are the records at level `Info` with message `audit` and the attributes
`action`, `user_id`, `remote_ip` of the calls, one per call and in call order; without
`cancel` the audit worker is still running; and a running worker, taking the envelopes left
from the head of the lane one at a time, brings the logged `audit` records to exactly
those of the calls, in call order, and leaves the lane empty. -/
theorem C2_all_calls_logged_in_call_order (integ : Option IntegrationService)
    (acts : List Action) (s : AuditService) (tr : List Effect)
    (hrun : run (NewAuditService integ) acts = some (s, tr))
    (hN : (callEvents acts).length ≤ 2048) :
    (lit "audit queue full" ∉ s.errCh.buf ∧ lit "audit queue full" ∉ loggedErrors tr)
    ∧ auditRecords tr ++ s.auditCh.buf.map (fun ev : auditEvent =>
            ({ level := .Info, msg := lit "audit",
               attrs := [(lit "action", .str ev.Action), (lit "user_id", .int ev.UserID),
                 (lit "remote_ip", .str ev.RemoteIP)] } : LogRecord))
        = (callEvents acts).map (fun ev : auditEvent =>
            ({ level := .Info, msg := lit "audit",
               attrs := [(lit "action", .str ev.Action), (lit "user_id", .int ev.UserID),
                 (lit "remote_ip", .str ev.RemoteIP)] } : LogRecord))
    ∧ (Action.cancel ∉ acts → s.auditWorker = .Running)
    ∧ (s.auditWorker = .Running → ∀ puts : List (Option GoError),
        puts.length = s.auditCh.buf.length →
        ∃ s2 tr2, run s (puts.map Action.auditRecv) = some (s2, tr2)
          ∧ auditRecords (tr ++ tr2) = (callEvents acts).map (fun ev : auditEvent =>
            ({ level := .Info, msg := lit "audit",
               attrs := [(lit "action", .str ev.Action), (lit "user_id", .int ev.UserID),
                 (lit "remote_ip", .str ev.RemoteIP)] } : LogRecord))
          ∧ s2.auditCh.buf = []) :=
  run_new_fifo integ acts s tr hrun hN

/-- C2 on three calls, the worker taking the first envelope between the second and the
third call: the record of the first call is logged, the envelopes of the second and the
third call are buffered in this order, and two more steps of the worker log them in this
order. -/
theorem C2_all_calls_logged_in_call_order_witness :
    run (NewAuditService none)
        [.logUserAction (lit "CREATE") 1 (lit "a") ⟨2024, 1, 2, 3, 4, 5, 0⟩,
         .logUserAction (lit "UPDATE") 2 (lit "b") ⟨2024, 1, 2, 3, 4, 5, 1⟩,
         .auditRecv none,
         .logUserAction (lit "DELETE") 3 (lit "c") ⟨2024, 1, 2, 3, 4, 5, 2⟩]
      = some ({ NewAuditService none with
            auditCh := { buf := [⟨lit "UPDATE", 2, lit "b", ⟨2024, 1, 2, 3, 4, 5, 1⟩⟩,
                                 ⟨lit "DELETE", 3, lit "c", ⟨2024, 1, 2, 3, 4, 5, 2⟩⟩],
                         cap := 2048 } },
          [.log (LogRecord.mk .Info (lit "audit")
              [(lit "action", .str (lit "CREATE")), (lit "user_id", .int 1),
               (lit "remote_ip", .str (lit "a"))])])
    ∧ auditRecords [.log (LogRecord.mk .Info (lit "audit")
              [(lit "action", .str (lit "CREATE")), (lit "user_id", .int 1),
               (lit "remote_ip", .str (lit "a"))])]
        ++ [((LogRecord.mk .Info (lit "audit")
              [(lit "action", .str (lit "UPDATE")), (lit "user_id", .int 2),
               (lit "remote_ip", .str (lit "b"))]) : LogRecord),
            (LogRecord.mk .Info (lit "audit")
              [(lit "action", .str (lit "DELETE")), (lit "user_id", .int 3),
               (lit "remote_ip", .str (lit "c"))])]
      = [(LogRecord.mk .Info (lit "audit")
              [(lit "action", .str (lit "CREATE")), (lit "user_id", .int 1),
               (lit "remote_ip", .str (lit "a"))]),
         (LogRecord.mk .Info (lit "audit")
              [(lit "action", .str (lit "UPDATE")), (lit "user_id", .int 2),
               (lit "remote_ip", .str (lit "b"))]),
         (LogRecord.mk .Info (lit "audit")
              [(lit "action", .str (lit "DELETE")), (lit "user_id", .int 3),
               (lit "remote_ip", .str (lit "c"))])]
    ∧ ∃ s2 tr2, run { NewAuditService none with
            auditCh := { buf := [⟨lit "UPDATE", 2, lit "b", ⟨2024, 1, 2, 3, 4, 5, 1⟩⟩,
                                 ⟨lit "DELETE", 3, lit "c", ⟨2024, 1, 2, 3, 4, 5, 2⟩⟩],
                         cap := 2048 } } [.auditRecv none, .auditRecv none] = some (s2, tr2)
        ∧ auditRecords ([.log (LogRecord.mk .Info (lit "audit")
              [(lit "action", .str (lit "CREATE")), (lit "user_id", .int 1),
               (lit "remote_ip", .str (lit "a"))])] ++ tr2)
          = [(LogRecord.mk .Info (lit "audit")
              [(lit "action", .str (lit "CREATE")), (lit "user_id", .int 1),
               (lit "remote_ip", .str (lit "a"))]),
             (LogRecord.mk .Info (lit "audit")
              [(lit "action", .str (lit "UPDATE")), (lit "user_id", .int 2),
               (lit "remote_ip", .str (lit "b"))]),
             (LogRecord.mk .Info (lit "audit")
              [(lit "action", .str (lit "DELETE")), (lit "user_id", .int 3),
               (lit "remote_ip", .str (lit "c"))])]
        ∧ s2.auditCh.buf = [] := by
  have hrun : run (NewAuditService none)
        [.logUserAction (lit "CREATE") 1 (lit "a") ⟨2024, 1, 2, 3, 4, 5, 0⟩,
         .logUserAction (lit "UPDATE") 2 (lit "b") ⟨2024, 1, 2, 3, 4, 5, 1⟩,
         .auditRecv none,
         .logUserAction (lit "DELETE") 3 (lit "c") ⟨2024, 1, 2, 3, 4, 5, 2⟩]
      = some ({ NewAuditService none with
            auditCh := { buf := [⟨lit "UPDATE", 2, lit "b", ⟨2024, 1, 2, 3, 4, 5, 1⟩⟩,
                                 ⟨lit "DELETE", 3, lit "c", ⟨2024, 1, 2, 3, 4, 5, 2⟩⟩],
                         cap := 2048 } },
          [.log (LogRecord.mk .Info (lit "audit")
              [(lit "action", .str (lit "CREATE")), (lit "user_id", .int 1),
               (lit "remote_ip", .str (lit "a"))])]) := by
    decide
  have h := C2_all_calls_logged_in_call_order none _ _ _ hrun (by decide)
  exact ⟨hrun, h.2.1, h.2.2.2 rfl [none, none] rfl⟩

/-! ## Submissions beyond the capacity -/

/-- Calls to `LogUserAction` alone: the lane takes the first calls up to its capacity, each
later call reports `audit queue full` once, to the error lane or to the logger. -/
theorem submit_run (acts : List Action) : ∀ (s : AuditService),
    (∀ a ∈ acts, a.isLogUserAction = true) →
    ∃ s2 tr, run s acts = some (s2, tr)
      ∧ s2.auditCh.buf
          = s.auditCh.buf ++ (callEvents acts).take (s.auditCh.cap - s.auditCh.buf.length)
      ∧ s2.auditCh.cap = s.auditCh.cap
      ∧ s2.errCh.buf.count (lit "audit queue full")
            + (loggedErrors tr).count (lit "audit queue full")
          = s.errCh.buf.count (lit "audit queue full")
            + (acts.length - (s.auditCh.cap - s.auditCh.buf.length))
      ∧ s2.auditWorker = s.auditWorker
      ∧ auditRecords tr = [] ∧ uploadCalls tr = [] := by
  induction acts with
  | nil =>
    intro s _
    exact ⟨s, [], rfl, by simp [callEvents], rfl, by simp [loggedErrors], rfl, rfl, rfl⟩
  | cons a as ih =>
    intro s hall
    have ha := hall a (List.mem_cons_self _ _)
    have has : ∀ b ∈ as, b.isLogUserAction = true :=
      fun b hb => hall b (List.mem_cons_of_mem _ hb)
    cases a with
    | logUserAction action userID remoteIP now =>
      by_cases hr : s.auditCh.buf.length < s.auditCh.cap
      · have hs : step s (.logUserAction action userID remoteIP now)
            = some ({ s with auditCh := { s.auditCh with buf := s.auditCh.buf ++
                [{ Action := action, UserID := userID, RemoteIP := remoteIP,
                   CreatedAt := now }] } }, []) := by
          simp only [step, LogUserAction]
          rw [Chan.trySend_room _ _ hr]
        obtain ⟨s2, tr, h1, h2, h3, h4, h5, h6, h7⟩ := ih
          { s with auditCh := { s.auditCh with buf := s.auditCh.buf ++
                [{ Action := action, UserID := userID, RemoteIP := remoteIP,
                   CreatedAt := now }] } } has
        refine ⟨s2, [] ++ tr, by simp only [run, hs, h1], ?_, h3, ?_, h5, h6, h7⟩
        · rw [h2]
          simp only [List.length_append, List.length_singleton, callEvents,
            List.append_assoc, List.singleton_append]
          have : s.auditCh.cap - s.auditCh.buf.length
              = (s.auditCh.cap - (s.auditCh.buf.length + 1)) + 1 := by omega
          rw [this, List.take_succ_cons]
        · simp only [List.length_append, List.length_singleton] at h4
          simp only [List.nil_append, List.length_cons]
          omega
      · have hs : step s (.logUserAction action userID remoteIP now)
            = some (pushErr s (lit "audit queue full")) := by
          simp only [step, LogUserAction]
          rw [Chan.trySend_full _ _ hr]
        obtain ⟨f1, f2, f3, f4, f5, f6, f7, f8, f9, f10, f11⟩ :=
          pushErr_frame s (lit "audit queue full")
        rcases hp : pushErr s (lit "audit queue full") with ⟨s1, e1⟩
        rw [hp] at f1 f2 f3 f4 f5 f6 f7 f8 f9 f10 f11 hs
        simp only at f1 f2 f3 f4 f5 f6 f7 f8 f9 f10 f11
        obtain ⟨s2, tr, h1, h2, h3, h4, h5, h6, h7⟩ := ih s1 has
        refine ⟨s2, e1 ++ tr, by simp only [run, hs, h1], ?_, by rw [h3, f2], ?_,
          by rw [h5, f5], by rw [auditRecords_append, f9, h6]; rfl,
          by rw [uploadCalls_append, f10, h7]; rfl⟩
        · rw [h2, f2]
          have h0 : s.auditCh.cap - s.auditCh.buf.length = 0 := by omega
          rw [h0]
          simp
        · have hc := congrArg (List.count (lit "audit queue full")) f11
          simp only [List.count_append, List.count_singleton_self] at hc
          rw [loggedErrors_append, List.count_append]
          rw [f2] at h4
          simp only [List.length_cons]
          omega
    | _ => simp [Action.isLogUserAction] at ha

/-- More calls to `LogUserAction` than the lane holds, on empty lanes and without a worker
step: the accepted prefix, the number of failures, and what the worker logs afterwards. -/
theorem submit_overflow (s : AuditService) (acts : List Action)
    (hA : s.auditCh.buf = []) (hE : s.errCh.buf = []) (hW : s.auditWorker = .Running)
    (hall : ∀ a ∈ acts, a.isLogUserAction = true) (hN : s.auditCh.cap < acts.length) :
    ∃ s2 tr, run s acts = some (s2, tr)
      ∧ s2.auditCh.buf = (callEvents acts).take s.auditCh.cap
      ∧ s2.auditCh.buf.length = s.auditCh.cap
      ∧ s2.errCh.buf.count (lit "audit queue full")
            + (loggedErrors tr).count (lit "audit queue full")
          = acts.length - s.auditCh.cap
      ∧ auditRecords tr = []
      ∧ ∀ puts : List (Option GoError), puts.length = s.auditCh.cap →
          ∃ s3 tr3, run s2 (puts.map Action.auditRecv) = some (s3, tr3)
            ∧ auditRecords tr3 = ((callEvents acts).take s.auditCh.cap).map auditRecord
            ∧ s3.auditCh.buf = []
            ∧ ∀ put, step s3 (.auditRecv put) = none := by
  obtain ⟨s2, tr, h1, h2, h3, h4, h5, h6, _⟩ := submit_run acts s hall
  have hlen : (callEvents acts).length = acts.length := by
    clear h1 h2 h4 hN
    induction acts with
    | nil => rfl
    | cons a as ih =>
      have ha := hall a (List.mem_cons_self _ _)
      cases a with
      | logUserAction action userID remoteIP now =>
        simp only [callEvents, List.length_cons]
        rw [ih (fun b hb => hall b (List.mem_cons_of_mem _ hb))]
      | _ => simp [Action.isLogUserAction] at ha
  rw [hA] at h2
  rw [hA, hE] at h4
  simp only [List.nil_append, List.length_nil, Nat.sub_zero, List.count_nil,
    Nat.zero_add] at h2 h4
  have hl2 : s2.auditCh.buf.length = s.auditCh.cap := by
    rw [h2, List.length_take, hlen]; omega
  refine ⟨s2, tr, h1, h2, hl2, h4, h6, ?_⟩
  intro puts hp
  obtain ⟨s3, tr3, k1, k2, k3, _⟩ := drain puts s2 (by rw [h5]; exact hW) (by omega)
  have hp' : puts.length = s2.auditCh.buf.length := by omega
  have hempty : s3.auditCh.buf = [] := by rw [k3, hp', List.drop_length]
  refine ⟨s3, tr3, k1, ?_, hempty, ?_⟩
  · rw [k2, hp', List.take_length, h2]
  · intro put
    simp only [step, Chan.recv, hempty]
    split <;> rfl

/-- C3: on a service with empty audit and error lanes and a running audit worker, whatever
the capacity `C` of the audit lane, `N > C` calls to `LogUserAction` made while no worker
takes anything leave the first `C` events in the lane, in submission order, and produce
exactly `N - C` records of the error `audit queue full` (on the error lane or, once that is
full, in the log); when the worker then takes `C` envelopes, the `audit` records it logs
are the records at level `Info` with message `audit` and the attributes `action`,
`user_id`, `remote_ip` of those `C` events, once each and in submission order, and the lane
is empty, so that no further audit step is possible. -/
theorem C3_overflow_reports_and_accepted_prefix (s : AuditService) (acts : List Action)
    (hA : s.auditCh.buf = []) (hE : s.errCh.buf = []) (hW : s.auditWorker = .Running)
    (hall : ∀ a ∈ acts, a.isLogUserAction = true) (hN : s.auditCh.cap < acts.length) :
    ∃ s2 tr, run s acts = some (s2, tr)
      ∧ s2.auditCh.buf = (callEvents acts).take s.auditCh.cap
      ∧ s2.auditCh.buf.length = s.auditCh.cap
      ∧ s2.errCh.buf.count (lit "audit queue full")
            + (loggedErrors tr).count (lit "audit queue full")
          = acts.length - s.auditCh.cap
      ∧ auditRecords tr = []
      ∧ ∀ puts : List (Option GoError), puts.length = s.auditCh.cap →
          ∃ s3 tr3, run s2 (puts.map Action.auditRecv) = some (s3, tr3)
            ∧ auditRecords tr3 = ((callEvents acts).take s.auditCh.cap).map (fun ev : auditEvent =>
            ({ level := .Info, msg := lit "audit",
               attrs := [(lit "action", .str ev.Action), (lit "user_id", .int ev.UserID),
                 (lit "remote_ip", .str ev.RemoteIP)] } : LogRecord))
            ∧ s3.auditCh.buf = []
            ∧ ∀ put, step s3 (.auditRecv put) = none :=
  submit_overflow s acts hA hE hW hall hN

/-- C3 with capacity 2 and 3 submissions: the first two events are accepted, the third
produces the one `audit queue full` record, on the error lane, and the worker then logs
the records of the first and the second event, in this order, and nothing else. -/
theorem C3_overflow_reports_and_accepted_prefix_witness :
    run { NewAuditService none with auditCh := Chan.make 2 }
        [.logUserAction (lit "CREATE") 1 (lit "a") ⟨2024, 1, 2, 3, 4, 5, 0⟩,
         .logUserAction (lit "UPDATE") 2 (lit "b") ⟨2024, 1, 2, 3, 4, 5, 1⟩,
         .logUserAction (lit "DELETE") 3 (lit "c") ⟨2024, 1, 2, 3, 4, 5, 2⟩]
      = some ({ NewAuditService none with
            auditCh := { buf := [⟨lit "CREATE", 1, lit "a", ⟨2024, 1, 2, 3, 4, 5, 0⟩⟩,
                                 ⟨lit "UPDATE", 2, lit "b", ⟨2024, 1, 2, 3, 4, 5, 1⟩⟩],
                         cap := 2 },
            errCh := { buf := [lit "audit queue full"], cap := 2048 } }, [])
    ∧ run { NewAuditService none with
            auditCh := { buf := [⟨lit "CREATE", 1, lit "a", ⟨2024, 1, 2, 3, 4, 5, 0⟩⟩,
                                 ⟨lit "UPDATE", 2, lit "b", ⟨2024, 1, 2, 3, 4, 5, 1⟩⟩],
                         cap := 2 },
            errCh := { buf := [lit "audit queue full"], cap := 2048 } }
          [.auditRecv none, .auditRecv none]
      = some ({ NewAuditService none with
            auditCh := { buf := [], cap := 2 },
            errCh := { buf := [lit "audit queue full"], cap := 2048 } },
          [.log (LogRecord.mk .Info (lit "audit")
              [(lit "action", .str (lit "CREATE")), (lit "user_id", .int 1),
               (lit "remote_ip", .str (lit "a"))]),
           .log (LogRecord.mk .Info (lit "audit")
              [(lit "action", .str (lit "UPDATE")), (lit "user_id", .int 2),
               (lit "remote_ip", .str (lit "b"))])])
    ∧ ∃ s2 tr, run { NewAuditService none with auditCh := Chan.make 2 }
        [.logUserAction (lit "CREATE") 1 (lit "a") ⟨2024, 1, 2, 3, 4, 5, 0⟩,
         .logUserAction (lit "UPDATE") 2 (lit "b") ⟨2024, 1, 2, 3, 4, 5, 1⟩,
         .logUserAction (lit "DELETE") 3 (lit "c") ⟨2024, 1, 2, 3, 4, 5, 2⟩] = some (s2, tr)
      ∧ s2.auditCh.buf = [⟨lit "CREATE", 1, lit "a", ⟨2024, 1, 2, 3, 4, 5, 0⟩⟩,
                          ⟨lit "UPDATE", 2, lit "b", ⟨2024, 1, 2, 3, 4, 5, 1⟩⟩]
      ∧ s2.errCh.buf.count (lit "audit queue full")
          + (loggedErrors tr).count (lit "audit queue full") = 1
      ∧ ∃ s3 tr3, run s2 [.auditRecv none, .auditRecv none] = some (s3, tr3)
          ∧ auditRecords tr3
              = [(LogRecord.mk .Info (lit "audit")
              [(lit "action", .str (lit "CREATE")), (lit "user_id", .int 1),
               (lit "remote_ip", .str (lit "a"))]),
                 (LogRecord.mk .Info (lit "audit")
              [(lit "action", .str (lit "UPDATE")), (lit "user_id", .int 2),
               (lit "remote_ip", .str (lit "b"))])]
          ∧ s3.auditCh.buf = [] := by
  obtain ⟨s2, tr, h1, h2, _, h4, _, h6⟩ := C3_overflow_reports_and_accepted_prefix
    { NewAuditService none with auditCh := Chan.make 2 }
    [.logUserAction (lit "CREATE") 1 (lit "a") ⟨2024, 1, 2, 3, 4, 5, 0⟩,
     .logUserAction (lit "UPDATE") 2 (lit "b") ⟨2024, 1, 2, 3, 4, 5, 1⟩,
     .logUserAction (lit "DELETE") 3 (lit "c") ⟨2024, 1, 2, 3, 4, 5, 2⟩]
    rfl rfl rfl (by decide) (by decide)
  obtain ⟨s3, tr3, k1, k2, k3, _⟩ := h6 [none, none] rfl
  exact ⟨by decide, by decide, s2, tr, h1, h2, h4, s3, tr3, k1, k2, k3⟩

set_option maxRecDepth 100000

/-! ## The sink: disabled, succeeding, failing -/

theorem handleAudit_disabled (s : AuditService) (ev : auditEvent) (put : Option GoError)
    (h : IntegrationService.Enabled s.integration = false) :
    handleAudit s ev put = (s, [.log (auditRecord ev)]) := by
  simp [handleAudit, h]

theorem drain_disabled (puts : List (Option GoError)) : ∀ (s : AuditService),
    IntegrationService.Enabled s.integration = false →
    s.auditWorker = .Running → puts.length ≤ s.auditCh.buf.length →
    run s (puts.map Action.auditRecv)
      = some ({ s with auditCh := { s.auditCh with buf := s.auditCh.buf.drop puts.length } },
          (s.auditCh.buf.take puts.length).map (fun ev => Effect.log (auditRecord ev))) := by
  induction puts with
  | nil => intro s _ _ _; rfl
  | cons put puts ih =>
    intro s hd hw hlen
    cases hb : s.auditCh.buf with
    | nil => simp [hb] at hlen
    | cons ev xs =>
      have hstep : step s (.auditRecv put)
          = some ({ s with auditCh := { s.auditCh with buf := xs } },
              [.log (auditRecord ev)]) := by
        unfold step
        simp only [Chan.recv, hb]
        rw [if_pos hw, handleAudit_disabled _ _ _ (show IntegrationService.Enabled
          ({ s with auditCh := { s.auditCh with buf := xs } }).integration = false from hd)]
      have hlen' : puts.length ≤ xs.length := by
        simp only [hb, List.length_cons] at hlen
        omega
      have := ih { s with auditCh := { s.auditCh with buf := xs } } hd hw hlen'
      simp only [List.map_cons, run, hstep, this]
      simp

/-- One step of a service whose sink is disabled: the sink stays disabled, every effect is a
log record, and an error that is queued or logged was queued before or is a queue-full
error of a producer. -/
theorem step_disabled {s s1 : AuditService} {a : Action} {e1 : List Effect}
    (hd : IntegrationService.Enabled s.integration = false) (h : step s a = some (s1, e1)) :
    IntegrationService.Enabled s1.integration = false
    ∧ (∀ e ∈ e1, ∃ r, e = Effect.log r)
    ∧ (∀ q ∈ s1.errCh.buf ++ loggedErrors e1,
        q ∈ s.errCh.buf ∨ q = lit "audit queue full" ∨ q = lit "notify queue full") := by
  have hnil : ∀ q ∈ s.errCh.buf ++ loggedErrors [], q ∈ s.errCh.buf
      ∨ q = lit "audit queue full" ∨ q = lit "notify queue full" := by
    intro q hq
    simp only [loggedErrors, List.filterMap_nil, List.append_nil] at hq
    exact Or.inl hq
  have hpush : ∀ q0 : GoError, (q0 = lit "audit queue full" ∨ q0 = lit "notify queue full") →
      pushErr s q0 = (s1, e1) →
      IntegrationService.Enabled s1.integration = false
      ∧ (∀ e ∈ e1, ∃ r, e = Effect.log r)
      ∧ (∀ q ∈ s1.errCh.buf ++ loggedErrors e1,
          q ∈ s.errCh.buf ∨ q = lit "audit queue full" ∨ q = lit "notify queue full") := by
    intro q0 hq0 hp
    obtain ⟨f1, _, _, _, _, _, _, _, _, _, f11⟩ := pushErr_frame s q0
    have f8 : ∀ e ∈ (pushErr s q0).2, ∃ r, e = Effect.log r := by
      rcases pushErr_cases s q0 with ⟨_, hc⟩ | ⟨_, hc⟩
      · rw [hc]; simp
      · rw [hc]; intro e he; exact ⟨_, List.mem_singleton.mp he⟩
    rw [hp] at f1 f11 f8
    simp only at f1 f11 f8
    refine ⟨by rw [f1]; exact hd, f8, ?_⟩
    intro q hq
    rw [f11] at hq
    rcases List.mem_append.mp hq with hq | hq
    · exact Or.inl hq
    · simp only [List.mem_singleton] at hq
      rw [hq]
      exact Or.inr hq0
  cases a with
  | logUserAction action userID remoteIP now =>
    simp only [step, Option.some.injEq] at h
    unfold LogUserAction at h
    by_cases hr : s.auditCh.buf.length < s.auditCh.cap
    · rw [Chan.trySend_room _ _ hr] at h
      simp only [Prod.mk.injEq] at h
      obtain ⟨rfl, rfl⟩ := h
      exact ⟨hd, by simp, hnil⟩
    · rw [Chan.trySend_full _ _ hr] at h
      exact hpush _ (Or.inl rfl) h
  | sendNotification topic recipient now =>
    simp only [step, Option.some.injEq] at h
    unfold SendNotification at h
    by_cases hr : s.notifyCh.buf.length < s.notifyCh.cap
    · rw [Chan.trySend_room _ _ hr] at h
      simp only [Prod.mk.injEq] at h
      obtain ⟨rfl, rfl⟩ := h
      exact ⟨hd, by simp, hnil⟩
    · rw [Chan.trySend_full _ _ hr] at h
      exact hpush _ (Or.inr rfl) h
  | cancel =>
    simp only [step, Option.some.injEq, Prod.mk.injEq] at h
    obtain ⟨rfl, rfl⟩ := h
    exact ⟨hd, by simp, hnil⟩
  | auditRecv put =>
    obtain ⟨ev, xs, _, _, hh⟩ := step_auditRecv h
    rw [handleAudit_disabled _ _ _ (show IntegrationService.Enabled
      ({ s with auditCh := { s.auditCh with buf := xs } }).integration = false from hd)] at hh
    simp only [Prod.mk.injEq] at hh
    obtain ⟨rfl, rfl⟩ := hh
    refine ⟨hd, by simp, ?_⟩
    intro q hq
    simp only [loggedErrors, List.filterMap_cons, List.filterMap_nil, recordError,
      auditRecord, List.append_nil] at hq
    exact Or.inl hq
  | auditDone =>
    obtain ⟨_, _, rfl, rfl⟩ := step_auditDone h
    exact ⟨hd, by simp, hnil⟩
  | notifyRecv =>
    obtain ⟨ev, xs, _, _, rfl, rfl⟩ := step_notifyRecv h
    refine ⟨hd, by simp, ?_⟩
    intro q hq
    simp only [loggedErrors, List.filterMap_cons, List.filterMap_nil, recordError,
      notificationRecord, List.append_nil] at hq
    exact Or.inl hq
  | notifyDone =>
    obtain ⟨_, _, rfl, rfl⟩ := step_notifyDone h
    exact ⟨hd, by simp, hnil⟩
  | errRecv =>
    obtain ⟨err, xs, hb, _, rfl, rfl⟩ := step_errRecv h
    refine ⟨hd, by simp, ?_⟩
    intro q hq
    simp only [loggedErrors, List.filterMap_cons, List.filterMap_nil, recordError,
      workerErrorRecord, List.mem_append, List.mem_singleton] at hq
    left
    rw [hb]
    rcases hq with hq | hq
    · exact List.mem_cons_of_mem _ hq
    · rw [hq]; exact List.mem_cons_self _ _
  | errDone =>
    obtain ⟨_, _, rfl, rfl⟩ := step_errDone h
    exact ⟨hd, by simp, hnil⟩

/-- A schedule of a service whose sink is disabled produces log records only, and queues or
logs no error other than those queued before and the queue-full errors of the producers. -/
theorem run_disabled (acts : List Action) : ∀ (s s2 : AuditService) (tr : List Effect),
    IntegrationService.Enabled s.integration = false → run s acts = some (s2, tr) →
    (∀ e ∈ tr, ∃ r, e = Effect.log r)
    ∧ (∀ q ∈ s2.errCh.buf ++ loggedErrors tr,
        q ∈ s.errCh.buf ∨ q = lit "audit queue full" ∨ q = lit "notify queue full") := by
  induction acts with
  | nil =>
    intro s s2 tr _ h
    simp only [run, Option.some.injEq, Prod.mk.injEq] at h
    obtain ⟨rfl, rfl⟩ := h
    refine ⟨by simp, ?_⟩
    intro q hq
    simp only [loggedErrors, List.filterMap_nil, List.append_nil] at hq
    exact Or.inl hq
  | cons a as ih =>
    intro s s2 tr hd h
    obtain ⟨s1, e1, e2, hs, hr2, rfl⟩ := run_cons_some s s2 a as tr h
    obtain ⟨g1, g2, g3⟩ := step_disabled hd hs
    obtain ⟨k1, k2⟩ := ih s1 s2 e2 g1 hr2
    refine ⟨?_, ?_⟩
    · intro e he
      rcases List.mem_append.mp he with he | he
      · exact g2 e he
      · exact k1 e he
    · intro q hq
      rw [loggedErrors_append] at hq
      have hq1 : q ∈ loggedErrors e1 ∨ q ∈ s2.errCh.buf ++ loggedErrors e2 := by
        rcases List.mem_append.mp hq with h | h
        · exact Or.inr (List.mem_append_left _ h)
        · rcases List.mem_append.mp h with h | h
          · exact Or.inl h
          · exact Or.inr (List.mem_append_right _ h)
      rcases hq1 with hq1 | hq1
      · exact g3 q (List.mem_append_right _ hq1)
      · rcases k2 q hq1 with hq2 | hq2
        · exact g3 q (List.mem_append_left _ hq2)
        · exact Or.inr hq2

/-- C4: with the sink disabled (no `IntegrationService`, or its flag off) `handleAudit`
does nothing but emit the one `audit` record: the state, and so the error lane, is
unchanged and there is no call to the sink. A worker that takes any number of buffered
events produces exactly their `audit` records, in order, with no upload call, no logged
error and the error lane untouched. And in every schedule, whatever the number of events,
the effects are log records only (no call to `UploadAuditLog`, none to the storage client),
and every error that is queued or logged was queued before or is one of the queue-full
errors of the producers: no upload or marshal failure is recorded. -/
theorem C4_disabled_sink_only_logs (s : AuditService)
    (h : IntegrationService.Enabled s.integration = false) :
    (∀ (ev : auditEvent) (put : Option GoError),
      handleAudit s ev put = (s, [.log (auditRecord ev)]))
    ∧ (s.auditWorker = .Running → ∀ puts : List (Option GoError),
        puts.length ≤ s.auditCh.buf.length →
        ∃ s2 tr, run s (puts.map Action.auditRecv) = some (s2, tr)
          ∧ tr = (s.auditCh.buf.take puts.length).map (fun ev => Effect.log (auditRecord ev))
          ∧ uploadCalls tr = [] ∧ loggedErrors tr = []
          ∧ (∀ b n p c, Effect.putObject b n p c ∉ tr)
          ∧ s2.errCh = s.errCh)
    ∧ (∀ (acts : List Action) (s2 : AuditService) (tr : List Effect),
        run s acts = some (s2, tr) →
        uploadCalls tr = []
        ∧ (∀ b n p c, Effect.putObject b n p c ∉ tr)
        ∧ (∀ q ∈ s2.errCh.buf ++ loggedErrors tr,
            q ∈ s.errCh.buf ∨ q = lit "audit queue full" ∨ q = lit "notify queue full")) := by
  refine ⟨fun ev put => handleAudit_disabled s ev put h, ?_, ?_⟩
  · intro hw puts hp
    refine ⟨_, _, drain_disabled puts s h hw hp, rfl, ?_, ?_, ?_, rfl⟩
    · simp only [uploadCalls]
      rw [List.filterMap_eq_nil_iff]
      intro e he
      obtain ⟨ev, _, rfl⟩ := List.mem_map.mp he
      rfl
    · simp only [loggedErrors]
      rw [List.filterMap_eq_nil_iff]
      intro e he
      obtain ⟨ev, _, rfl⟩ := List.mem_map.mp he
      rfl
    · intro b n p c he
      obtain ⟨ev, _, hev⟩ := List.mem_map.mp he
      cases hev
  · intro acts s2 tr hr
    obtain ⟨k1, k2⟩ := run_disabled acts s s2 tr h hr
    refine ⟨?_, ?_, k2⟩
    · simp only [uploadCalls]
      rw [List.filterMap_eq_nil_iff]
      intro e he
      obtain ⟨r, rfl⟩ := k1 e he
      rfl
    · intro b n p c he
      obtain ⟨r, hr⟩ := k1 _ he
      cases hr

/-- C4 on a service without an `IntegrationService`. -/
theorem C4_disabled_sink_only_logs_witness :
    handleAudit (NewAuditService none) ⟨lit "CREATE", 42, lit "10.0.0.1", ⟨2024, 1, 2, 3, 4, 5, 0⟩⟩
        (some (lit "unreachable"))
      = (NewAuditService none,
          [.log (auditRecord ⟨lit "CREATE", 42, lit "10.0.0.1", ⟨2024, 1, 2, 3, 4, 5, 0⟩⟩)]) :=
  (C4_disabled_sink_only_logs (NewAuditService none) rfl).1 _ _

/-- C5, amended: with the sink enabled, an event that `json.Marshal` serialises (to
`payload`), and a storage call that succeeds, `handleAudit` emits the `audit` record and
then makes exactly one upload call, under the name `"audit/" ++ RFC3339Nano(CreatedAt) ++
"-user-" ++ decimal(UserID) ++ ".json"` and with that payload; the state is unchanged, so
no failure is recorded; and the name depends on `CreatedAt` and `UserID` only. -/
theorem C5_one_upload_with_object_name (s : AuditService) (i : IntegrationService)
    (ev : auditEvent) (payload : List Nat)
    (hi : s.integration = some i) (hen : i.enabled = true)
    (hm : jsonMarshal ev = .ok payload) :
    handleAudit s ev none
        = (s, [.log (LogRecord.mk .Info (lit "audit")
                  [(lit "action", .str ev.Action), (lit "user_id", .int ev.UserID),
                   (lit "remote_ip", .str ev.RemoteIP)]),
               .uploadAuditLog (lit "audit/" ++ formatRFC3339Nano ev.CreatedAt ++ lit "-user-"
                  ++ formatInt ev.UserID ++ lit ".json") payload,
               .putObject i.bucket (lit "audit/" ++ formatRFC3339Nano ev.CreatedAt
                  ++ lit "-user-" ++ formatInt ev.UserID ++ lit ".json") payload
                  (lit "application/json")])
    ∧ uploadCalls (handleAudit s ev none).2
        = [(lit "audit/" ++ formatRFC3339Nano ev.CreatedAt ++ lit "-user-"
              ++ formatInt ev.UserID ++ lit ".json", payload)]
    ∧ loggedErrors (handleAudit s ev none).2 = []
    ∧ (∀ ev2 : auditEvent, ev2.CreatedAt = ev.CreatedAt → ev2.UserID = ev.UserID →
        objectName ev2 = objectName ev) := by
  have hh : handleAudit s ev none
        = (s, [.log (LogRecord.mk .Info (lit "audit")
                  [(lit "action", .str ev.Action), (lit "user_id", .int ev.UserID),
                   (lit "remote_ip", .str ev.RemoteIP)]),
               .uploadAuditLog (lit "audit/" ++ formatRFC3339Nano ev.CreatedAt ++ lit "-user-"
                  ++ formatInt ev.UserID ++ lit ".json") payload,
               .putObject i.bucket (lit "audit/" ++ formatRFC3339Nano ev.CreatedAt
                  ++ lit "-user-" ++ formatInt ev.UserID ++ lit ".json") payload
                  (lit "application/json")]) := by
    simp [handleAudit, hm, UploadAuditLog, hi, objectName, IntegrationService.Enabled, hen,
      auditRecord]
  refine ⟨hh, ?_, ?_, ?_⟩
  · rw [hh]; rfl
  · rw [hh]; rfl
  · intro ev2 h1 h2
    simp only [objectName, h1, h2]

/-- C5 as stated fails for an event that `json.Marshal` does not serialise. On a new
service with the sink enabled and a storage client that would succeed, the event that
`LogUserAction` builds at a clock reading in the year 10000 is taken by the audit worker,
which logs the `audit` record, makes no upload call, and queues the failure
`marshal audit event: ...` on the error lane. -/
theorem C5_counterexample :
    run (NewAuditService (some ⟨lit "logs", true⟩))
        [.logUserAction (lit "CREATE") 42 (lit "10.0.0.1") ⟨10000, 1, 1, 0, 0, 0, 0⟩,
         .auditRecv none]
      = some ({ NewAuditService (some ⟨lit "logs", true⟩) with
            errCh := Chan.mk [lit ("marshal audit event: json: error calling MarshalJSON "
                ++ "for type time.Time: Time.MarshalJSON: year outside of range [0,9999]")]
              2048 },
          [.log (LogRecord.mk .Info (lit "audit")
              [(lit "action", .str (lit "CREATE")), (lit "user_id", .int 42),
               (lit "remote_ip", .str (lit "10.0.0.1"))])])
    ∧ uploadCalls [.log (LogRecord.mk .Info (lit "audit")
              [(lit "action", .str (lit "CREATE")), (lit "user_id", .int 42),
               (lit "remote_ip", .str (lit "10.0.0.1"))])] = [] := by
  refine ⟨by decide, by decide⟩

/-- C5 on the event `CREATE`, 42, `10.0.0.1` at 2024-01-02T03:04:05.12Z. -/
theorem C5_one_upload_with_object_name_witness :
    uploadCalls (handleAudit (NewAuditService (some ⟨lit "logs", true⟩))
        ⟨lit "CREATE", 42, lit "10.0.0.1", ⟨2024, 1, 2, 3, 4, 5, 120000000⟩⟩ none).2
      = [(lit "audit/2024-01-02T03:04:05.12Z-user-42.json",
          lit ("\x7b\"action\":\"CREATE\",\"user_id\":42,\"remote_ip\":\"10.0.0.1\","
            ++ "\"created_at\":\"2024-01-02T03:04:05.12Z\"\x7d"))] :=
  (C5_one_upload_with_object_name (NewAuditService (some ⟨lit "logs", true⟩)) ⟨lit "logs", true⟩
    ⟨lit "CREATE", 42, lit "10.0.0.1", ⟨2024, 1, 2, 3, 4, 5, 120000000⟩⟩ _ rfl rfl
    rfl).2.1

/-- C7: with the sink enabled, an event that serialises to `payload`, and a storage call
that fails with `err`, `handleAudit` emits the `audit` record, then makes exactly one upload
call, then produces exactly one failure `upload audit log: err`: appended to the error
lane when that lane has room, otherwise logged at once. The audit lane is not touched (the
event is not queued again) and there is no second upload. -/
theorem C7_failed_upload_one_failure_record (s : AuditService) (i : IntegrationService)
    (ev : auditEvent) (payload : List Nat) (err : GoError)
    (hi : s.integration = some i) (hen : i.enabled = true)
    (hm : jsonMarshal ev = .ok payload) :
    (s.errCh.buf.length < s.errCh.cap →
      handleAudit s ev (some err)
        = ({ s with errCh := { s.errCh with
              buf := s.errCh.buf ++ [lit "upload audit log: " ++ err] } },
           [.log (auditRecord ev), .uploadAuditLog (objectName ev) payload,
            .putObject i.bucket (objectName ev) payload (lit "application/json")]))
    ∧ (¬ s.errCh.buf.length < s.errCh.cap →
      handleAudit s ev (some err)
        = (s, [.log (auditRecord ev), .uploadAuditLog (objectName ev) payload,
               .putObject i.bucket (objectName ev) payload (lit "application/json"),
               .log (errorQueueFullRecord (lit "upload audit log: " ++ err))]))
    ∧ uploadCalls (handleAudit s ev (some err)).2 = [(objectName ev, payload)]
    ∧ (handleAudit s ev (some err)).1.auditCh = s.auditCh
    ∧ (handleAudit s ev (some err)).1.errCh.buf ++ loggedErrors (handleAudit s ev (some err)).2
        = s.errCh.buf ++ [lit "upload audit log: " ++ err] := by
  have hh : handleAudit s ev (some err)
      = ((pushErr s (lit "upload audit log: " ++ err)).1,
         [.log (auditRecord ev), .uploadAuditLog (objectName ev) payload,
          .putObject i.bucket (objectName ev) payload (lit "application/json")]
          ++ (pushErr s (lit "upload audit log: " ++ err)).2) := by
    simp [handleAudit, hm, UploadAuditLog, hi, IntegrationService.Enabled, hen]
  rcases pushErr_cases s (lit "upload audit log: " ++ err) with ⟨hr, hp⟩ | ⟨hr, hp⟩
  · rw [hh, hp]
    refine ⟨fun _ => rfl, fun hn => absurd hr hn, rfl, rfl, ?_⟩
    simp [loggedErrors, recordError, auditRecord]
  · rw [hh, hp]
    refine ⟨fun hn => absurd hn hr, fun _ => rfl, rfl, rfl, rfl⟩

/-- C7 on the event `CREATE`, 42, `10.0.0.1` and a sink that fails: one `audit` record, one
upload call, one failure on the error lane. -/
theorem C7_failed_upload_one_failure_record_witness :
    handleAudit (NewAuditService (some ⟨lit "logs", true⟩))
        ⟨lit "CREATE", 42, lit "10.0.0.1", ⟨2024, 1, 2, 3, 4, 5, 0⟩⟩ (some (lit "connection refused"))
      = ({ NewAuditService (some ⟨lit "logs", true⟩) with
            errCh := { buf := [lit "upload audit log: connection refused"], cap := 2048 } },
         [.log (auditRecord ⟨lit "CREATE", 42, lit "10.0.0.1", ⟨2024, 1, 2, 3, 4, 5, 0⟩⟩),
          .uploadAuditLog (lit "audit/2024-01-02T03:04:05Z-user-42.json")
            (lit ("\x7b\"action\":\"CREATE\",\"user_id\":42,\"remote_ip\":\"10.0.0.1\","
              ++ "\"created_at\":\"2024-01-02T03:04:05Z\"\x7d")),
          .putObject (lit "logs") (lit "audit/2024-01-02T03:04:05Z-user-42.json")
            (lit ("\x7b\"action\":\"CREATE\",\"user_id\":42,\"remote_ip\":\"10.0.0.1\","
              ++ "\"created_at\":\"2024-01-02T03:04:05Z\"\x7d"))
            (lit "application/json")]) :=
  (C7_failed_upload_one_failure_record (NewAuditService (some ⟨lit "logs", true⟩))
    ⟨lit "logs", true⟩ ⟨lit "CREATE", 42, lit "10.0.0.1", ⟨2024, 1, 2, 3, 4, 5, 0⟩⟩ _
    (lit "connection refused") rfl rfl rfl).1 (by decide)

/-! ## The life cycle of the workers -/

theorem pushErr_closed (s : AuditService) (q : GoError) :
    (pushErr s q).1.cancelled = s.cancelled
    ∧ (pushErr s q).1.auditWorker = s.auditWorker
    ∧ (pushErr s q).1.notifyWorker = s.notifyWorker
    ∧ (pushErr s q).1.errWorker = s.errWorker
    ∧ (pushErr s q).1.auditCh = s.auditCh ∧ (pushErr s q).1.notifyCh = s.notifyCh
    ∧ s.errCh.buf <+: (pushErr s q).1.errCh.buf
    ∧ ∀ e ∈ (pushErr s q).2, e = .log (errorQueueFullRecord q) := by
  rcases pushErr_cases s q with ⟨_, h⟩ | ⟨_, h⟩
  · rw [h]
    exact ⟨rfl, rfl, rfl, rfl, rfl, rfl, List.prefix_append _ _, by simp⟩
  · rw [h]
    exact ⟨rfl, rfl, rfl, rfl, rfl, rfl, List.prefix_refl _, by simp⟩

/-- How a step changes the state of the workers: a worker changes state only by its `Done`
branch, which needs a running worker and a cancelled context and leaves it stopped. -/
theorem step_workers {s s1 : AuditService} {a : Action} {e1 : List Effect}
    (h : step s a = some (s1, e1)) :
    (s1.auditWorker = s.auditWorker
      ∨ (a = .auditDone ∧ s.cancelled = true ∧ s.auditWorker = .Running
          ∧ s1.auditWorker = .Stopped))
    ∧ (s1.notifyWorker = s.notifyWorker
      ∨ (a = .notifyDone ∧ s.cancelled = true ∧ s.notifyWorker = .Running
          ∧ s1.notifyWorker = .Stopped))
    ∧ (s1.errWorker = s.errWorker
      ∨ (a = .errDone ∧ s.cancelled = true ∧ s.errWorker = .Running
          ∧ s1.errWorker = .Stopped)) := by
  cases a with
  | logUserAction action userID remoteIP now =>
    simp only [step, Option.some.injEq] at h
    unfold LogUserAction at h
    by_cases hr : s.auditCh.buf.length < s.auditCh.cap
    · rw [Chan.trySend_room _ _ hr] at h
      simp only [Prod.mk.injEq] at h
      obtain ⟨rfl, rfl⟩ := h
      exact ⟨Or.inl rfl, Or.inl rfl, Or.inl rfl⟩
    · rw [Chan.trySend_full _ _ hr] at h
      simp only at h
      obtain ⟨_, f2, f3, f4, _⟩ := pushErr_closed s (lit "audit queue full")
      rw [h] at f2 f3 f4
      exact ⟨Or.inl f2, Or.inl f3, Or.inl f4⟩
  | sendNotification topic recipient now =>
    simp only [step, Option.some.injEq] at h
    unfold SendNotification at h
    by_cases hr : s.notifyCh.buf.length < s.notifyCh.cap
    · rw [Chan.trySend_room _ _ hr] at h
      simp only [Prod.mk.injEq] at h
      obtain ⟨rfl, rfl⟩ := h
      exact ⟨Or.inl rfl, Or.inl rfl, Or.inl rfl⟩
    · rw [Chan.trySend_full _ _ hr] at h
      simp only at h
      obtain ⟨_, f2, f3, f4, _⟩ := pushErr_closed s (lit "notify queue full")
      rw [h] at f2 f3 f4
      exact ⟨Or.inl f2, Or.inl f3, Or.inl f4⟩
  | cancel =>
    simp only [step, Option.some.injEq, Prod.mk.injEq] at h
    obtain ⟨rfl, rfl⟩ := h
    exact ⟨Or.inl rfl, Or.inl rfl, Or.inl rfl⟩
  | auditRecv put =>
    obtain ⟨ev, xs, _, _, hh⟩ := step_auditRecv h
    obtain ⟨_, _, _, _, f5, f6, f7, _⟩ :=
      handleAudit_frame { s with auditCh := { s.auditCh with buf := xs } } ev put
    rw [hh] at f5 f6 f7
    exact ⟨Or.inl f5, Or.inl f6, Or.inl f7⟩
  | auditDone =>
    obtain ⟨hw, hc, rfl, rfl⟩ := step_auditDone h
    exact ⟨Or.inr ⟨rfl, hc, hw, rfl⟩, Or.inl rfl, Or.inl rfl⟩
  | notifyRecv =>
    obtain ⟨ev, xs, _, _, rfl, rfl⟩ := step_notifyRecv h
    exact ⟨Or.inl rfl, Or.inl rfl, Or.inl rfl⟩
  | notifyDone =>
    obtain ⟨hw, hc, rfl, rfl⟩ := step_notifyDone h
    exact ⟨Or.inl rfl, Or.inr ⟨rfl, hc, hw, rfl⟩, Or.inl rfl⟩
  | errRecv =>
    obtain ⟨err, xs, _, _, rfl, rfl⟩ := step_errRecv h
    exact ⟨Or.inl rfl, Or.inl rfl, Or.inl rfl⟩
  | errDone =>
    obtain ⟨hw, hc, rfl, rfl⟩ := step_errDone h
    exact ⟨Or.inl rfl, Or.inl rfl, Or.inr ⟨rfl, hc, hw, rfl⟩⟩

theorem step_closed_worker {s : AuditService} (hc : Closed s) (a : Action)
    (ha : a.isWorker = true) : step s a = none := by
  obtain ⟨_, h1, h2, h3⟩ := hc
  cases a <;> simp_all [step, Action.isWorker]

/-- After `Close` has returned only producer calls (and `cancel`) can be taken: they leave
the service closed, only append to the lanes, and emit nothing but the `error queue full`
record of `pushErr`. -/
theorem step_closed {s s1 : AuditService} {a : Action} {e1 : List Effect} (hc : Closed s)
    (h : step s a = some (s1, e1)) :
    a.isWorker = false ∧ Closed s1
    ∧ s.auditCh.buf <+: s1.auditCh.buf ∧ s.notifyCh.buf <+: s1.notifyCh.buf
    ∧ s.errCh.buf <+: s1.errCh.buf
    ∧ ∀ e ∈ e1, ∃ q, e = Effect.log (errorQueueFullRecord q) := by
  have hw : a.isWorker = false := by
    cases hw : a.isWorker with
    | false => rfl
    | true => rw [step_closed_worker hc a hw] at h; exact absurd h (by simp)
  refine ⟨hw, ?_⟩
  obtain ⟨c0, c1, c2, c3⟩ := hc
  cases a with
  | logUserAction action userID remoteIP now =>
    simp only [step, Option.some.injEq] at h
    unfold LogUserAction at h
    by_cases hr : s.auditCh.buf.length < s.auditCh.cap
    · rw [Chan.trySend_room _ _ hr] at h
      simp only [Prod.mk.injEq] at h
      obtain ⟨rfl, rfl⟩ := h
      exact ⟨⟨c0, c1, c2, c3⟩, List.prefix_append _ _, List.prefix_refl _,
        List.prefix_refl _, by simp⟩
    · rw [Chan.trySend_full _ _ hr] at h
      simp only at h
      obtain ⟨f1, f2, f3, f4, f5, f6, f7, f8⟩ := pushErr_closed s (lit "audit queue full")
      rw [h] at f1 f2 f3 f4 f5 f6 f7 f8
      simp only at f1 f2 f3 f4 f5 f6 f7 f8
      exact ⟨⟨by rw [f1, c0], by rw [f2, c1], by rw [f3, c2], by rw [f4, c3]⟩,
        by rw [f5], by rw [f6], f7, fun e he => ⟨_, f8 e he⟩⟩
  | sendNotification topic recipient now =>
    simp only [step, Option.some.injEq] at h
    unfold SendNotification at h
    by_cases hr : s.notifyCh.buf.length < s.notifyCh.cap
    · rw [Chan.trySend_room _ _ hr] at h
      simp only [Prod.mk.injEq] at h
      obtain ⟨rfl, rfl⟩ := h
      exact ⟨⟨c0, c1, c2, c3⟩, List.prefix_refl _, List.prefix_append _ _,
        List.prefix_refl _, by simp⟩
    · rw [Chan.trySend_full _ _ hr] at h
      simp only at h
      obtain ⟨f1, f2, f3, f4, f5, f6, f7, f8⟩ := pushErr_closed s (lit "notify queue full")
      rw [h] at f1 f2 f3 f4 f5 f6 f7 f8
      simp only at f1 f2 f3 f4 f5 f6 f7 f8
      exact ⟨⟨by rw [f1, c0], by rw [f2, c1], by rw [f3, c2], by rw [f4, c3]⟩,
        by rw [f5], by rw [f6], f7, fun e he => ⟨_, f8 e he⟩⟩
  | cancel =>
    simp only [step, Option.some.injEq, Prod.mk.injEq] at h
    obtain ⟨rfl, rfl⟩ := h
    exact ⟨⟨rfl, c1, c2, c3⟩, List.prefix_refl _, List.prefix_refl _,
        List.prefix_refl _, by simp⟩
  | _ => simp [Action.isWorker] at hw

theorem run_closed (acts : List Action) : ∀ (s s2 : AuditService) (tr : List Effect),
    Closed s → run s acts = some (s2, tr) →
    (∀ a ∈ acts, a.isWorker = false) ∧ Closed s2
    ∧ s.auditCh.buf <+: s2.auditCh.buf ∧ s.notifyCh.buf <+: s2.notifyCh.buf
    ∧ s.errCh.buf <+: s2.errCh.buf
    ∧ ∀ e ∈ tr, ∃ q, e = Effect.log (errorQueueFullRecord q) := by
  induction acts with
  | nil =>
    intro s s2 tr hc h
    simp only [run, Option.some.injEq, Prod.mk.injEq] at h
    obtain ⟨rfl, rfl⟩ := h
    exact ⟨by simp, hc, List.prefix_refl _, List.prefix_refl _, List.prefix_refl _, by simp⟩
  | cons a as ih =>
    intro s s2 tr hc h
    obtain ⟨s1, e1, e2, hs, hr2, rfl⟩ := run_cons_some s s2 a as tr h
    obtain ⟨g0, g1, g2, g3, g4, g5⟩ := step_closed hc hs
    obtain ⟨k0, k1, k2, k3, k4, k5⟩ := ih s1 s2 e2 g1 hr2
    refine ⟨?_, k1, g2.trans k2, g3.trans k3, g4.trans k4, ?_⟩
    · intro b hb
      rcases List.mem_cons.mp hb with rfl | hb
      · exact g0
      · exact k0 b hb
    · intro e he
      rcases List.mem_append.mp he with he | he
      · exact g5 e he
      · exact k5 e he

theorem errorQueueFull_not_worker_record (q : GoError) :
    (∀ ev, Effect.log (errorQueueFullRecord q) ≠ .log (auditRecord ev))
    ∧ (∀ n, Effect.log (errorQueueFullRecord q) ≠ .log (notificationRecord n))
    ∧ (∀ q2, Effect.log (errorQueueFullRecord q) ≠ .log (workerErrorRecord q2)) := by
  have h1 : lit "error queue full" ≠ lit "audit" := by decide
  have h2 : lit "error queue full" ≠ lit "notification" := by decide
  have h3 : lit "error queue full" ≠ lit "async worker error" := by decide
  refine ⟨fun ev h => h1 ?_, fun n h => h2 ?_, fun q2 h => h3 ?_⟩
  · exact congrArg LogRecord.msg (Effect.log.inj h)
  · exact congrArg LogRecord.msg (Effect.log.inj h)
  · exact congrArg LogRecord.msg (Effect.log.inj h)

/-- C8: each worker is a machine with the states `Running` and `Stopped`. Whatever step
the service takes, a stopped worker stays stopped; a running worker becomes stopped only
by the `Done` branch of its own `select`, which needs the context to be cancelled; and
taking an envelope needs a running worker and leaves it running. Once `Close` has returned
(context cancelled, three workers stopped) no worker step can be taken; whatever the
producers still do, the service stays closed, the envelopes buffered in the three lanes
stay where they are (the lanes only grow at the tail), and no `audit`, `notification` or
`async worker error` record and no upload is ever produced again. `Close` can return with
envelopes still in the lanes: after `cancel` the three `Done` steps lead to a closed state
with the lanes as they were. -/
theorem C8_worker_state_machine :
    (∀ (s s1 : AuditService) (a : Action) (e1 : List Effect), step s a = some (s1, e1) →
      ((s.auditWorker = .Stopped → s1.auditWorker = .Stopped)
        ∧ (s.notifyWorker = .Stopped → s1.notifyWorker = .Stopped)
        ∧ (s.errWorker = .Stopped → s1.errWorker = .Stopped))
      ∧ ((s.auditWorker = .Running → s1.auditWorker = .Stopped →
            s.cancelled = true ∧ a = .auditDone)
        ∧ (s.notifyWorker = .Running → s1.notifyWorker = .Stopped →
            s.cancelled = true ∧ a = .notifyDone)
        ∧ (s.errWorker = .Running → s1.errWorker = .Stopped →
            s.cancelled = true ∧ a = .errDone))
      ∧ ((∀ put, a = .auditRecv put → s.auditWorker = .Running ∧ s1.auditWorker = .Running)
        ∧ (a = .notifyRecv → s.notifyWorker = .Running ∧ s1.notifyWorker = .Running)
        ∧ (a = .errRecv → s.errWorker = .Running ∧ s1.errWorker = .Running)))
    ∧ (∀ (s : AuditService), Closed s → ∀ a : Action, a.isWorker = true → step s a = none)
    ∧ (∀ (s s2 : AuditService) (acts : List Action) (tr : List Effect), Closed s →
        run s acts = some (s2, tr) →
        (∀ a ∈ acts, a.isWorker = false) ∧ Closed s2
        ∧ s.auditCh.buf <+: s2.auditCh.buf ∧ s.notifyCh.buf <+: s2.notifyCh.buf
        ∧ s.errCh.buf <+: s2.errCh.buf
        ∧ ∀ e ∈ tr, (∀ ev, e ≠ .log (auditRecord ev)) ∧ (∀ n, e ≠ .log (notificationRecord n))
            ∧ (∀ q, e ≠ .log (workerErrorRecord q)) ∧ (∀ n p, e ≠ .uploadAuditLog n p)
            ∧ (∀ b n p c, e ≠ .putObject b n p c))
    ∧ (∀ (s : AuditService), s.auditWorker = .Running → s.notifyWorker = .Running →
        s.errWorker = .Running →
        ∃ s2, run s [.cancel, .auditDone, .notifyDone, .errDone] = some (s2, []) ∧ Closed s2
          ∧ s2.auditCh = s.auditCh ∧ s2.notifyCh = s.notifyCh ∧ s2.errCh = s.errCh) := by
  refine ⟨?_, fun s hc a ha => step_closed_worker hc a ha, ?_, ?_⟩
  · intro s s1 a e1 h
    obtain ⟨w1, w2, w3⟩ := step_workers h
    refine ⟨⟨?_, ?_, ?_⟩, ⟨?_, ?_, ?_⟩, ⟨?_, ?_, ?_⟩⟩
    · intro hs
      rcases w1 with w | ⟨_, _, _, w⟩
      · rw [w, hs]
      · exact w
    · intro hs
      rcases w2 with w | ⟨_, _, _, w⟩
      · rw [w, hs]
      · exact w
    · intro hs
      rcases w3 with w | ⟨_, _, _, w⟩
      · rw [w, hs]
      · exact w
    · intro hr hs
      rcases w1 with w | ⟨wa, wc, _, _⟩
      · rw [w, hr] at hs; exact absurd hs (by decide)
      · exact ⟨wc, wa⟩
    · intro hr hs
      rcases w2 with w | ⟨wa, wc, _, _⟩
      · rw [w, hr] at hs; exact absurd hs (by decide)
      · exact ⟨wc, wa⟩
    · intro hr hs
      rcases w3 with w | ⟨wa, wc, _, _⟩
      · rw [w, hr] at hs; exact absurd hs (by decide)
      · exact ⟨wc, wa⟩
    · intro put ha
      subst ha
      obtain ⟨_, _, _, hw, _⟩ := step_auditRecv h
      rcases w1 with w | ⟨wa, _⟩
      · exact ⟨hw, by rw [w, hw]⟩
      · exact absurd wa (by simp)
    · intro ha
      subst ha
      obtain ⟨_, _, _, hw, _⟩ := step_notifyRecv h
      rcases w2 with w | ⟨wa, _⟩
      · exact ⟨hw, by rw [w, hw]⟩
      · exact absurd wa (by simp)
    · intro ha
      subst ha
      obtain ⟨_, _, _, hw, _⟩ := step_errRecv h
      rcases w3 with w | ⟨wa, _⟩
      · exact ⟨hw, by rw [w, hw]⟩
      · exact absurd wa (by simp)
  · intro s s2 acts tr hc h
    obtain ⟨k0, k1, k2, k3, k4, k5⟩ := run_closed acts s s2 tr hc h
    refine ⟨k0, k1, k2, k3, k4, ?_⟩
    intro e he
    obtain ⟨q, rfl⟩ := k5 e he
    obtain ⟨n1, n2, n3⟩ := errorQueueFull_not_worker_record q
    exact ⟨n1, n2, n3, fun n p h => Effect.noConfusion h, fun b n p c h => Effect.noConfusion h⟩
  · intro s h1 h2 h3
    refine ⟨{ s with
      cancelled := true, auditWorker := .Stopped, notifyWorker := .Stopped,
      errWorker := .Stopped }, ?_, ⟨rfl, rfl, rfl, rfl⟩, rfl, rfl, rfl⟩
    simp [run, step, h1, h2, h3]

/-- C8 on a service closed with one envelope still in the audit lane: the worker cannot
take it and a later producer call leaves it at the head of the lane. -/
theorem C8_worker_state_machine_witness :
    ∃ s, run (NewAuditService none)
          [.logUserAction (lit "CREATE") 1 (lit "a") ⟨2024, 1, 2, 3, 4, 5, 0⟩,
           .cancel, .auditDone, .notifyDone, .errDone] = some (s, [])
      ∧ Closed s
      ∧ s.auditCh.buf = [⟨lit "CREATE", 1, lit "a", ⟨2024, 1, 2, 3, 4, 5, 0⟩⟩]
      ∧ step s (.auditRecv none) = none
      ∧ ∃ s2 tr, run s [.logUserAction (lit "DELETE") 1 (lit "a") ⟨2024, 1, 2, 3, 4, 5, 9⟩]
            = some (s2, tr) ∧ Closed s2 ∧ s.auditCh.buf <+: s2.auditCh.buf := by
  refine ⟨{ NewAuditService none with
      auditCh := { buf := [⟨lit "CREATE", 1, lit "a", ⟨2024, 1, 2, 3, 4, 5, 0⟩⟩], cap := 2048 },
      cancelled := true, auditWorker := .Stopped, notifyWorker := .Stopped,
      errWorker := .Stopped }, by decide, by decide, rfl, ?_, ?_⟩
  · exact C8_worker_state_machine.2.1 _ (by decide) _ rfl
  · refine ⟨_, _, rfl, ?_⟩
    have h := C8_worker_state_machine.2.2.1 _ _ _ _ (by decide)
      (rfl : run { NewAuditService none with
        auditCh := { buf := [⟨lit "CREATE", 1, lit "a", ⟨2024, 1, 2, 3, 4, 5, 0⟩⟩], cap := 2048 },
        cancelled := true, auditWorker := .Stopped, notifyWorker := .Stopped,
        errWorker := .Stopped }
        [.logUserAction (lit "DELETE") 1 (lit "a") ⟨2024, 1, 2, 3, 4, 5, 9⟩] = some (_, _))
    exact ⟨h.2.1, h.2.2.1⟩

/-! ## The user store -/

theorem lookup_eq_none_iff (s : UserService) (id : Int) :
    s.lookup id = none ↔ id ∉ s.users.map (fun p => p.1) := by
  unfold UserService.lookup
  cases h : s.users.find? (fun p => p.1 == id) with
  | none =>
    simp only [true_iff]
    intro hm
    obtain ⟨p, hp, hpid⟩ := List.mem_map.mp hm
    have := List.find?_eq_none.mp h p hp
    simp [hpid] at this
  | some p =>
    simp only [reduceCtorEq, false_iff, not_not]
    have hp := List.mem_of_find?_eq_some h
    have hid := List.find?_some h
    simp only [beq_iff_eq] at hid
    exact List.mem_map.mpr ⟨p, hp, hid⟩

theorem validate_ne_notFound (lib : Lib) (u : User) (err : GoError)
    (h : u.Validate lib = some err) : err ≠ ErrNotFound := by
  unfold User.Validate at h
  have h1 : lit "name is required" ≠ ErrNotFound := by decide
  have h2 : lit "email is required" ≠ ErrNotFound := by decide
  have h3 : lit "invalid email format" ≠ ErrNotFound := by decide
  split at h
  · simp only [Option.some.injEq] at h; rw [← h]; exact h1
  · split at h
    · simp only [Option.some.injEq] at h; rw [← h]; exact h2
    · split at h
      · simp only [Option.some.injEq] at h; rw [← h]; exact h3
      · exact absurd h (by simp)

/-- C10: a failing call leaves the store as it was: when `Create` or `Update` returns an
error, or `Delete` returns one, the map and `nextID` after the call are those before it (a
rejected `Create` consumes no identifier); `Create` fails exactly on an invalid user;
`Update` returns `ErrNotFound` exactly when the user is valid and `id` is not a key of the
map, and `Delete` exactly when `id` is not a key of the map, and `Delete` returns no other
error. -/
theorem C10_failed_operations_leave_store_unchanged (lib : Lib) (s : UserService)
    (id : Int) (u : User) :
    (∀ err, (s.Create lib u).2 = .error err → (s.Create lib u).1 = s)
    ∧ (∀ err, (s.Update lib id u).2 = .error err → (s.Update lib id u).1 = s)
    ∧ (∀ err, (s.Delete id).2 = some err → (s.Delete id).1 = s ∧ err = ErrNotFound)
    ∧ ((∃ err, (s.Create lib u).2 = .error err) ↔ u.Validate lib ≠ none)
    ∧ ((s.Update lib id u).2 = .error ErrNotFound
        ↔ u.Validate lib = none ∧ id ∉ s.users.map (fun p => p.1))
    ∧ ((s.Delete id).2 = some ErrNotFound ↔ id ∉ s.users.map (fun p => p.1)) := by
  refine ⟨?_, ?_, ?_, ?_, ?_, ?_⟩
  · intro err h
    unfold UserService.Create at h ⊢
    cases hv : u.Validate lib with
    | some e => rfl
    | none => simp [hv] at h
  · intro err h
    unfold UserService.Update at h ⊢
    cases hv : u.Validate lib with
    | some e => rfl
    | none =>
      cases hl : s.lookup id with
      | none => rfl
      | some v => simp [hv, hl] at h
  · intro err h
    unfold UserService.Delete at h ⊢
    cases hl : s.lookup id with
    | none =>
      simp only [hl, Option.some.injEq] at h
      exact ⟨rfl, h.symm⟩
    | some v => simp [hl] at h
  · unfold UserService.Create
    cases hv : u.Validate lib with
    | some e => simp
    | none => simp
  · rw [← lookup_eq_none_iff]
    unfold UserService.Update
    cases hv : u.Validate lib with
    | some e =>
      have := validate_ne_notFound lib u e hv
      simp only [Except.error.injEq, reduceCtorEq, false_and, iff_false]
      exact this
    | none =>
      cases hl : s.lookup id with
      | none => simp
      | some v => simp
  · rw [← lookup_eq_none_iff]
    unfold UserService.Delete
    cases hl : s.lookup id with
    | none => simp
    | some v => simp

/-- C10 on the empty store: updating the missing user 7 returns `ErrNotFound` and changes
nothing. -/
theorem C10_failed_operations_leave_store_unchanged_witness :
    (NewUserService.Update exampleLib 7 ⟨0, lit "Ann", lit "ann@example.org"⟩).2
        = .error ErrNotFound
    ∧ (NewUserService.Update exampleLib 7 ⟨0, lit "Ann", lit "ann@example.org"⟩).1
        = NewUserService := by
  have h := C10_failed_operations_leave_store_unchanged exampleLib NewUserService 7
    ⟨0, lit "Ann", lit "ann@example.org"⟩
  have h1 : (NewUserService.Update exampleLib 7 ⟨0, lit "Ann", lit "ann@example.org"⟩).2
      = .error ErrNotFound := h.2.2.2.2.1.mpr ⟨by decide, by decide⟩
  exact ⟨h1, h.2.1 _ h1⟩

theorem wrapInt_of_small (x : Int) (h0 : -(2 ^ 63 : Int) ≤ x) (h1 : x < 2 ^ 63) :
    wrapInt x = x := by
  unfold wrapInt
  omega

theorem mem_mapSet {m : List (Int × User)} {id : Int} {u : User} {p : Int × User}
    (h : p ∈ mapSet m id u) : p = (id, u) ∨ p ∈ m := by
  unfold mapSet at h
  rcases List.mem_cons.mp h with h | h
  · exact Or.inl h
  · exact Or.inr (List.mem_filter.mp h).1

theorem mem_mapDelete {m : List (Int × User)} {id : Int} {p : Int × User}
    (h : p ∈ mapDelete m id) : p ∈ m := by
  unfold mapDelete at h
  exact (List.mem_filter.mp h).1

theorem lookup_some_mem {s : UserService} {id : Int} {v : User} (h : s.lookup id = some v) :
    (id, v) ∈ s.users := by
  unfold UserService.lookup at h
  cases hf : s.users.find? (fun p => p.1 == id) with
  | none => simp [hf] at h
  | some p =>
    simp only [hf, Option.some.injEq] at h
    have hp := List.mem_of_find?_eq_some hf
    have hid := List.find?_some hf
    simp only [beq_iff_eq] at hid
    rw [← h, ← hid]
    exact hp

/-- One call keeps the invariant, as long as `nextID` stays below the largest `int`. -/
theorem apply_inv (lib : Lib) (s : UserService) (op : UserOp) (h : UserInv s)
    (hb : s.nextID + 1 < 2 ^ 63) :
    UserInv (s.apply lib op)
    ∧ (s.apply lib op).nextID
        = s.nextID + (UserService.createdIDs lib s [op]).length
    ∧ UserService.createdIDs lib s [op]
        = (List.range (UserService.createdIDs lib s [op]).length).map
            (fun i : Nat => s.nextID + (i : Int))
    ∧ (UserService.createdIDs lib s [op]).length ≤ countCreates [op] := by
  obtain ⟨h1, h2⟩ := h
  cases op with
  | create u =>
    cases hv : u.Validate lib with
    | some e =>
      have hid : UserService.createdIDs lib s [UserOp.create u] = [] := by
        simp [UserService.createdIDs, UserService.Create, hv]
      have hap : s.apply lib (UserOp.create u) = s := by
        simp [UserService.apply, UserService.Create, hv]
      rw [hid, hap]
      exact ⟨⟨h1, h2⟩, by simp, rfl, by simp⟩
    | none =>
      have hid : UserService.createdIDs lib s [UserOp.create u] = [s.nextID] := by
        simp [UserService.createdIDs, UserService.Create, hv]
      have hap : s.apply lib (UserOp.create u)
          = { users := mapSet s.users s.nextID { u with ID := s.nextID },
              nextID := s.nextID + 1 } := by
        simp only [UserService.apply, UserService.Create, hv]
        rw [wrapInt_of_small _ (by omega) hb]
      rw [hid, hap]
      refine ⟨⟨show (1 : Int) ≤ s.nextID + 1 by omega, ?_⟩, by simp,
        by simp [List.range_succ], by simp [countCreates]⟩
      intro p hp
      rcases mem_mapSet hp with rfl | hp
      · exact ⟨rfl, h1, show s.nextID < s.nextID + 1 by omega⟩
      · obtain ⟨a, b, c⟩ := h2 p hp
        exact ⟨a, b, show p.1 < s.nextID + 1 by omega⟩
  | update id u =>
    have hid : UserService.createdIDs lib s [UserOp.update id u] = [] := rfl
    rw [hid]
    refine ⟨?_, ?_, rfl, by simp⟩
    · simp only [UserService.apply, UserService.Update]
      cases hv : u.Validate lib with
      | some e => exact ⟨h1, h2⟩
      | none =>
        cases hl : s.lookup id with
        | none => exact ⟨h1, h2⟩
        | some v =>
          refine ⟨h1, ?_⟩
          intro p hp
          rcases mem_mapSet hp with rfl | hp
          · obtain ⟨_, b, c⟩ := h2 _ (lookup_some_mem hl)
            exact ⟨rfl, b, c⟩
          · exact h2 p hp
    · simp only [UserService.apply, UserService.Update]
      cases hv : u.Validate lib with
      | some e => simp
      | none =>
        cases hl : s.lookup id with
        | none => simp
        | some v => simp
  | delete id =>
    have hid : UserService.createdIDs lib s [UserOp.delete id] = [] := rfl
    rw [hid]
    refine ⟨?_, ?_, rfl, by simp⟩
    · simp only [UserService.apply, UserService.Delete]
      cases hl : s.lookup id with
      | none => exact ⟨h1, h2⟩
      | some v => exact ⟨h1, fun p hp => h2 p (mem_mapDelete hp)⟩
    · simp only [UserService.apply, UserService.Delete]
      cases hl : s.lookup id with
      | none => simp
      | some v => simp
  | get id =>
    have hid : UserService.createdIDs lib s [UserOp.get id] = [] := rfl
    rw [hid]
    exact ⟨⟨h1, h2⟩, by simp [UserService.apply], rfl, by simp⟩
  | list =>
    have hid : UserService.createdIDs lib s [UserOp.list] = [] := rfl
    rw [hid]
    exact ⟨⟨h1, h2⟩, by simp [UserService.apply], rfl, by simp⟩

theorem createdIDs_cons (lib : Lib) (s : UserService) (op : UserOp) (ops : List UserOp) :
    UserService.createdIDs lib s (op :: ops)
      = UserService.createdIDs lib s [op] ++ UserService.createdIDs lib (s.apply lib op) ops := by
  cases op with
  | create u =>
    simp only [UserService.createdIDs]
    cases (s.Create lib u).2 <;> simp
  | _ => simp [UserService.createdIDs]

theorem countCreates_cons (op : UserOp) (ops : List UserOp) :
    countCreates (op :: ops) = countCreates [op] + countCreates ops := by
  cases op <;> simp [countCreates]
  omega

/-- A sequence of calls keeps the invariant and hands out consecutive identifiers, as long
as `nextID` stays below the largest `int`. -/
theorem runOps_inv (lib : Lib) (ops : List UserOp) : ∀ (s : UserService), UserInv s →
    s.nextID + countCreates ops < 2 ^ 63 →
    UserInv (s.runOps lib ops)
    ∧ (s.runOps lib ops).nextID = s.nextID + (UserService.createdIDs lib s ops).length
    ∧ UserService.createdIDs lib s ops
        = (List.range (UserService.createdIDs lib s ops).length).map
            (fun i : Nat => s.nextID + (i : Int))
    ∧ (UserService.createdIDs lib s ops).length ≤ countCreates ops := by
  induction ops with
  | nil =>
    intro s h _
    exact ⟨h, by simp [UserService.runOps, UserService.createdIDs], by
      simp [UserService.createdIDs], by simp [UserService.createdIDs]⟩
  | cons op ops ih =>
    intro s h hb
    rw [countCreates_cons] at hb
    have hc1 : countCreates [op] ≤ 1 := by
      cases op <;> simp [countCreates]
    by_cases hz : countCreates [op] = 0
    · -- not a `Create`: the state may change but `nextID` does not
      have hnot : UserService.createdIDs lib s [op] = [] ∧ (s.apply lib op).nextID = s.nextID
          ∧ UserInv (s.apply lib op) := by
        cases op with
        | create u => simp [countCreates] at hz
        | update id u =>
          refine ⟨rfl, ?_, ?_⟩
          · simp only [UserService.apply, UserService.Update]
            cases hv : u.Validate lib with
            | some e => rfl
            | none => cases hl : s.lookup id <;> rfl
          · simp only [UserService.apply, UserService.Update]
            cases hv : u.Validate lib with
            | some e => exact h
            | none =>
              cases hl : s.lookup id with
              | none => exact h
              | some v =>
                refine ⟨h.1, ?_⟩
                intro p hp
                rcases mem_mapSet hp with rfl | hp
                · obtain ⟨_, b, c⟩ := h.2 _ (lookup_some_mem hl)
                  exact ⟨rfl, b, c⟩
                · exact h.2 p hp
        | delete id =>
          refine ⟨rfl, ?_, ?_⟩
          · simp only [UserService.apply, UserService.Delete]
            cases hl : s.lookup id <;> rfl
          · simp only [UserService.apply, UserService.Delete]
            cases hl : s.lookup id with
            | none => exact h
            | some v => exact ⟨h.1, fun p hp => h.2 p (mem_mapDelete hp)⟩
        | get id => exact ⟨rfl, rfl, h⟩
        | list => exact ⟨rfl, rfl, h⟩
      obtain ⟨n1, n2, n3⟩ := hnot
      obtain ⟨k1, k2, k3, k4⟩ := ih (s.apply lib op) n3 (by rw [n2]; omega)
      rw [createdIDs_cons, n1, List.nil_append, countCreates_cons]
      refine ⟨k1, ?_, ?_, by omega⟩
      · have : s.runOps lib (op :: ops) = (s.apply lib op).runOps lib ops := rfl
        rw [this, k2, n2]
      · rw [n2] at k3; exact k3
    · obtain ⟨g1, g2, g3, g4⟩ := apply_inv lib s op h (by omega)
      obtain ⟨k1, k2, k3, k4⟩ := ih (s.apply lib op) g1 (by rw [g2]; omega)
      rw [createdIDs_cons, countCreates_cons]
      refine ⟨k1, ?_, ?_, by simp only [List.length_append]; omega⟩
      · have : s.runOps lib (op :: ops) = (s.apply lib op).runOps lib ops := rfl
        rw [this, k2, g2, List.length_append]
        push_cast
        ring
      · rw [List.length_append, List.range_add, List.map_append, ← g3]
        congr 1
        rw [k3, g2, List.map_map]
        simp only [List.length_map, List.length_range]
        apply List.map_congr_left
        intro i _
        simp only [Function.comp]
        push_cast
        ring

theorem userInv_new : UserInv NewUserService := by
  refine ⟨by decide, ?_⟩
  intro p hp
  simp [NewUserService] at hp

/-- C9, amended: in every state reached from `NewUserService` by a sequence of calls with
fewer than `2^63 - 1` calls to `Create`, `nextID` is at least 1 and every stored pair has
the user's `ID` as its key, with `1 ≤ ID < nextID`; the `k`-th successful `Create` returns
the identifier `k`, so the identifiers returned are positive and strictly increasing (none
is returned twice, whatever was deleted in between), and `nextID` is one more than their
number. -/
theorem C9_sequential_ids_below_overflow (lib : Lib) (ops : List UserOp)
    (h : countCreates ops < 2 ^ 63 - 1) :
    1 ≤ (NewUserService.runOps lib ops).nextID
    ∧ (∀ p ∈ (NewUserService.runOps lib ops).users,
        p.2.ID = p.1 ∧ 1 ≤ p.1 ∧ p.1 < (NewUserService.runOps lib ops).nextID)
    ∧ UserService.createdIDs lib NewUserService ops
        = (List.range (UserService.createdIDs lib NewUserService ops).length).map
            (fun k : Nat => (k : Int) + 1)
    ∧ (NewUserService.runOps lib ops).nextID
        = (UserService.createdIDs lib NewUserService ops).length + 1
    ∧ (∀ id ∈ UserService.createdIDs lib NewUserService ops, 1 ≤ id)
    ∧ (UserService.createdIDs lib NewUserService ops).Pairwise (fun a b => a < b) := by
  have hb : NewUserService.nextID + (countCreates ops : Int) < 2 ^ 63 := by
    have : NewUserService.nextID = 1 := rfl
    rw [this]
    omega
  obtain ⟨⟨k0, k1⟩, k2, k3, _⟩ := runOps_inv lib ops NewUserService userInv_new hb
  have hn : NewUserService.nextID = 1 := rfl
  rw [hn] at k2 k3
  have k3' : UserService.createdIDs lib NewUserService ops
        = (List.range (UserService.createdIDs lib NewUserService ops).length).map
            (fun k : Nat => (k : Int) + 1) := by
    rw [k3]
    simp only [List.length_map, List.length_range]
    apply List.map_congr_left
    intro i _
    ring
  refine ⟨k0, k1, k3', by rw [k2]; ring, ?_, ?_⟩
  · intro id hid
    rw [k3'] at hid
    obtain ⟨i, _, rfl⟩ := List.mem_map.mp hid
    omega
  · rw [k3']
    apply List.Pairwise.map (R := fun a b : Nat => a < b)
    · intro a b hab
      omega
    · exact List.pairwise_lt_range _

/-- C9 on the calls create, create, delete 1, create: the identifiers are 1, 2, 3. -/
theorem C9_sequential_ids_below_overflow_witness :
    UserService.createdIDs exampleLib NewUserService
        [.create ⟨0, lit "Ann", lit "ann@example.org"⟩,
         .create ⟨0, lit "Bob", lit "bob@example.org"⟩, .delete 1,
         .create ⟨0, lit "Cid", lit "cid@example.org"⟩]
      = [1, 2, 3] := by
  have h := (C9_sequential_ids_below_overflow exampleLib
        [.create ⟨0, lit "Ann", lit "ann@example.org"⟩,
         .create ⟨0, lit "Bob", lit "bob@example.org"⟩, .delete 1,
         .create ⟨0, lit "Cid", lit "cid@example.org"⟩] (by decide)).2.2.1
  rw [h]
  decide

theorem runOps_append (lib : Lib) (s : UserService) (a b : List UserOp) :
    s.runOps lib (a ++ b) = (s.runOps lib a).runOps lib b := by
  simp [UserService.runOps, List.foldl_append]

/-- Valid `Create` calls in a row advance `nextID` by one each, below the largest `int`. -/
theorem nextID_replicate_create (lib : Lib) (u : User) (hu : u.Validate lib = none)
    (n : Nat) : ∀ (s : UserService), 0 ≤ s.nextID → s.nextID + n < 2 ^ 63 →
    (s.runOps lib (List.replicate n (UserOp.create u))).nextID = s.nextID + n := by
  induction n with
  | zero => intro s _ _; simp [UserService.runOps]
  | succ n ih =>
    intro s h0 hb
    have happ : (s.apply lib (UserOp.create u)).nextID = s.nextID + 1 := by
      simp only [UserService.apply, UserService.Create, hu]
      exact wrapInt_of_small _ (by omega) (by push_cast at hb; omega)
    have hrun : s.runOps lib (List.replicate (n + 1) (UserOp.create u))
        = (s.apply lib (UserOp.create u)).runOps lib (List.replicate n (UserOp.create u)) := rfl
    rw [hrun, ih _ (by rw [happ]; omega) (by rw [happ]; push_cast at hb; omega), happ]
    push_cast
    ring

/-- C9 as stated fails at the end of the range of `int`: after `2^63 - 1` valid calls to
`Create` on a new store, `nextID` has wrapped around to `-2^63`, which is not at least 1,
and the user stored last has an `ID` that is not below `nextID`. -/
theorem C9_counterexample :
    (NewUserService.runOps exampleLib
        (List.replicate 9223372036854775807
          (UserOp.create ⟨0, lit "Ann", lit "ann@example.org"⟩))).nextID
      = -9223372036854775808
    ∧ ¬ (1 ≤ (NewUserService.runOps exampleLib
        (List.replicate 9223372036854775807
          (UserOp.create ⟨0, lit "Ann", lit "ann@example.org"⟩))).nextID) := by
  have hu : (⟨0, lit "Ann", lit "ann@example.org"⟩ : User).Validate exampleLib = none := by
    decide
  have hsplit : List.replicate 9223372036854775807
        (UserOp.create ⟨0, lit "Ann", lit "ann@example.org"⟩)
      = List.replicate 9223372036854775806
          (UserOp.create ⟨0, lit "Ann", lit "ann@example.org"⟩)
        ++ [UserOp.create ⟨0, lit "Ann", lit "ann@example.org"⟩] :=
    List.replicate_succ' 9223372036854775806 _
  have hprev := nextID_replicate_create exampleLib _ hu 9223372036854775806 NewUserService
    (by decide) (by decide)
  have hlast : (NewUserService.runOps exampleLib
        (List.replicate 9223372036854775807
          (UserOp.create ⟨0, lit "Ann", lit "ann@example.org"⟩))).nextID
      = -9223372036854775808 := by
    rw [hsplit, runOps_append]
    have hone : ∀ t : UserService, (t.runOps exampleLib
        [UserOp.create ⟨0, lit "Ann", lit "ann@example.org"⟩]).nextID
          = wrapInt (t.nextID + 1) := by
      intro t
      simp only [UserService.runOps, List.foldl_cons, List.foldl_nil, UserService.apply,
        UserService.Create, hu]
    rw [hone, hprev]
    decide
  refine ⟨hlast, ?_⟩
  rw [hlast]
  decide

/-! ## Decimal text -/

theorem digitsLoop_spec (n : Nat) : ∀ (fuel : Nat) (acc : List Nat), n < fuel →
    digitsLoop fuel n acc
      = (if n < 10 then [digitChar n] else formatNat (n / 10) ++ [digitChar (n % 10)]) ++ acc := by
  induction n using Nat.strong_induction_on with
  | _ n ih =>
    intro fuel acc hf
    cases fuel with
    | zero => omega
    | succ f =>
      by_cases h10 : n < 10
      · simp [digitsLoop, h10]
      · have hd : n / 10 < n := by omega
        have h1 := ih (n / 10) hd f (digitChar (n % 10) :: acc) (by omega)
        have h2 := ih (n / 10) hd (n / 10 + 1) [] (by omega)
        have h3 : formatNat (n / 10) = _ := h2.trans (List.append_nil _)
        simp only [digitsLoop, h10, if_false]
        rw [h1, h3]
        simp

/-- The decimal text of a number: its last digit after the text of the rest. -/
theorem formatNat_rec (n : Nat) :
    formatNat n = if n < 10 then [digitChar n] else formatNat (n / 10) ++ [digitChar (n % 10)] := by
  have := digitsLoop_spec n (n + 1) [] (by omega)
  simpa [formatNat] using this

theorem formatNat_digits (n : Nat) : ∀ c ∈ formatNat n, isDigit c = true := by
  induction n using Nat.strong_induction_on with
  | _ n ih =>
    intro c hc
    rw [formatNat_rec] at hc
    by_cases h10 : n < 10
    · simp only [h10, if_true, List.mem_singleton] at hc
      subst hc
      simp only [isDigit, digitChar, decide_eq_true_eq]
      omega
    · simp only [h10, if_false, List.mem_append, List.mem_singleton] at hc
      rcases hc with hc | hc
      · exact ih (n / 10) (by omega) c hc
      · subst hc
        simp only [isDigit, digitChar, decide_eq_true_eq]
        omega

theorem formatNat_ne_nil (n : Nat) : formatNat n ≠ [] := by
  rw [formatNat_rec]
  split <;> simp

theorem parseUint_append (a b : List Nat) :
    parseUint (a ++ b) = parseUint a * 10 ^ b.length + parseUint b := by
  induction b using List.reverseRecOn with
  | nil => simp [parseUint]
  | append_singleton b c ih =>
    rw [← List.append_assoc]
    have hs : ∀ l : List Nat, parseUint (l ++ [c]) = parseUint l * 10 + (c - 48) := by
      intro l
      simp [parseUint, List.foldl_append]
    rw [hs, hs, ih]
    simp only [List.length_append, List.length_singleton, pow_succ]
    ring

theorem parseUint_formatNat (n : Nat) : parseUint (formatNat n) = n := by
  induction n using Nat.strong_induction_on with
  | _ n ih =>
    rw [formatNat_rec]
    by_cases h10 : n < 10
    · simp [h10, parseUint, digitChar]
    · simp only [h10, if_false]
      rw [parseUint_append, ih (n / 10) (by omega)]
      simp only [List.length_singleton, pow_one, parseUint, List.foldl_cons, List.foldl_nil,
        digitChar]
      omega

theorem formatNat_head (n : Nat) (h : 0 < n) : (formatNat n).head? ≠ some 48 := by
  induction n using Nat.strong_induction_on with
  | _ n ih =>
    rw [formatNat_rec]
    by_cases h10 : n < 10
    · simp only [h10, if_true, List.head?_cons, digitChar, ne_eq, Option.some.injEq]
      omega
    · simp only [h10, if_false]
      have hne := formatNat_ne_nil (n / 10)
      cases hf : formatNat (n / 10) with
      | nil => exact absurd hf hne
      | cons x xs =>
        have := ih (n / 10) (by omega) (by omega)
        rw [hf] at this
        simpa using this

theorem formatNat_length_one (n : Nat) (h : n < 10) : formatNat n = [digitChar n] := by
  rw [formatNat_rec]; simp [h]

/-- Reading back the decimal text of a Go `int` that is followed by a byte that is not a
digit. -/
theorem parseInt_formatInt (x : Int) (c : Nat) (rest : List Nat) (hc : isDigit c = false)
    (hlo : -(2 ^ 63) ≤ x) (hhi : x < 2 ^ 63) :
    parseInt (formatInt x ++ c :: rest) = some (x, c :: rest) := by
  have hdig := formatNat_digits x.natAbs
  have hne := formatNat_ne_nil x.natAbs
  have htw : (formatNat x.natAbs ++ c :: rest).takeWhile isDigit = formatNat x.natAbs := by
    rw [List.takeWhile_append_of_pos hdig, List.takeWhile_cons_of_neg (by simp [hc])]
    simp
  have hdw : (formatNat x.natAbs ++ c :: rest).dropWhile isDigit = c :: rest := by
    rw [List.dropWhile_append_of_pos hdig, List.dropWhile_cons_of_neg (by simp [hc])]
  have hlead : ¬ (1 < (formatNat x.natAbs).length ∧ (formatNat x.natAbs).head? = some 48) := by
    rintro ⟨h1, h2⟩
    by_cases hz : x.natAbs = 0
    · rw [hz, formatNat_length_one 0 (by omega)] at h1
      simp at h1
    · exact formatNat_head _ (by omega) h2
  have hhead : (formatNat x.natAbs ++ c :: rest).head? ≠ some 45 := by
    cases hf : formatNat x.natAbs with
    | nil => exact absurd hf hne
    | cons d ds =>
      have := hdig d (by rw [hf]; exact List.mem_cons_self _ _)
      simp only [isDigit, decide_eq_true_eq] at this
      simp only [List.cons_append, List.head?_cons, ne_eq, Option.some.injEq]
      omega
  by_cases hneg : x < 0
  · have hf : formatInt x = 45 :: formatNat x.natAbs := by simp [formatInt, hneg]
    have hx : -((x.natAbs : Nat) : Int) = x := by omega
    rw [hf]
    unfold parseInt
    simp only [List.cons_append, List.head?_cons, List.drop_succ_cons, List.drop_zero,
      if_true, htw, hdw]
    rw [if_neg hne, if_neg hlead, parseUint_formatNat, hx, if_neg (by omega)]
  · have hf : formatInt x = formatNat x.natAbs := by simp [formatInt, hneg]
    have hx : ((x.natAbs : Nat) : Int) = x := by omega
    rw [hf]
    unfold parseInt
    simp only [hhead, if_false, htw, hdw]
    rw [if_neg hne, if_neg hlead, parseUint_formatNat, hx, if_neg (by omega)]

/-! ## UTF-8 -/

theorem encodeRune_ascii (r : Nat) (h : r < 0x80) : encodeRune r = [r] := by
  simp [encodeRune, h]

/-- Decoding the encoding of a scalar value gives it back, with its width. -/
theorem decodeRune_encodeRune (r : Nat) (h : isScalar r) (tail : List Nat) :
    decodeRune (encodeRune r ++ tail) = (r, (encodeRune r).length) := by
  unfold isScalar at h
  unfold encodeRune
  by_cases h1 : r < 0x80
  · simp [h1, decodeRune]
  · by_cases h2 : r < 0x800
    · simp only [h1, h2, if_true, if_false, List.cons_append, List.nil_append, decodeRune,
        isCont, List.length_cons, List.length_nil]
      rw [if_neg (by omega), if_pos (by omega)]
      simp only [decide_eq_true_eq]
      rw [if_pos (by omega)]
      simp only [Prod.mk.injEq, and_true]
      omega
    · have h3 : ¬ ((0xD800 ≤ r ∧ r ≤ 0xDFFF) ∨ 0x10FFFF < r) := by omega
      by_cases h4 : r < 0x10000
      · simp only [h1, h2, h3, h4, if_true, if_false, List.cons_append, List.nil_append,
          decodeRune, isCont, List.length_cons, List.length_nil]
        rw [if_neg (by omega), if_neg (by omega), if_pos (by omega)]
        simp only [decide_eq_true_eq]
        rw [if_pos (by
          refine ⟨?_, ?_, ?_⟩
          · split <;> omega
          · split <;> omega
          · omega)]
        simp only [Prod.mk.injEq, and_true]
        omega
      · simp only [h1, h2, h3, h4, if_true, if_false, List.cons_append, List.nil_append,
          decodeRune, isCont, List.length_cons, List.length_nil]
        rw [if_neg (by omega), if_neg (by omega), if_neg (by omega), if_pos (by omega)]
        simp only [decide_eq_true_eq]
        rw [if_pos (by
          refine ⟨?_, ?_, ?_, ?_⟩
          · split <;> omega
          · split <;> omega
          · omega
          · omega)]
        simp only [Prod.mk.injEq, and_true]
        omega

theorem encodeRune_length_pos (r : Nat) : 1 ≤ (encodeRune r).length := by
  unfold encodeRune
  split_ifs <;> simp

theorem encodeRune_length_le (r : Nat) : (encodeRune r).length ≤ 4 := by
  unfold encodeRune
  split_ifs <;> simp

/-- The first byte of the encoding of a rune above the ASCII range is not ASCII. -/
theorem encodeRune_head (r : Nat) (h : ¬ r < 0x80) :
    ∃ b bs, encodeRune r = b :: bs ∧ ¬ b < 0x80 := by
  unfold encodeRune
  split_ifs
  · exact ⟨_, _, rfl, by omega⟩
  · exact ⟨_, _, rfl, by omega⟩
  · exact ⟨_, _, rfl, by omega⟩
  · exact ⟨_, _, rfl, by omega⟩

theorem utf8_cons (r : Nat) (rs : List Nat) : utf8 (r :: rs) = encodeRune r ++ utf8 rs := by
  simp [utf8]

theorem utf8_length (rs : List Nat) : rs.length ≤ (utf8 rs).length := by
  induction rs with
  | nil => simp [utf8]
  | cons r rs ih =>
    rw [utf8_cons, List.length_append, List.length_cons]
    have := encodeRune_length_pos r
    omega

/-! ## JSON strings: what `appendString` writes, `unquote` reads back -/

theorem encodeRune_length_two (r : Nat) (h : ¬ r < 0x80) : 2 ≤ (encodeRune r).length := by
  unfold encodeRune
  split_ifs <;> simp

theorem lit_u202 : lit "\\u202" = [0x5C, 117, 50, 48, 50] := by decide

theorem lit_ufffd : lit "\\ufffd" = [0x5C, 117, 102, 102, 102, 100] := by decide

/-- One iteration of the loop of `appendString` on the encoding of a scalar value. -/
theorem appendStringLoop_rune (r : Nat) (h : isScalar r) (fuel : Nat) (tail : List Nat) :
    appendStringLoop (fuel + 1) (encodeRune r ++ tail)
      = quoteRune r ++ appendStringLoop fuel tail := by
  by_cases h1 : r < 0x80
  · rw [encodeRune_ascii r h1]
    simp [appendStringLoop, h1, quoteRune]
  · obtain ⟨b, bs, hb, hb80⟩ := encodeRune_head r h1
    have hlen2 := encodeRune_length_two r h1
    have hlen4 := encodeRune_length_le r
    have hdec : decodeRune ((encodeRune r ++ tail).take 4) = (r, (encodeRune r).length) := by
      rw [List.take_append_eq_append_take, List.take_of_length_le hlen4]
      exact decodeRune_encodeRune r h _
    have hstep : appendStringLoop (fuel + 1) (encodeRune r ++ tail)
        = (let cs := decodeRune ((encodeRune r ++ tail).take 4)
           if cs.1 = RuneError ∧ cs.2 = 1 then
             lit "\\ufffd" ++ appendStringLoop fuel (bs ++ tail)
           else if cs.1 = 0x2028 ∨ cs.1 = 0x2029 then
             lit "\\u202" ++ [hexDigit (cs.1 % 16)]
               ++ appendStringLoop fuel ((encodeRune r ++ tail).drop cs.2)
           else
             (encodeRune r ++ tail).take cs.2
               ++ appendStringLoop fuel ((encodeRune r ++ tail).drop cs.2)) := by
      rw [hb]
      simp only [List.cons_append, appendStringLoop, hb80, if_false]
      rfl
    rw [hstep, hdec]
    simp only
    rw [if_neg (by omega)]
    have hdrop : (encodeRune r ++ tail).drop (encodeRune r).length = tail := by simp
    have htake : (encodeRune r ++ tail).take (encodeRune r).length = encodeRune r := by simp
    rw [hdrop, htake]
    simp only [quoteRune, h1, if_false]
    by_cases h2 : r = 0x2028 ∨ r = 0x2029
    · simp [h2]
    · simp [h2]

theorem appendStringLoop_nil (fuel : Nat) : appendStringLoop fuel [] = [] := by
  cases fuel <;> rfl

/-- The loop of `appendString` on a valid string writes its runes one after the other. -/
theorem appendStringLoop_utf8 (rs : List Nat) (hrs : ∀ r ∈ rs, isScalar r) (k : Nat) :
    appendStringLoop (rs.length + k) (utf8 rs) = (rs.map quoteRune).flatten := by
  induction rs with
  | nil => simp [utf8, appendStringLoop_nil]
  | cons r rs ih =>
    have hr := hrs r (List.mem_cons_self _ _)
    have hrs2 : ∀ x ∈ rs, isScalar x := fun x hx => hrs x (List.mem_cons_of_mem _ hx)
    rw [utf8_cons]
    have hf : (r :: rs).length + k = (rs.length + k) + 1 := by
      simp only [List.length_cons]; omega
    rw [hf, appendStringLoop_rune r hr, ih hrs2]
    simp

/-- The JSON text of a valid string: its runes between quotes. -/
theorem appendString_utf8 (rs : List Nat) (hrs : ∀ r ∈ rs, isScalar r) :
    appendString (utf8 rs) = [0x22] ++ (rs.map quoteRune).flatten ++ [0x22] := by
  unfold appendString
  have hl := utf8_length rs
  have : (utf8 rs).length = rs.length + ((utf8 rs).length - rs.length) := by omega
  rw [this, appendStringLoop_utf8 rs hrs]

theorem hexVal_hexDigit (d : Nat) (h : d < 16) : hexVal (hexDigit d) = some d := by
  interval_cases d <;> decide

theorem prepend_some (bs d rest : List Nat) :
    prepend bs (some (d, rest)) = some (bs ++ d, rest) := rfl

theorem unquoteLoop_plain (c : Nat) (fuel : Nat) (t : List Nat) (h1 : c ≠ 0x22)
    (h2 : c ≠ 0x5C) (h3 : 0x20 ≤ c) (h4 : c < 0x80) :
    unquoteLoop (fuel + 1) (c :: t) = prepend [c] (unquoteLoop fuel t) := by
  simp only [unquoteLoop]
  rw [if_neg h1, if_neg h2, if_neg (by omega), if_pos h4]

theorem unquoteLoop_simple_escape (e v : Nat) (fuel : Nat) (t : List Nat)
    (h : (e = 0x22 ∧ v = 0x22) ∨ (e = 0x5C ∧ v = 0x5C) ∨ (e = 98 ∧ v = 8) ∨ (e = 102 ∧ v = 12)
      ∨ (e = 110 ∧ v = 10) ∨ (e = 114 ∧ v = 13) ∨ (e = 116 ∧ v = 9)) :
    unquoteLoop (fuel + 1) (0x5C :: e :: t) = prepend [v] (unquoteLoop fuel t) := by
  simp only [unquoteLoop]
  rcases h with ⟨rfl, rfl⟩ | ⟨rfl, rfl⟩ | ⟨rfl, rfl⟩ | ⟨rfl, rfl⟩ | ⟨rfl, rfl⟩ | ⟨rfl, rfl⟩
    | ⟨rfl, rfl⟩ <;> simp

theorem unquoteLoop_u4 (a b c d rr : Nat) (fuel : Nat) (t : List Nat)
    (hg : getu4 (a :: b :: c :: d :: t) = some rr) (hs : ¬ (0xD800 ≤ rr ∧ rr < 0xE000)) :
    unquoteLoop (fuel + 1) (0x5C :: 117 :: a :: b :: c :: d :: t)
      = prepend (encodeRune rr) (unquoteLoop fuel t) := by
  simp only [unquoteLoop]
  simp only [show ¬ (0x5C : Nat) = 0x22 by decide, if_true, if_false,
    show ¬ ((117 : Nat) = 0x22 ∨ (117 : Nat) = 0x5C ∨ (117 : Nat) = 0x2F) by decide,
    show ¬ (117 : Nat) = 98 by decide, show ¬ (117 : Nat) = 102 by decide,
    show ¬ (117 : Nat) = 110 by decide, show ¬ (117 : Nat) = 114 by decide,
    show ¬ (117 : Nat) = 116 by decide, hg, hs, List.drop_succ_cons, List.drop_zero]

/-- One iteration of the loop of `unquote` on what `appendString` wrote for a scalar
value. -/
theorem unquoteLoop_rune (r : Nat) (h : isScalar r) (fuel : Nat) (tail : List Nat) :
    unquoteLoop (fuel + 1) (quoteRune r ++ tail)
      = prepend (encodeRune r) (unquoteLoop fuel tail) := by
  by_cases h1 : r < 0x80
  · rw [encodeRune_ascii r h1]
    by_cases hs : htmlSafe r = true
    · have hs' := hs
      simp only [htmlSafe, decide_eq_true_eq] at hs'
      have hq : quoteRune r = [r] := by simp [quoteRune, h1, hs]
      rw [hq]
      exact unquoteLoop_plain r fuel tail (by omega) (by omega) (by omega) h1
    · have hq : quoteRune r = escapeASCII r := by simp [quoteRune, h1, hs]
      rw [hq]
      unfold escapeASCII
      by_cases c1 : r = 0x5C ∨ r = 0x22
      · rw [if_pos c1]
        rcases c1 with c1 | c1
        · exact unquoteLoop_simple_escape r r fuel tail (Or.inr (Or.inl ⟨c1, c1⟩))
        · exact unquoteLoop_simple_escape r r fuel tail (Or.inl ⟨c1, c1⟩)
      · rw [if_neg c1]
        by_cases c2 : r = 8
        · rw [if_pos c2]
          exact unquoteLoop_simple_escape 98 r fuel tail (Or.inr (Or.inr (Or.inl ⟨rfl, c2⟩)))
        · rw [if_neg c2]
          by_cases c3 : r = 12
          · rw [if_pos c3]
            exact unquoteLoop_simple_escape 102 r fuel tail
              (Or.inr (Or.inr (Or.inr (Or.inl ⟨rfl, c3⟩))))
          · rw [if_neg c3]
            by_cases c4 : r = 10
            · rw [if_pos c4]
              exact unquoteLoop_simple_escape 110 r fuel tail
                (Or.inr (Or.inr (Or.inr (Or.inr (Or.inl ⟨rfl, c4⟩)))))
            · rw [if_neg c4]
              by_cases c5 : r = 13
              · rw [if_pos c5]
                exact unquoteLoop_simple_escape 114 r fuel tail
                  (Or.inr (Or.inr (Or.inr (Or.inr (Or.inr (Or.inl ⟨rfl, c5⟩))))))
              · rw [if_neg c5]
                by_cases c6 : r = 9
                · rw [if_pos c6]
                  exact unquoteLoop_simple_escape 116 r fuel tail
                    (Or.inr (Or.inr (Or.inr (Or.inr (Or.inr (Or.inr ⟨rfl, c6⟩))))))
                · rw [if_neg c6]
                  have hv1 := hexVal_hexDigit (r / 16) (by omega)
                  have hv2 := hexVal_hexDigit (r % 16) (by omega)
                  have h0 : hexVal 48 = some 0 := by decide
                  have hg : getu4 (48 :: 48 :: hexDigit (r / 16) :: hexDigit (r % 16) :: tail)
                      = some r := by
                    simp only [getu4, h0, hv1, hv2, Option.some.injEq]
                    omega
                  have := unquoteLoop_u4 48 48 (hexDigit (r / 16)) (hexDigit (r % 16)) r fuel
                    tail hg (by omega)
                  rw [encodeRune_ascii r h1] at this
                  exact this
  · by_cases h2 : r = 0x2028 ∨ r = 0x2029
    · rcases h2 with rfl | rfl
      · rw [show quoteRune 0x2028 = [0x5C, 117, 50, 48, 50, 56] by decide]
        exact unquoteLoop_u4 50 48 50 56 0x2028 fuel tail rfl (by decide)
      · rw [show quoteRune 0x2029 = [0x5C, 117, 50, 48, 50, 57] by decide]
        exact unquoteLoop_u4 50 48 50 57 0x2029 fuel tail rfl (by decide)
    · obtain ⟨b, bs, hb, hb80⟩ := encodeRune_head r h1
      have hdec := decodeRune_encodeRune r h tail
      have hq : quoteRune r = encodeRune r := by simp [quoteRune, h1, h2]
      have hstep : unquoteLoop (fuel + 1) (b :: (bs ++ tail))
          = prepend (encodeRune (decodeRune (b :: (bs ++ tail))).1)
              (unquoteLoop fuel ((b :: (bs ++ tail)).drop
                (decodeRune (b :: (bs ++ tail))).2)) := by
        simp only [unquoteLoop]
        rw [if_neg (by omega), if_neg (by omega), if_neg (by omega), if_neg hb80]
      have hcons : encodeRune r ++ tail = b :: (bs ++ tail) := by rw [hb]; rfl
      rw [hq, hcons, hstep, ← hcons, hdec]
      simp

/-- The loop of `unquote` reads back a valid string from what `appendString` wrote for it,
up to the closing quote. -/
theorem unquoteLoop_utf8 (rs : List Nat) (hrs : ∀ r ∈ rs, isScalar r) (k : Nat)
    (rest : List Nat) :
    unquoteLoop (rs.length + 1 + k) ((rs.map quoteRune).flatten ++ 0x22 :: rest)
      = some (utf8 rs, rest) := by
  induction rs with
  | nil =>
    simp only [List.map_nil, List.flatten_nil, List.nil_append, List.length_nil, utf8]
    have : 0 + 1 + k = k + 1 := by omega
    rw [this]
    simp [unquoteLoop]
  | cons r rs ih =>
    have hr := hrs r (List.mem_cons_self _ _)
    have hrs2 : ∀ x ∈ rs, isScalar x := fun x hx => hrs x (List.mem_cons_of_mem _ hx)
    have hf : (r :: rs).length + 1 + k = (rs.length + 1 + k) + 1 := by
      simp only [List.length_cons]; omega
    rw [hf, List.map_cons, List.flatten_cons, List.append_assoc, unquoteLoop_rune r hr,
      ih hrs2, utf8_cons]
    rfl

theorem quoteRune_length_pos (r : Nat) : 1 ≤ (quoteRune r).length := by
  unfold quoteRune escapeASCII
  have := encodeRune_length_pos r
  split_ifs <;> simp
  omega

theorem quoted_length (rs : List Nat) : rs.length ≤ ((rs.map quoteRune).flatten).length := by
  induction rs with
  | nil => simp
  | cons r rs ih =>
    simp only [List.map_cons, List.flatten_cons, List.length_append, List.length_cons]
    have := quoteRune_length_pos r
    omega

/-- Reading back the JSON text of a valid string. -/
theorem parseString_appendString (s : GoString) (hs : ValidUTF8 s) (rest : List Nat) :
    parseString (appendString s ++ rest) = some (s, rest) := by
  obtain ⟨rs, hrs, rfl⟩ := hs
  rw [appendString_utf8 rs hrs]
  have hcons : [0x22] ++ (rs.map quoteRune).flatten ++ [0x22] ++ rest
      = 0x22 :: ((rs.map quoteRune).flatten ++ 0x22 :: rest) := by simp
  rw [hcons]
  simp only [parseString]
  have hl := quoted_length rs
  have hlen : ((rs.map quoteRune).flatten ++ 0x22 :: rest).length
      = rs.length + 1 + (((rs.map quoteRune).flatten).length - rs.length + rest.length) := by
    simp only [List.length_append, List.length_cons]
    omega
  rw [hlen]
  exact unquoteLoop_utf8 rs hrs _ rest

/-! ## RFC 3339 text of a time -/

theorem padded_eq_fixedDigits (w : Nat) : ∀ n : Nat, n < 10 ^ (w + 1) →
    List.replicate (w + 1 - (formatNat n).length) 48 ++ formatNat n = fixedDigits (w + 1) n := by
  induction w with
  | zero =>
    intro n hn
    have h10 : n < 10 := by simpa using hn
    rw [formatNat_length_one n h10]
    simp [fixedDigits, Nat.mod_eq_of_lt h10]
  | succ w ih =>
    intro n hn
    by_cases h10 : n < 10
    · rw [formatNat_length_one n h10]
      have h0 := ih 0 (by positivity)
      rw [formatNat_length_one 0 (by omega)] at h0
      have hz : n / 10 = 0 := by omega
      simp only [List.length_singleton, Nat.add_sub_cancel] at h0 ⊢
      rw [fixedDigits, hz, ← h0, Nat.mod_eq_of_lt h10]
      rw [show w + 1 = w + 1 from rfl, List.replicate_succ']
      simp [digitChar]
    · have hrec : formatNat n = formatNat (n / 10) ++ [digitChar (n % 10)] := by
        rw [formatNat_rec n]; simp [h10]
      have hlt : n / 10 < 10 ^ (w + 1) := by
        rw [pow_succ] at hn
        omega
      rw [hrec, fixedDigits, ← ih (n / 10) hlt]
      simp only [List.length_append, List.length_singleton, List.append_assoc]
      congr 2
      omega

/-- The function `appendInt` on a number that fits the width: exactly `w` digits. -/
theorem appendInt_fixed (w n : Nat) (hw : 1 ≤ w) (hn : n < 10 ^ w) :
    appendInt (n : Int) w = fixedDigits w n := by
  obtain ⟨v, rfl⟩ : ∃ v, w = v + 1 := ⟨w - 1, by omega⟩
  unfold appendInt
  have hneg : ¬ ((n : Int) < 0) := by omega
  simp only [hneg, if_false, Int.natAbs_ofNat]
  exact padded_eq_fixedDigits v n hn

theorem isDigit_digitChar_mod (k : Nat) : isDigit (digitChar (k % 10)) = true := by
  simp only [isDigit, digitChar, decide_eq_true_eq]
  omega

theorem fixedDigits_digits (w : Nat) : ∀ n c, c ∈ fixedDigits w n → isDigit c = true := by
  induction w with
  | zero => intro n c hc; simp [fixedDigits] at hc
  | succ w ih =>
    intro n c hc
    simp only [fixedDigits, List.mem_append, List.mem_singleton] at hc
    rcases hc with hc | hc
    · exact ih _ c hc
    · rw [hc]; exact isDigit_digitChar_mod n

theorem fixedDigits_length (w : Nat) : ∀ n, (fixedDigits w n).length = w := by
  induction w with
  | zero => intro n; rfl
  | succ w ih => intro n; simp [fixedDigits, ih]

theorem parseUint_fixedDigits (w : Nat) : ∀ n, n < 10 ^ w → parseUint (fixedDigits w n) = n := by
  induction w with
  | zero => intro n hn; simp at hn; subst hn; rfl
  | succ w ih =>
    intro n hn
    have hlt : n / 10 < 10 ^ w := by
      rw [pow_succ] at hn
      omega
    rw [fixedDigits, parseUint_append, ih _ hlt]
    simp only [List.length_singleton, pow_one, parseUint, List.foldl_cons, List.foldl_nil,
      digitChar]
    omega

theorem parseUint_replicate_zero (z : Nat) : parseUint (List.replicate z 48) = 0 := by
  induction z with
  | zero => rfl
  | succ z ih =>
    rw [List.replicate_succ', parseUint_append, ih]
    simp [parseUint]

/-- A digit string is what is left after trimming, followed by zeros. -/
theorem trimZeros_spec (ds : List Nat) :
    ds = trimZeros ds ++ List.replicate (ds.length - (trimZeros ds).length) 48 := by
  unfold trimZeros
  have h1 := List.takeWhile_append_dropWhile (fun d => d == 48) ds.reverse
  have h2 : ds = (ds.reverse.dropWhile (fun d => d == 48)).reverse
      ++ (ds.reverse.takeWhile (fun d => d == 48)).reverse := by
    rw [← List.reverse_append, h1, List.reverse_reverse]
  have h3 : ds.reverse.takeWhile (fun d => d == 48)
      = List.replicate (ds.reverse.takeWhile (fun d => d == 48)).length 48 := by
    rw [List.eq_replicate_iff]
    refine ⟨rfl, ?_⟩
    intro b hb
    have := List.mem_takeWhile_imp hb
    simpa using this
  have hlen : ds.length = (ds.reverse.dropWhile (fun d => d == 48)).length
      + (ds.reverse.takeWhile (fun d => d == 48)).length := by
    have := congrArg List.length h1
    simp only [List.length_append, List.length_reverse] at this
    omega
  have h4 : ds.length - ((ds.reverse.dropWhile (fun d => d == 48)).reverse).length
      = (ds.reverse.takeWhile (fun d => d == 48)).length := by
    rw [List.length_reverse]
    omega
  rw [h4]
  conv_lhs => rw [h2, h3, List.reverse_replicate]

theorem trimZeros_subset (ds : List Nat) : ∀ c ∈ trimZeros ds, c ∈ ds := by
  intro c hc
  unfold trimZeros at hc
  rw [List.mem_reverse] at hc
  have := (List.dropWhile_sublist (fun d => d == 48) (l := ds.reverse)).subset hc
  exact List.mem_reverse.mp this

/-- The fraction written by `appendNano` is read back by `parseNanoseconds`. -/
theorem parseNanoseconds_trimZeros (n : Nat) (h0 : n ≠ 0) (h9 : n < 10 ^ 9) :
    trimZeros (fixedDigits 9 n) ≠ []
    ∧ (∀ c ∈ trimZeros (fixedDigits 9 n), isDigit c = true)
    ∧ parseNanoseconds (trimZeros (fixedDigits 9 n)) = n := by
  have hspec := trimZeros_spec (fixedDigits 9 n)
  have hlen := fixedDigits_length 9 n
  have hval := parseUint_fixedDigits 9 n h9
  have hle : (trimZeros (fixedDigits 9 n)).length ≤ 9 := by
    have := congrArg List.length hspec
    simp only [List.length_append, List.length_replicate, hlen] at this
    omega
  have hp : parseUint (trimZeros (fixedDigits 9 n))
      * 10 ^ (9 - (trimZeros (fixedDigits 9 n)).length) = n := by
    have := congrArg parseUint hspec
    rw [parseUint_append, parseUint_replicate_zero, List.length_replicate, hval, hlen] at this
    omega
  refine ⟨?_, ?_, ?_⟩
  · intro he
    rw [he] at hp
    simp [parseUint] at hp
    exact h0 hp.symm
  · intro c hc
    exact fixedDigits_digits 9 n c (trimZeros_subset _ c hc)
  · unfold parseNanoseconds
    rw [List.take_of_length_le hle]
    exact hp

theorem fixedDigits_two (n : Nat) :
    fixedDigits 2 n = [digitChar (n / 10 % 10), digitChar (n % 10)] := by
  simp [fixedDigits]

theorem fixedDigits_four (n : Nat) :
    fixedDigits 4 n = [digitChar (n / 10 / 10 / 10 % 10), digitChar (n / 10 / 10 % 10),
      digitChar (n / 10 % 10), digitChar (n % 10)] := by
  simp [fixedDigits]

/-- The RFC 3339 text of a well-formed time, byte by byte. -/
theorem formatRFC3339Nano_wf (t : Time) (h : t.wf) :
    formatRFC3339Nano t
      = digitChar (t.year.toNat / 10 / 10 / 10 % 10) :: digitChar (t.year.toNat / 10 / 10 % 10)
        :: digitChar (t.year.toNat / 10 % 10) :: digitChar (t.year.toNat % 10) :: 45
        :: digitChar (t.month / 10 % 10) :: digitChar (t.month % 10) :: 45
        :: digitChar (t.day / 10 % 10) :: digitChar (t.day % 10) :: 84
        :: digitChar (t.hour / 10 % 10) :: digitChar (t.hour % 10) :: 58
        :: digitChar (t.minute / 10 % 10) :: digitChar (t.minute % 10) :: 58
        :: digitChar (t.second / 10 % 10) :: digitChar (t.second % 10)
        :: (appendNano t.nsec ++ [90]) := by
  obtain ⟨h1, h2, h3, h4, h5, h6, h7, h8, h9, h10⟩ := h
  have hd : daysIn t.month t.year.toNat ≤ 31 := by
    unfold daysIn; split_ifs <;> omega
  have hy : t.year = ((t.year.toNat : Nat) : Int) := by omega
  unfold formatRFC3339Nano
  rw [hy, appendInt_fixed 4 t.year.toNat (by omega) (by norm_num; omega),
    appendInt_fixed 2 t.month (by omega) (by norm_num; omega),
    appendInt_fixed 2 t.day (by omega) (by norm_num; omega),
    appendInt_fixed 2 t.hour (by omega) (by norm_num; omega),
    appendInt_fixed 2 t.minute (by omega) (by norm_num; omega),
    appendInt_fixed 2 t.second (by omega) (by norm_num; omega)]
  simp only [fixedDigits_two, fixedDigits_four, Int.toNat_ofNat, List.cons_append,
    List.nil_append, List.append_assoc]

theorem parseUint_two (a b : Nat) :
    parseUint [digitChar a, digitChar b] = a * 10 + b := by
  simp [parseUint, digitChar]

theorem parseUint_four (a b c d : Nat) :
    parseUint [digitChar a, digitChar b, digitChar c, digitChar d]
      = ((a * 10 + b) * 10 + c) * 10 + d := by
  simp [parseUint, digitChar]

/-- The fraction and the zone of the RFC 3339 text are read back. -/
theorem parse_fraction (nsec : Nat) (h : nsec ≤ 999999999) :
    parseFraction (appendNano nsec ++ [90]) = (nsec, [90]) := by
  unfold parseFraction
  by_cases h0 : nsec = 0
  · subst h0
    simp [appendNano]
  · obtain ⟨k1, k2, k3⟩ := parseNanoseconds_trimZeros nsec h0 (by norm_num; omega)
    have hA : appendNano nsec = 46 :: trimZeros (fixedDigits 9 nsec) := by
      unfold appendNano
      rw [if_neg h0, appendInt_fixed 9 nsec (by omega) (by norm_num; omega)]
    have hZ : isDigit 90 = false := by decide
    have htw : (trimZeros (fixedDigits 9 nsec) ++ [90]).takeWhile isDigit
        = trimZeros (fixedDigits 9 nsec) := by
      rw [List.takeWhile_append_of_pos k2, List.takeWhile_cons_of_neg (by simp [hZ])]
      simp
    have hdw : (trimZeros (fixedDigits 9 nsec) ++ [90]).dropWhile isDigit = [90] := by
      rw [List.dropWhile_append_of_pos k2, List.dropWhile_cons_of_neg (by simp [hZ])]
    rw [hA]
    simp only [List.cons_append, htw, hdw, k1, if_false, k3]

/-- The function `parseRFC3339` on a text of at least nineteen bytes. -/
theorem parseRFC3339_cons (y1 y2 y3 y4 c1 m1 m2 c2 d1 d2 c3 h1 h2 c4 n1 n2 c5 s1 s2 : Nat)
    (rest : List Nat) :
    parseRFC3339 (y1 :: y2 :: y3 :: y4 :: c1 :: m1 :: m2 :: c2 :: d1 :: d2 :: c3 :: h1 :: h2
        :: c4 :: n1 :: n2 :: c5 :: s1 :: s2 :: rest)
      = if ([y1, y2, y3, y4, m1, m2, d1, d2, h1, h2, n1, n2, s1, s2].all isDigit) = false
        then none
        else if ¬ (c1 = 45 ∧ c2 = 45 ∧ c3 = 84 ∧ c4 = 58 ∧ c5 = 58) then none
        else
          if ¬ (1 ≤ parseUint [m1, m2] ∧ parseUint [m1, m2] ≤ 12 ∧ 1 ≤ parseUint [d1, d2]
              ∧ parseUint [d1, d2] ≤ daysIn (parseUint [m1, m2]) (parseUint [y1, y2, y3, y4])
              ∧ parseUint [h1, h2] ≤ 23 ∧ parseUint [n1, n2] ≤ 59
              ∧ parseUint [s1, s2] ≤ 59) then none
          else
            if (parseFraction rest).2 = [90] then
              some { year := (parseUint [y1, y2, y3, y4] : Nat),
                     month := parseUint [m1, m2], day := parseUint [d1, d2],
                     hour := parseUint [h1, h2], minute := parseUint [n1, n2],
                     second := parseUint [s1, s2],
                     nsec := (parseFraction rest).1 }
            else none := rfl

/-- Reading back the RFC 3339 text of a well-formed time. -/
theorem parseRFC3339_format (t : Time) (h : t.wf) :
    parseRFC3339 (formatRFC3339Nano t) = some t := by
  rw [formatRFC3339Nano_wf t h]
  obtain ⟨h1, h2, h3, h4, h5, h6, h7, h8, h9, h10⟩ := h
  have hd : daysIn t.month t.year.toNat ≤ 31 := by
    unfold daysIn; split_ifs <;> omega
  have hfrac := parse_fraction t.nsec h10
  have hy : parseUint [digitChar (t.year.toNat / 10 / 10 / 10 % 10),
      digitChar (t.year.toNat / 10 / 10 % 10), digitChar (t.year.toNat / 10 % 10),
      digitChar (t.year.toNat % 10)] = t.year.toNat := by
    rw [parseUint_four]; omega
  have hm : parseUint [digitChar (t.month / 10 % 10), digitChar (t.month % 10)] = t.month := by
    rw [parseUint_two]; omega
  have hdy : parseUint [digitChar (t.day / 10 % 10), digitChar (t.day % 10)] = t.day := by
    rw [parseUint_two]; omega
  have hh : parseUint [digitChar (t.hour / 10 % 10), digitChar (t.hour % 10)] = t.hour := by
    rw [parseUint_two]; omega
  have hmi : parseUint [digitChar (t.minute / 10 % 10), digitChar (t.minute % 10)]
      = t.minute := by
    rw [parseUint_two]; omega
  have hs : parseUint [digitChar (t.second / 10 % 10), digitChar (t.second % 10)]
      = t.second := by
    rw [parseUint_two]; omega
  have hyy : ((t.year.toNat : Nat) : Int) = t.year := by omega
  rw [parseRFC3339_cons, hy, hm, hdy, hh, hmi, hs, hfrac]
  rw [if_neg (by simp [isDigit_digitChar_mod]), if_neg (by simp),
    if_neg (by
      intro hc
      exact hc ⟨h3, h4, h5, h6, h7, h8, h9⟩), if_pos rfl, hyy]

theorem formatRFC3339Nano_no_quote (t : Time) (h : t.wf) :
    ∀ c ∈ formatRFC3339Nano t, (c != 0x22) = true := by
  have hdc : ∀ k : Nat, (digitChar (k % 10) != 0x22) = true := by
    intro k
    simp only [digitChar, bne_iff_ne, ne_eq]
    omega
  intro c hc
  rw [formatRFC3339Nano_wf t h] at hc
  simp only [List.mem_cons, List.mem_append, List.mem_singleton, List.mem_nil_iff,
    or_false] at hc
  have hnano : ∀ c ∈ appendNano t.nsec, (c != 0x22) = true := by
    intro c hc
    unfold appendNano at hc
    split at hc
    · simp at hc
    · rcases List.mem_cons.mp hc with rfl | hc
      · decide
      · have h9 : t.nsec ≤ 999999999 := h.2.2.2.2.2.2.2.2.2
        rw [appendInt_fixed 9 t.nsec (by omega) (by norm_num; omega)] at hc
        have := fixedDigits_digits 9 t.nsec c (trimZeros_subset _ c hc)
        simp only [isDigit, decide_eq_true_eq] at this
        simp only [bne_iff_ne, ne_eq]
        omega
  rcases hc with rfl | rfl | rfl | rfl | rfl | rfl | rfl | rfl | rfl | rfl | rfl | rfl | rfl
    | rfl | rfl | rfl | rfl | rfl | rfl | hc | rfl
  all_goals first | exact hdc _ | decide | exact hnano _ hc

set_option maxRecDepth 100000

/-! ## The payload and its decoding -/

theorem expect_append (p r : List Nat) : expect p (p ++ r) = some r := by
  unfold expect
  rw [if_pos (by simp)]
  simp

theorem jsonMarshal_ok (ev : auditEvent) (h0 : 0 ≤ ev.CreatedAt.year)
    (h1 : ev.CreatedAt.year ≤ 9999) :
    jsonMarshal ev
      = .ok (lit "\x7b\"action\":" ++ appendString ev.Action
          ++ lit ",\"user_id\":" ++ formatInt ev.UserID
          ++ lit ",\"remote_ip\":" ++ appendString ev.RemoteIP
          ++ lit ",\"created_at\":\"" ++ formatRFC3339Nano ev.CreatedAt ++ lit "\"\x7d") := by
  have hy : ¬ (ev.CreatedAt.year < 0 ∨ 10000 ≤ ev.CreatedAt.year) := by omega
  have hl1 : lit ",\"created_at\":\"" = lit ",\"created_at\":" ++ [34] := by decide
  have hl2 : lit "\"\x7d" = [34] ++ lit "\x7d" := by decide
  simp only [jsonMarshal, Time.MarshalJSON, hy, if_false, hl1, hl2, List.append_assoc]

/-- Decoding the object `json.Marshal` writes for an event with valid strings, a user id
that is a Go `int` and a well-formed time gives the event back. -/
theorem jsonUnmarshal_payload (ev : auditEvent) (hA : ValidUTF8 ev.Action)
    (hR : ValidUTF8 ev.RemoteIP) (hlo : -(2 ^ 63) ≤ ev.UserID) (hhi : ev.UserID < 2 ^ 63)
    (hT : ev.CreatedAt.wf) :
    jsonUnmarshal (lit "\x7b\"action\":" ++ appendString ev.Action
          ++ lit ",\"user_id\":" ++ formatInt ev.UserID
          ++ lit ",\"remote_ip\":" ++ appendString ev.RemoteIP
          ++ lit ",\"created_at\":\"" ++ formatRFC3339Nano ev.CreatedAt ++ lit "\"\x7d")
      = some ev := by
  have hp3 : lit ",\"remote_ip\":" = 44 :: lit "\"remote_ip\":" := by decide
  have hq : lit "\"\x7d" = [34, 125] := by decide
  have hnq := formatRFC3339Nano_no_quote ev.CreatedAt hT
  have htw : (formatRFC3339Nano ev.CreatedAt ++ [34, 125]).takeWhile (fun c => c != 0x22)
      = formatRFC3339Nano ev.CreatedAt := by
    rw [List.takeWhile_append_of_pos hnq, List.takeWhile_cons_of_neg (by decide)]
    simp
  have hdw : (formatRFC3339Nano ev.CreatedAt ++ [34, 125]).dropWhile (fun c => c != 0x22)
      = [34, 125] := by
    rw [List.dropWhile_append_of_pos hnq, List.dropWhile_cons_of_neg (by decide)]
  unfold jsonUnmarshal
  simp only [List.append_assoc]
  rw [expect_append]
  simp only
  rw [parseString_appendString ev.Action hA]
  simp only
  rw [expect_append]
  simp only
  rw [hp3, List.cons_append, parseInt_formatInt ev.UserID 44 _ (by decide) hlo hhi]
  simp only
  rw [← List.cons_append, ← hp3, expect_append]
  simp only
  rw [parseString_appendString ev.RemoteIP hR]
  simp only
  rw [expect_append]
  simp only
  rw [hq, htw, hdw, parseRFC3339_format ev.CreatedAt hT]
  simp

/-- With the sink enabled and an event that serialises, `handleAudit` makes one upload
call, whatever the storage client answers. -/
theorem handleAudit_uploadCalls (s : AuditService) (i : IntegrationService) (ev : auditEvent)
    (payload : List Nat) (put : Option GoError) (hi : s.integration = some i)
    (hen : i.enabled = true) (hm : jsonMarshal ev = .ok payload) :
    uploadCalls (handleAudit s ev put).2 = [(objectName ev, payload)] := by
  cases put with
  | none =>
    have : handleAudit s ev none
        = (s, [.log (auditRecord ev), .uploadAuditLog (objectName ev) payload,
               .putObject i.bucket (objectName ev) payload (lit "application/json")]) := by
      simp [handleAudit, hm, UploadAuditLog, hi, IntegrationService.Enabled, hen]
    rw [this]; rfl
  | some err =>
    have : handleAudit s ev (some err)
        = ((pushErr s (lit "upload audit log: " ++ err)).1,
           [.log (auditRecord ev), .uploadAuditLog (objectName ev) payload,
            .putObject i.bucket (objectName ev) payload (lit "application/json")]
            ++ (pushErr s (lit "upload audit log: " ++ err)).2) := by
      simp [handleAudit, hm, UploadAuditLog, hi, IntegrationService.Enabled, hen]
    rw [this]
    simp only [uploadCalls_append, (pushErr_frame s _).2.2.2.2.2.2.2.2.2.1, List.append_nil]
    rfl

/-- C6, amended: for an audit event whose action and remote address are valid UTF-8, whose
user id is a Go `int` and whose creation time is a UTC time with a year from 0 to 9999,
`json.Marshal` does not fail; the payload is the object with the members `action`,
`user_id`, `remote_ip`, `created_at` in this order, the time in RFC 3339 form with
nanoseconds; with the sink enabled this payload is what `handleAudit` hands to the upload
call; and decoding it gives back the same action, user id, remote address and time. -/
theorem C6_payload_round_trips_valid_utf8 (s : AuditService) (i : IntegrationService)
    (ev : auditEvent) (put : Option GoError)
    (hi : s.integration = some i) (hen : i.enabled = true)
    (hA : ValidUTF8 ev.Action) (hR : ValidUTF8 ev.RemoteIP)
    (hlo : -(2 ^ 63) ≤ ev.UserID) (hhi : ev.UserID < 2 ^ 63) (hT : ev.CreatedAt.wf) :
    jsonMarshal ev
      = .ok (lit "\x7b\"action\":" ++ appendString ev.Action
          ++ lit ",\"user_id\":" ++ formatInt ev.UserID
          ++ lit ",\"remote_ip\":" ++ appendString ev.RemoteIP
          ++ lit ",\"created_at\":\"" ++ formatRFC3339Nano ev.CreatedAt ++ lit "\"\x7d")
    ∧ uploadCalls (handleAudit s ev put).2
      = [(objectName ev, lit "\x7b\"action\":" ++ appendString ev.Action
          ++ lit ",\"user_id\":" ++ formatInt ev.UserID
          ++ lit ",\"remote_ip\":" ++ appendString ev.RemoteIP
          ++ lit ",\"created_at\":\"" ++ formatRFC3339Nano ev.CreatedAt ++ lit "\"\x7d")]
    ∧ jsonUnmarshal (lit "\x7b\"action\":" ++ appendString ev.Action
          ++ lit ",\"user_id\":" ++ formatInt ev.UserID
          ++ lit ",\"remote_ip\":" ++ appendString ev.RemoteIP
          ++ lit ",\"created_at\":\"" ++ formatRFC3339Nano ev.CreatedAt ++ lit "\"\x7d")
      = some ev := by
  have hm := jsonMarshal_ok ev hT.1 hT.2.1
  exact ⟨hm, handleAudit_uploadCalls s i ev _ put hi hen hm,
    jsonUnmarshal_payload ev hA hR hlo hhi hT⟩

/-- C6 on the event `CREATE`, 42, `10.0.0.1` created at 2024-01-02T03:04:05.12Z. -/
theorem C6_payload_round_trips_valid_utf8_witness :
    jsonUnmarshal (lit ("\x7b\"action\":\"CREATE\",\"user_id\":42,\"remote_ip\":\"10.0.0.1\","
        ++ "\"created_at\":\"2024-01-02T03:04:05.12Z\"\x7d"))
      = some ⟨lit "CREATE", 42, lit "10.0.0.1", ⟨2024, 1, 2, 3, 4, 5, 120000000⟩⟩ :=
  (C6_payload_round_trips_valid_utf8 (NewAuditService (some ⟨lit "logs", true⟩))
    ⟨lit "logs", true⟩ ⟨lit "CREATE", 42, lit "10.0.0.1", ⟨2024, 1, 2, 3, 4, 5, 120000000⟩⟩
    none rfl rfl ⟨[67, 82, 69, 65, 84, 69], by decide, by decide⟩
    ⟨[49, 48, 46, 48, 46, 48, 46, 49], by decide, by decide⟩ (by decide) (by decide)
    (by decide)).2.2

/-- C6 as stated fails. An event whose creation time has the year 10000 is not serialised:
`json.Marshal` returns an error. And an action that is not valid UTF-8 is not reproduced:
the actions `0xFF` and `0xFE` give the same payload, which decodes to the action U+FFFD. -/
theorem C6_counterexample :
    jsonMarshal ⟨lit "CREATE", 42, lit "10.0.0.1", ⟨10000, 1, 1, 0, 0, 0, 0⟩⟩
      = .error (lit ("json: error calling MarshalJSON for type time.Time: "
          ++ "Time.MarshalJSON: year outside of range [0,9999]"))
    ∧ jsonMarshal ⟨[0xFF], 42, lit "10.0.0.1", ⟨2024, 1, 2, 3, 4, 5, 0⟩⟩
      = .ok (lit ("\x7b\"action\":\"\\ufffd\",\"user_id\":42,\"remote_ip\":\"10.0.0.1\","
          ++ "\"created_at\":\"2024-01-02T03:04:05Z\"\x7d"))
    ∧ jsonMarshal ⟨[0xFE], 42, lit "10.0.0.1", ⟨2024, 1, 2, 3, 4, 5, 0⟩⟩
      = .ok (lit ("\x7b\"action\":\"\\ufffd\",\"user_id\":42,\"remote_ip\":\"10.0.0.1\","
          ++ "\"created_at\":\"2024-01-02T03:04:05Z\"\x7d"))
    ∧ jsonUnmarshal (lit ("\x7b\"action\":\"\\ufffd\",\"user_id\":42,\"remote_ip\":\"10.0.0.1\","
          ++ "\"created_at\":\"2024-01-02T03:04:05Z\"\x7d"))
      = some ⟨[0xEF, 0xBF, 0xBD], 42, lit "10.0.0.1", ⟨2024, 1, 2, 3, 4, 5, 0⟩⟩
    ∧ jsonUnmarshal (lit ("\x7b\"action\":\"\\ufffd\",\"user_id\":42,\"remote_ip\":\"10.0.0.1\","
          ++ "\"created_at\":\"2024-01-02T03:04:05Z\"\x7d"))
      ≠ some ⟨[0xFF], 42, lit "10.0.0.1", ⟨2024, 1, 2, 3, 4, 5, 0⟩⟩ := by
  refine ⟨rfl, rfl, rfl, by decide, by decide⟩

end GoMicros
